import Mathlib

/-!
# TrackLink protocol engine (AefPharus / PharusLasertracking)

A shallow embedding of `TrackLinkClient` (ThirdParty/TrackLink.cpp, the AefPharus
version) and of the parts of `UDPManager` it drives, followed by theorems about
the track registry, the record parser, the frame reassembly and the receiver list.
The receive path of the legacy plugin (PharusLasertracking), the wall-region lookup
of `UAefPharusInstance` and the index bookkeeping of `UAefPharusActorPool` are
embedded as well, each in a section of its own.

Conventions of the embedding.

* A byte is a `Nat` (below 256 on the wire).  A 32-bit field (`unsigned int`,
  `TrackState`, `float`) is the `Nat` below `2^32` holding its bit pattern; floats
  are never computed with, only copied by `memcpy`, so the bit pattern is all the
  code ever sees.  `memcpy` of four bytes is little-endian (the build is
  `PLATFORM_WINDOWS`).
* `recvBuf` is an array of 20480 bytes.  `UDPManager::Receive` zeroes the region it
  is offered (`memset(pBuff, 0, iSize)`) before `recvfrom` stores the datagram, and
  both calls in `receiveData` offer the array up to its end, so whenever the parse
  loop runs the array holds the bytes received followed by zeros.  The embedding
  keeps the list of the bytes received and reads zero behind them.  A read at index
  20480 or beyond has no defined behaviour in C++; the readers return `none` there,
  and `none` is propagated to the result of the whole parse.
* An `ITrackReceiver*` is a `Nat`, `0` being `nullptr`.  A callback invocation is
  recorded as a `Callback` value; the result of an operation is the new client
  state together with the list of callbacks it made, in order.
-/

namespace pharus

/-! ## Data model (TrackLink.h) -/

/-- Two-dimensional value; each component is the bit pattern of a `float`. -/
structure PharusVector2f where
  x : Nat
  y : Nat
deriving DecidableEq, Repr

/-- Enumerator `TS_NEW` of `TrackState`. -/
def TS_NEW : Nat := 0
/-- Enumerator `TS_CONT` of `TrackState`. -/
def TS_CONT : Nat := 1
/-- Enumerator `TS_OFF` of `TrackState`. -/
def TS_OFF : Nat := 2

/-- All information of a track.  `state` holds the four bytes copied from the wire,
which the code only ever compares with `TS_OFF`. -/
structure TrackRecord where
  trackID : Nat
  currentPos : PharusVector2f
  expectPos : PharusVector2f
  relPos : PharusVector2f
  orientation : PharusVector2f
  speed : Nat
  state : Nat
  echoes : List PharusVector2f
deriving DecidableEq, Repr

/-- Value-initialised record, `TrackRecord()`. -/
def TrackRecord.zero : TrackRecord :=
  ⟨0, ⟨0, 0⟩, ⟨0, 0⟩, ⟨0, 0⟩, ⟨0, 0⟩, 0, 0, []⟩

/-- `std::map<unsigned int, TrackRecord>`: the entries in the order of the list. -/
abbrev TrackMap := List (Nat × TrackRecord)

/-- `trackMap.find(tid)`: the record stored under `tid`, `none` for `end()`. -/
def TrackMap.find : TrackMap → Nat → Option TrackRecord
  | [], _ => none
  | (k, v) :: t, tid => if k = tid then some v else TrackMap.find t tid

/-- `trackMap.insert(pair(tid, v))`: keeps the keys ascending and leaves the map
alone when the key is already there. -/
def TrackMap.insert : TrackMap → Nat → TrackRecord → TrackMap
  | [], tid, v => [(tid, v)]
  | (k, w) :: t, tid, v =>
    if tid < k then (tid, v) :: (k, w) :: t
    else if tid = k then (k, w) :: t
    else (k, w) :: TrackMap.insert t tid v

/-- Writes through the reference `track = trackIter->second`: the entry found under
`tid` takes the value `v`. -/
def TrackMap.assign : TrackMap → Nat → TrackRecord → TrackMap
  | [], _, _ => []
  | (k, w) :: t, tid, v =>
    if k = tid then (k, v) :: t else (k, w) :: TrackMap.assign t tid v

/-- `trackMap.erase(trackIter)` for the iterator found under `tid`. -/
def TrackMap.erase : TrackMap → Nat → TrackMap
  | [], _ => []
  | (k, w) :: t, tid => if k = tid then t else (k, w) :: TrackMap.erase t tid

/-- The three virtual methods of `ITrackReceiver`. -/
inductive CallbackKind where
  | onTrackNew
  | onTrackUpdate
  | onTrackLost
deriving DecidableEq, Repr

/-- One invocation `receiver->kind(record)`. -/
structure Callback where
  receiver : Nat
  kind : CallbackKind
  record : TrackRecord
deriving DecidableEq, Repr

/-- The shared members of `TrackLinkClient`. -/
structure TrackLinkClient where
  trackReceivers : List Nat
  trackMap : TrackMap
deriving DecidableEq, Repr

/-! ## Receiver list (TrackLink.cpp 55-87) -/

/-- `TrackLinkClient::registerTrackReceiver`. -/
def registerTrackReceiver (c : TrackLinkClient) (newReceiver : Nat) :
    TrackLinkClient × List Callback :=
  if newReceiver = 0 then (c, [])
  else if newReceiver ∈ c.trackReceivers then (c, [])
  else
    (⟨c.trackReceivers ++ [newReceiver], c.trackMap⟩,
      c.trackMap.filterMap fun iter =>
        if iter.2.state ≠ TS_OFF then some ⟨newReceiver, .onTrackNew, iter.2⟩ else none)

/-- `TrackLinkClient::unregisterTrackReceiver`: erases the first element equal to
`oldReceiver` and returns. -/
def unregisterTrackReceiver (c : TrackLinkClient) (oldReceiver : Nat) :
    TrackLinkClient × List Callback :=
  (⟨c.trackReceivers.erase oldReceiver, c.trackMap⟩, [])

/-! ## Record parser (TrackLink.cpp 162-260) -/

/-- Size of `recvBuf`. -/
def BUFSIZE : Nat := 20480

/-- `recvBuf[p]`: a byte received, zero behind the bytes received, `none` outside the
array. -/
def peek (buf : List Nat) (p : Nat) : Option Nat :=
  if p < BUFSIZE then some (buf.getD p 0) else none

/-- `memcpy(&field, recvBuf + p, 4)`. -/
def read32 (buf : List Nat) (p : Nat) : Option Nat :=
  match peek buf p, peek buf (p + 1), peek buf (p + 2), peek buf (p + 3) with
  | some b0, some b1, some b2, some b3 => some (b0 + 256 * b1 + 65536 * b2 + 16777216 * b3)
  | _, _, _, _ => none

/-- Two consecutive `float`s. -/
def readVec (buf : List Nat) (p : Nat) : Option PharusVector2f :=
  match read32 buf p, read32 buf (p + 4) with
  | some x, some y => some ⟨x, y⟩
  | _, _ => none

/-- The echo loop `while (recvBuf[curPos] == 'E')`, lines 209-217.  Returns the echoes
pushed and `curPos` after the loop.  The first argument bounds the number of
iterations; `readEchoes_fuel` shows that `BUFSIZE + 1` is never exhausted. -/
def readEchoes : Nat → List Nat → Nat → List PharusVector2f →
    Option (List PharusVector2f × Nat)
  | 0, _, _, _ => none
  | fuel + 1, buf, curPos, echoes =>
    match peek buf curPos with
    | none => none
    | some b =>
      if b = 69 then
        match readVec buf (curPos + 1) with
        | none => none
        | some e => readEchoes fuel buf (curPos + 10) (echoes ++ [e])
      else some (echoes, curPos)

/-- Lines 196-217: the fields of `track` as written by the `memcpy` sequence and the
echo loop, with `curPos` pointing just behind `tid` on entry and at the tail byte on
return. -/
def readTrack (buf : List Nat) (tid curPos : Nat) : Option (TrackRecord × Nat) :=
  match read32 buf curPos, readVec buf (curPos + 4), readVec buf (curPos + 12),
      readVec buf (curPos + 20), read32 buf (curPos + 28), readVec buf (curPos + 32) with
  | some state, some currentPos, some expectPos, some orientation, some speed, some relPos =>
    match readEchoes (BUFSIZE + 1) buf (curPos + 40) [] with
    | some (echoes, p) =>
      some (⟨tid, currentPos, expectPos, relPos, orientation, speed, state, echoes⟩, p)
    | none => none
  | _, _, _, _, _, _ => none

/-- The chain of `if`s in the dispatch loop, lines 244-257, for one receiver. -/
def notifyOne (unknownTrack : Bool) (trackCopy : TrackRecord) (receiver : Nat) :
    Option Callback :=
  if unknownTrack ∧ trackCopy.state ≠ TS_OFF then some ⟨receiver, .onTrackNew, trackCopy⟩
  else if ¬ unknownTrack ∧ trackCopy.state ≠ TS_OFF then
    some ⟨receiver, .onTrackUpdate, trackCopy⟩
  else if ¬ unknownTrack ∧ trackCopy.state = TS_OFF then
    some ⟨receiver, .onTrackLost, trackCopy⟩
  else none

/-- The loop `for (auto receiver : receiversCopy)`, lines 241-258. -/
def dispatch (receiversCopy : List Nat) (unknownTrack : Bool) (trackCopy : TrackRecord) :
    List Callback :=
  receiversCopy.filterMap (notifyOne unknownTrack trackCopy)

/-- Lines 186-217 on the map: `find`, `insert` of a value-initialised record when the
id is unknown, then the writes through `track`, which replace every field. -/
def storeTrack (m : TrackMap) (tid : Nat) (track : TrackRecord) : TrackMap :=
  TrackMap.assign
    (if (TrackMap.find m tid).isNone then TrackMap.insert m tid TrackRecord.zero else m)
    tid track

/-- Lines 186-258 for a block whose tail byte was found: the entry is stored, erased
again when the track was known and its state is `TS_OFF`, and the copy is dispatched
to the receivers copied under the lock. -/
def applyTrack (c : TrackLinkClient) (track : TrackRecord) :
    TrackLinkClient × List Callback :=
  let unknownTrack : Bool := (TrackMap.find c.trackMap track.trackID).isNone
  let m2 := storeTrack c.trackMap track.trackID track
  let m3 := if ¬ unknownTrack ∧ track.state = TS_OFF then TrackMap.erase m2 track.trackID
            else m2
  (⟨c.trackReceivers, m3⟩, dispatch c.trackReceivers unknownTrack track)

/-- The parse loop `while (curPos < recvSize)`, lines 163-260.  Every iteration
advances `curPos`, so `recvSize - curPos` iterations are enough; the first argument
bounds them (`parseLoop_fuel`).  The result is the client after the loop and the
callbacks made, `none` when a read left the array. -/
def parseLoop : Nat → List Nat → Nat → Nat → TrackLinkClient →
    Option (TrackLinkClient × List Callback)
  | 0, _, recvSize, curPos, c => if curPos < recvSize then none else some (c, [])
  | fuel + 1, buf, recvSize, curPos, c =>
    if curPos < recvSize then
      match peek buf curPos with
      | none => none
      | some hd =>
        if hd ≠ 84 then some (c, [])
        else
          match read32 buf (curPos + 1) with
          | none => none
          | some tid =>
            match readTrack buf tid (curPos + 5) with
            | none => none
            | some (track, p) =>
              match peek buf p with
              | none => none
              | some tl =>
                if tl ≠ 116 then
                  some (⟨c.trackReceivers, storeTrack c.trackMap tid track⟩, [])
                else
                  match parseLoop fuel buf recvSize (p + 1) (applyTrack c track).1 with
                  | none => none
                  | some (c', evs) => some (c', (applyTrack c track).2 ++ evs)
    else some (c, [])

/-- Lines 162-260 for a buffer holding `recvSize` received bytes. -/
def processBuffer (c : TrackLinkClient) (buf : List Nat) (recvSize : Nat) :
    Option (TrackLinkClient × List Callback) :=
  parseLoop recvSize buf recvSize 0 c

/-! ## Receive loop (TrackLink.cpp 138-262, UDPManager.cpp 516-561) -/

/-- Winsock's `SOCKET_ERROR`. -/
def SOCKET_ERROR : Int := -1

/-- Modelled from the spec: `SOCKET_TIMEOUT` is defined in InetAddr.h, which is not
among the sources; a timeout is a result distinct from a hard error and is not a
byte count, so it is the next negative value. -/
def SOCKET_TIMEOUT : Int := SOCKET_ERROR - 1

/-- What the operating system does in one call of `UDPManager::Receive` on the bound
socket: `select` runs out of time, `select` fails, `recvfrom` delivers a datagram,
or `recvfrom` fails. -/
inductive RecvOutcome where
  | timeout
  | selectError
  | datagram (d : List Nat)
  | recvError
deriving DecidableEq, Repr

/-- `memset` from `recvBuf + off` to the end of the array. -/
def zeroFrom (buf : List Nat) (off : Nat) : List Nat :=
  buf.take off ++ List.replicate (off - buf.length) 0

/-- `UDPManager::Receive(recvBuf + off, iSize)` with the receive timeout set, for a
region that ends with the array.  `select` returns before the buffer is touched;
otherwise the region is zeroed and `recvfrom` stores the datagram.  A datagram
longer than `iSize` is cut and reported as an error (Winsock, `WSAEMSGSIZE`). -/
def Receive (buf : List Nat) (off iSize : Nat) : RecvOutcome → List Nat × Int
  | .timeout => (buf, SOCKET_TIMEOUT)
  | .selectError => (buf, SOCKET_ERROR)
  | .datagram d =>
    if d.length ≤ iSize then (zeroFrom buf off ++ d, (d.length : Int))
    else (zeroFrom buf off ++ d.take iSize, SOCKET_ERROR)
  | .recvError => (zeroFrom buf off, SOCKET_ERROR)

/-- The locals of `receiveData` between two calls of `Receive`, with `threadExit`
unset.  `recvSize = 0`: the next call is the top-level one of line 140.
`recvSize > 0`: the thread is inside the reassembly loop and the next call is the one
of line 146. -/
structure RecvThread where
  client : TrackLinkClient
  recvBuf : List Nat
  recvSize : Nat
deriving DecidableEq, Repr

/-- After a receive that left `recvSize > 0` bytes: the test of the reassembly loop
(line 144), and the parse loop once the last byte is `'t'`. -/
def afterReceive (c : TrackLinkClient) (buf : List Nat) (recvSize : Nat) :
    Option (RecvThread × List Callback) :=
  if peek buf (recvSize - 1) ≠ some 116 then some (⟨c, buf, recvSize⟩, [])
  else
    match processBuffer c buf recvSize with
    | none => none
    | some (c', evs) => some (⟨c', buf, 0⟩, evs)

/-- One call of `Receive` and everything `receiveData` does until the next one. -/
def recvStep (s : RecvThread) (o : RecvOutcome) : Option (RecvThread × List Callback) :=
  if s.recvSize = 0 then
    let r := Receive s.recvBuf 0 BUFSIZE o
    if r.2 > 0 then afterReceive s.client r.1 r.2.toNat
    else some (⟨s.client, r.1, 0⟩, [])
  else
    let r := Receive s.recvBuf s.recvSize (BUFSIZE - s.recvSize) o
    if r.2 ≤ 0 then some (⟨s.client, r.1, 0⟩, [])
    else if (s.recvSize : Int) + r.2 > (BUFSIZE : Int) then some (⟨s.client, r.1, 0⟩, [])
    else afterReceive s.client r.1 (s.recvSize + r.2.toNat)

/-- The receive loop over a finite sequence of outcomes of `Receive`. -/
def recvRun : RecvThread → List RecvOutcome → Option (RecvThread × List Callback)
  | s, [] => some (s, [])
  | s, o :: os =>
    match recvStep s o with
    | none => none
    | some (s', evs) =>
      match recvRun s' os with
      | none => none
      | some (s'', evs') => some (s'', evs ++ evs')

/-! ## Wire encoding -/

/-- The four bytes of a 32-bit field, least significant first. -/
def bytes32 (n : Nat) : List Nat :=
  [n % 256, n / 256 % 256, n / 65536 % 256, n / 16777216 % 256]

/-- One echo group: `'E'`, x, y, `'e'`. -/
def encodeEcho (e : PharusVector2f) : List Nat :=
  69 :: (bytes32 e.x ++ bytes32 e.y ++ [101])

/-- The echo groups of a record, in order. -/
def encodeEchoes : List PharusVector2f → List Nat
  | [] => []
  | e :: es => encodeEcho e ++ encodeEchoes es

/-- One track block as the sender lays it out: `'T'`, id, state, currentPos, expectPos,
orientation, speed, relPos, the echo groups, `'t'`. -/
def encodeTrack (r : TrackRecord) : List Nat :=
  84 :: (bytes32 r.trackID ++ bytes32 r.state ++
    bytes32 r.currentPos.x ++ bytes32 r.currentPos.y ++
    bytes32 r.expectPos.x ++ bytes32 r.expectPos.y ++
    bytes32 r.orientation.x ++ bytes32 r.orientation.y ++
    bytes32 r.speed ++
    bytes32 r.relPos.x ++ bytes32 r.relPos.y ++
    encodeEchoes r.echoes ++ [116])

/-- The record of the scenario of the specification: positions zero, orientation (1, 0),
speed 0.5 (as `float` bit patterns), no echoes, with the given id and state. -/
def sampleTrack (id state : Nat) : TrackRecord :=
  ⟨id, ⟨0, 0⟩, ⟨0, 0⟩, ⟨0, 0⟩, ⟨1065353216, 0⟩, 1056964608, state, []⟩

/-- The receive thread at the top-level `Receive` with an empty map and the receiver
`1` registered. -/
def sampleThread : RecvThread := ⟨⟨[1], []⟩, [], 0⟩

/-- What a run of the receive loop shows to the outside: the client (receiver list and
track map) at its end and the callbacks made. -/
def observe (x : Option (RecvThread × List Callback)) :
    Option (TrackLinkClient × List Callback) :=
  x.map fun y => (y.1.client, y.2)

/-- Registrations one after the other, `registerTrackReceiver` for each element of the
list in turn. -/
def registerAll : TrackLinkClient → List Nat → TrackLinkClient
  | c, [] => c
  | c, r :: rs => registerAll (registerTrackReceiver c r).1 rs

/-- The callbacks of a list that go to the receiver `r`. -/
def callbacksTo (r : Nat) (evs : List Callback) : List Callback :=
  evs.filter fun e => decide (e.receiver = r)

/-- A client with receiver `1` registered and two entries in the map: a live one for
id 7 and one in state `TS_OFF` for id 8. -/
def sampleClient : TrackLinkClient :=
  ⟨[1], [(7, sampleTrack 7 TS_NEW), (8, sampleTrack 8 TS_OFF)]⟩

/-- The client states that the public operations and the receive thread can produce
from a freshly constructed client (no receiver, empty map). -/
inductive Reachable : TrackLinkClient → Prop where
  | init : Reachable ⟨[], []⟩
  | register (c : TrackLinkClient) (r : Nat) :
      Reachable c → Reachable (registerTrackReceiver c r).1
  | unregister (c : TrackLinkClient) (r : Nat) :
      Reachable c → Reachable (unregisterTrackReceiver c r).1
  | receive (c c' : TrackLinkClient) (buf : List Nat) (recvSize : Nat) (evs : List Callback) :
      Reachable c → processBuffer c buf recvSize = some (c', evs) → Reachable c'

/-- The first 45 bytes of a block: `'T'`, the id and the 40-byte body. -/
def encodeHead (r : TrackRecord) : List Nat :=
  84 :: (bytes32 r.trackID ++ bytes32 r.state ++
    bytes32 r.currentPos.x ++ bytes32 r.currentPos.y ++
    bytes32 r.expectPos.x ++ bytes32 r.expectPos.y ++
    bytes32 r.orientation.x ++ bytes32 r.orientation.y ++
    bytes32 r.speed ++
    bytes32 r.relPos.x ++ bytes32 r.relPos.y)

/-- The 32-bit fields of a block in wire order, the id first. -/
def fieldsOf (r : TrackRecord) : List Nat :=
  [r.trackID, r.state, r.currentPos.x, r.currentPos.y, r.expectPos.x, r.expectPos.y,
    r.orientation.x, r.orientation.y, r.speed, r.relPos.x, r.relPos.y]

/-- The fields of a list, four bytes each. -/
def encodeFields : List Nat → List Nat
  | [] => []
  | f :: fs => bytes32 f ++ encodeFields fs

/-- A transmission: the blocks of the records one after the other. -/
def encodeTracks : List TrackRecord → List Nat
  | [] => []
  | r :: rs => encodeTrack r ++ encodeTracks rs

/-- The records of a list delivered one datagram each, every datagram received whole
by a top-level `Receive` and parsed; the callbacks are kept per record. -/
def feedRecords : TrackLinkClient → List TrackRecord →
    Option (TrackLinkClient × List (List Callback))
  | c, [] => some (c, [])
  | c, r :: rs =>
    match processBuffer c (encodeTrack r) (encodeTrack r).length with
    | none => none
    | some (c', evs) =>
      match feedRecords c' rs with
      | none => none
      | some (c'', evss) => some (c'', evs :: evss)

/-- The registry after a list of accepted records, and the callbacks made. -/
def applyTracks : TrackLinkClient → List TrackRecord → TrackLinkClient × List Callback
  | c, [] => (c, [])
  | c, r :: rs =>
    ((applyTracks (applyTrack c r).1 rs).1, (applyTrack c r).2 ++ (applyTracks (applyTrack c r).1 rs).2)

/-- Both components are 32-bit patterns. -/
def PharusVector2f.wf (v : PharusVector2f) : Prop := v.x < 4294967296 ∧ v.y < 4294967296

/-- Every field of the record is a 32-bit pattern. -/
def TrackRecord.wf (r : TrackRecord) : Prop :=
  r.trackID < 4294967296 ∧ r.state < 4294967296 ∧ r.speed < 4294967296 ∧
  r.currentPos.wf ∧ r.expectPos.wf ∧ r.relPos.wf ∧ r.orientation.wf ∧
  ∀ e ∈ r.echoes, e.wf

instance (v : PharusVector2f) : Decidable v.wf := by
  unfold PharusVector2f.wf
  exact inferInstance

instance (r : TrackRecord) : Decidable r.wf := by
  unfold TrackRecord.wf
  exact inferInstance

/-- The callbacks of one kind for one record, one per receiver in list order. -/
def notifyAll (receivers : List Nat) (kind : CallbackKind) (r : TrackRecord) : List Callback :=
  receivers.map fun rc => ⟨rc, kind, r⟩

/-! ## UDPManager (UDPManager.cpp 74-112) and the constructors (TrackLink.cpp 27-47) -/

/-- Winsock's `INVALID_SOCKET`, `(SOCKET)(~0)` on a 64-bit build. -/
def INVALID_SOCKET : Nat := 18446744073709551615

/-- The member of `UDPManager` that `Create`, `Bind` and `Close` work on.  The other
members (timeouts, remote address, last error) are not touched by them. -/
structure UDPManager where
  m_hSocket : Nat
deriving DecidableEq, Repr

/-- A freshly constructed `UDPManager`. -/
def UDPManager.fresh : UDPManager := ⟨INVALID_SOCKET⟩

/-- What a call of `Close` leaves: the object, the value returned, and the handles
that were passed to the operating system's `closesocket`, in order. -/
structure CloseResult where
  state : UDPManager
  ret : Bool
  osCalls : List Nat
deriving DecidableEq, Repr

/-- `UDPManager::Close`.  The first argument is the operating system's `closesocket`:
its answer for a handle, `SOCKET_ERROR` on failure. -/
def UDPManager.Close (closesocket : Nat → Int) (u : UDPManager) : CloseResult :=
  if u.m_hSocket = INVALID_SOCKET then ⟨u, false, []⟩
  else if closesocket u.m_hSocket = SOCKET_ERROR then ⟨u, false, [u.m_hSocket]⟩
  else ⟨⟨INVALID_SOCKET⟩, true, [u.m_hSocket]⟩

/-- `UDPManager::Create`.  The first argument is what the operating system's `socket`
returns, `INVALID_SOCKET` on failure. -/
def UDPManager.Create (socket : Nat) (u : UDPManager) : UDPManager × Bool :=
  if u.m_hSocket ≠ INVALID_SOCKET then (u, false)
  else (⟨socket⟩, decide (socket ≠ INVALID_SOCKET))

/-- `UDPManager::Bind`.  The first argument tells whether the operating system's
`bind` succeeds. -/
def UDPManager.Bind (bindOK : Bool) (u : UDPManager) : Bool :=
  if u.m_hSocket = INVALID_SOCKET then false else bindOK

/-- `UDPManager::BindMcast`: `Bind`, then the `setsockopt` that joins the group, whose
success is the second argument. -/
def UDPManager.BindMcast (bindOK joinOK : Bool) (u : UDPManager) : Bool :=
  if ¬ UDPManager.Bind bindOK u then false else joinOK

/-- The members that the constructors of `TrackLinkClient` initialise, and whether
`recvThread` has been started when the constructor returns. -/
structure Construction where
  threadExit : Bool
  multicast : Bool
  localIP : Nat
  port : Nat
  multicastGroup : Nat
  recvThreadStarted : Bool
deriving DecidableEq, Repr

/-- `TrackLinkClient(bool, const char*, unsigned short, const char*)`.  Pointers are
numbers, `0` for `nullptr`; the argument for `_port` is converted to
`unsigned short`, that is taken modulo 65536. -/
def TrackLinkClient.construct (_multicast : Bool) (_localIP : Nat) (_port : Int)
    (_multicastGroup : Nat) : Construction :=
  ⟨false, _multicast, _localIP, (_port % 65536).toNat, _multicastGroup, true⟩

/-- `TrackLinkClient(bool, unsigned short, const char*)`: `localIP` is `nullptr`. -/
def TrackLinkClient.constructAny (_multicast : Bool) (_port : Int) (_multicastGroup : Nat) :
    Construction :=
  ⟨false, _multicast, 0, (_port % 65536).toNat, _multicastGroup, true⟩

/-! ## The variable `recvSize` (TrackLink.cpp 97, 140-160) -/

/-- The `int` variable `recvSize` between two calls of `Receive`, and the place of the
next call: the top-level call of line 140, or (`inner`) the call of line 146 inside the
reassembly loop. -/
structure SizeState where
  recvSize : Int
  inner : Bool
deriving DecidableEq, Repr

/-- On entry to the receive loop: `int recvSize = 1`, next call at line 140. -/
def SizeState.init : SizeState := ⟨1, false⟩

/-- The arguments of the next call of `Receive`: the offset into `recvBuf` and the
length offered. -/
def nextCall (s : SizeState) : Int × Int :=
  if s.inner then (s.recvSize, 20480 - s.recvSize) else (0, 20480)

/-- Lines 140-160 on the variable, with `threadExit` unset: `ret` is the value the call
returns and `tail` tells whether `recvBuf[recvSize - 1]` is `'t'` when the test of
line 144 is made after it. -/
def sizeStep (s : SizeState) (ret : Int) (tail : Bool) : SizeState :=
  if s.inner then
    if ret ≤ 0 then ⟨0, false⟩
    else if s.recvSize + ret > 20480 then ⟨0, false⟩
    else ⟨s.recvSize + ret, !tail⟩
  else
    if ret > 0 then ⟨ret, !tail⟩ else ⟨ret, false⟩

/-- The states after each call of a sequence of calls. -/
def sizeRun : SizeState → List (Int × Bool) → List SizeState
  | _, [] => []
  | s, (ret, tail) :: rest => sizeStep s ret tail :: sizeRun (sizeStep s ret tail) rest

/-- The calls of a sequence: offset, length offered, value returned. -/
def callTrace : SizeState → List (Int × Bool) → List (Int × Int × Int)
  | _, [] => []
  | s, (ret, tail) :: rest =>
    ((nextCall s).1, (nextCall s).2, ret) :: callTrace (sizeStep s ret tail) rest

/-- Every call of the sequence returns at most the length it was offered. -/
def Admissible : SizeState → List (Int × Bool) → Prop
  | _, [] => True
  | s, (ret, tail) :: rest => ret ≤ (nextCall s).2 ∧ Admissible (sizeStep s ret tail) rest

instance decAdmissible : ∀ (s : SizeState) (l : List (Int × Bool)), Decidable (Admissible s l)
  | _, [] => isTrue trivial
  | s, (ret, tail) :: rest =>
    have := decAdmissible (sizeStep s ret tail) rest
    inferInstanceAs (Decidable (ret ≤ (nextCall s).2 ∧ Admissible (sizeStep s ret tail) rest))

/-- The bound that the reassembly keeps: at most 20480, and positive inside the
reassembly loop. -/
def SizeState.ok (s : SizeState) : Prop :=
  s.recvSize ≤ 20480 ∧ (s.inner = true → 0 < s.recvSize)

/-! ## The receive thread as a whole (TrackLink.cpp 94-270) -/

/-- The calls that `receiveData` makes on `udpman`, with their arguments and, for the
calls whose result it tests, the result. -/
inductive SocketOp where
  | Create (ok : Bool)
  | Bind (usPort localIP : Nat) (ok : Bool)
  | BindMcast (pMcast localIP usPort : Nat) (ok : Bool)
  | SetTimeoutReceive (seconds : Nat)
  | Close
  | Receive (off iSize : Nat)
deriving DecidableEq, Repr

/-- Where `receiveData` stands between two steps: at the head of the connection loop
(line 101), in the receive loop (line 138, or line 144 when `recvSize` of the thread
is not zero), or past the end of the function. -/
inductive Phase where
  | connecting
  | bound
  | ended
deriving DecidableEq, Repr

/-- The state of the thread: the phase, the `unique_ptr` `udpman` (`none` for null) and
the state of the receive loop. -/
structure Thread where
  phase : Phase
  udpman : Option UDPManager
  recv : RecvThread
deriving DecidableEq, Repr

/-- What the surroundings supply for one step: the value of `threadExit` when the loop
head reads it; what `socket` returns and whether `bind` and the group join succeed,
for the case that an attempt is made; the outcome of `Receive`, for the case that it
is called.  `threadExit` is only ever set, so a step reads it once. -/
structure StepEnv where
  threadExit : Bool
  socket : Nat
  bindOK : Bool
  joinOK : Bool
  outcome : RecvOutcome
deriving DecidableEq, Repr

/-- Lines 113-122: the bind that the configuration asks for, and its result. -/
def bindOp (cfg : Construction) (e : StepEnv) (u : UDPManager) : SocketOp :=
  if cfg.multicast then
    .BindMcast cfg.multicastGroup cfg.localIP cfg.port (UDPManager.BindMcast e.bindOK e.joinOK u)
  else .Bind cfg.port cfg.localIP (UDPManager.Bind e.bindOK u)

/-- Whether the bind of `bindOp` succeeded. -/
def bindResult (cfg : Construction) (e : StepEnv) (u : UDPManager) : Bool :=
  if cfg.multicast then UDPManager.BindMcast e.bindOK e.joinOK u else UDPManager.Bind e.bindOK u

/-- Lines 264-269: `if (udpman) { udpman->Close(); udpman.reset(); }`. -/
def finishOps (udpman : Option UDPManager) : List SocketOp :=
  if udpman.isSome then [.Close] else []

/-- One step of `receiveData`: one pass through the connection loop, or one call of
`Receive` with what follows it, or the way out when `threadExit` is set. -/
def threadStep (cfg : Construction) (t : Thread) (e : StepEnv) :
    Option (Thread × List SocketOp × List Callback) :=
  match t.phase with
  | .connecting =>
    if e.threadExit then some (⟨.ended, none, t.recv⟩, finishOps t.udpman, [])
    else
      let created := UDPManager.Create e.socket UDPManager.fresh
      if ¬ created.2 then some (⟨.connecting, none, t.recv⟩, [.Create false], [])
      else if ¬ bindResult cfg e created.1 then
        some (⟨.connecting, none, t.recv⟩, [.Create true, bindOp cfg e created.1, .Close], [])
      else
        some (⟨.bound, some created.1, t.recv⟩,
          [.Create true, bindOp cfg e created.1, .SetTimeoutReceive 1], [])
  | .bound =>
    if t.recv.recvSize = 0 then
      if e.threadExit then some (⟨.ended, none, t.recv⟩, finishOps t.udpman, [])
      else
        match recvStep t.recv e.outcome with
        | none => none
        | some (r, evs) => some (⟨.bound, t.udpman, r⟩, [.Receive 0 BUFSIZE], evs)
    else
      if e.threadExit then
        match processBuffer t.recv.client t.recv.recvBuf t.recv.recvSize with
        | none => none
        | some (c, evs) =>
          some (⟨.ended, none, ⟨c, t.recv.recvBuf, 0⟩⟩, finishOps t.udpman, evs)
      else
        match recvStep t.recv e.outcome with
        | none => none
        | some (r, evs) =>
          some (⟨.bound, t.udpman, r⟩,
            [.Receive t.recv.recvSize (BUFSIZE - t.recv.recvSize)], evs)
  | .ended => some (t, [], [])

/-- The thread over a sequence of steps: the state reached, the calls made on
`udpman` and the callbacks made, in order. -/
def threadRun (cfg : Construction) : Thread → List StepEnv →
    Option (Thread × List SocketOp × List Callback)
  | t, [] => some (t, [], [])
  | t, e :: es =>
    match threadStep cfg t e with
    | none => none
    | some (t', ops, evs) =>
      match threadRun cfg t' es with
      | none => none
      | some (t'', ops', evs') => some (t'', ops ++ ops', evs ++ evs')

/-- The thread when `receiveData` is entered: `udpman` null, nothing received. -/
def Thread.start (c : TrackLinkClient) : Thread := ⟨.connecting, none, ⟨c, [], 0⟩⟩

/-- An attempt that fails: `socket` gives no socket, or the bind asked for fails. -/
def attemptFails (cfg : Construction) (e : StepEnv) : Bool :=
  !(UDPManager.Create e.socket UDPManager.fresh).2 ||
    !bindResult cfg e (UDPManager.Create e.socket UDPManager.fresh).1

/-- The calls of an attempt that fails: a `Create` that fails, or a `Create` that
succeeds, the bind that fails, and the `Close` of the socket. -/
def failedAttemptOps (cfg : Construction) (e : StepEnv) : List SocketOp :=
  if ¬ (UDPManager.Create e.socket UDPManager.fresh).2 then [.Create false]
  else [.Create true, bindOp cfg e (UDPManager.Create e.socket UDPManager.fresh).1, .Close]

/-- The op is a call of `Receive`. -/
def SocketOp.isReceive : SocketOp → Bool
  | .Receive _ _ => true
  | _ => false

/-- The op is a call of `Create`, `Bind` or `BindMcast`. -/
def SocketOp.isConnect : SocketOp → Bool
  | .Create _ => true
  | .Bind _ _ _ => true
  | .BindMcast _ _ _ _ => true
  | _ => false

/-- The configuration of the default constructor call: multicast, no interface given,
port 44345, no group given. -/
def sampleConfig : Construction := TrackLinkClient.construct true 0 44345 0

/-- A step in which `socket` gives no socket. -/
def envCreateFails : StepEnv := ⟨false, INVALID_SOCKET, true, true, .timeout⟩

/-- A step in which the socket 5 is created and `bind` fails. -/
def envBindFails : StepEnv := ⟨false, 5, false, true, .timeout⟩

/-- A step that reads `threadExit` as set. -/
def envShutdown : StepEnv := ⟨true, 5, true, true, .timeout⟩

/-- A step with `threadExit` unset and the given outcome of `Receive`. -/
def envReceive (o : RecvOutcome) : StepEnv := ⟨false, 6, true, true, o⟩

/-! ## The mutex (TrackLink.cpp 55-92, 176-259) -/

/-- A call that the body of a receiver's callback makes back into the client. -/
inductive Reentry where
  | register (r : Nat)
  | unregister (r : Nat)
deriving DecidableEq, Repr

/-- The client together with `recvMutex`: `held` while a `lock_guard` on it is alive. -/
structure Guarded where
  client : TrackLinkClient
  held : Bool
deriving DecidableEq, Repr

/-- One invocation of a receiver method: the callback, the state of the mutex at the
moment of the call, and who made it: the dispatch loop of the receive path
(`byDispatch`) or `registerTrackReceiver`. -/
structure Invocation where
  callback : Callback
  mutexHeld : Bool
  byDispatch : Bool
deriving DecidableEq, Repr

/-- A call back into the client made while the calling thread holds `recvMutex`.  It
returns when it leaves before its `lock_guard`: `registerTrackReceiver` for a null or
an already registered receiver, `unregisterTrackReceiver` for a receiver that is not
in the list.  Otherwise it waits for the mutex that its own thread holds
(`std::mutex` is not recursive) and never returns. -/
def Reentry.returnsUnderLock (c : TrackLinkClient) : Reentry → Bool
  | .register r => decide (r = 0 ∨ r ∈ c.trackReceivers)
  | .unregister r => decide (r ∉ c.trackReceivers)

/-- `registerTrackReceiver` with the mutex; `body` gives the calls that the body of a
receiver method makes back into the client when it is invoked.  The null test and the
search of the list come before the `lock_guard`; the `lock_guard` on a mutex that is
held never returns, which is `none`.  The callbacks to the new receiver are made
under the lock, before the `push_back`, and their bodies run there: a call of theirs
that goes for the mutex never returns, and the others leave the client as it is. -/
def guardedRegister (body : Invocation → List Reentry) (g : Guarded) (newReceiver : Nat) :
    Option (Guarded × List Invocation) :=
  if newReceiver = 0 then some (g, [])
  else if newReceiver ∈ g.client.trackReceivers then some (g, [])
  else if g.held then none
  else if ((registerTrackReceiver g.client newReceiver).2.all fun cb =>
      (body ⟨cb, true, false⟩).all (Reentry.returnsUnderLock g.client)) then
    some (⟨(registerTrackReceiver g.client newReceiver).1, false⟩,
      (registerTrackReceiver g.client newReceiver).2.map fun cb => ⟨cb, true, false⟩)
  else none

/-- `unregisterTrackReceiver` with the mutex: the `lock_guard` is taken once the
receiver has been found. -/
def guardedUnregister (g : Guarded) (oldReceiver : Nat) : Option (Guarded × List Invocation) :=
  if oldReceiver ∈ g.client.trackReceivers then
    if g.held then none
    else some (⟨(unregisterTrackReceiver g.client oldReceiver).1, false⟩, [])
  else some (g, [])

/-- The calls of a callback body, one after the other. -/
def runReentries (body : Invocation → List Reentry) :
    List Reentry → Guarded → Option (Guarded × List Invocation)
  | [], g => some (g, [])
  | .register r :: rest, g =>
    match guardedRegister body g r with
    | none => none
    | some (g', invs) =>
      match runReentries body rest g' with
      | none => none
      | some (g'', invs') => some (g'', invs ++ invs')
  | .unregister r :: rest, g =>
    match guardedUnregister g r with
    | none => none
    | some (g', invs) =>
      match runReentries body rest g' with
      | none => none
      | some (g'', invs') => some (g'', invs ++ invs')

/-- The dispatch loop of lines 241-258 when the body of each callback is run. -/
def guardedDispatch (body : Invocation → List Reentry) :
    List Nat → Bool → TrackRecord → Guarded → Option (Guarded × List Invocation)
  | [], _, _, g => some (g, [])
  | receiver :: rest, unknownTrack, trackCopy, g =>
    match notifyOne unknownTrack trackCopy receiver with
    | none => guardedDispatch body rest unknownTrack trackCopy g
    | some cb =>
      match runReentries body (body ⟨cb, g.held, true⟩) g with
      | none => none
      | some (g', invs) =>
        match guardedDispatch body rest unknownTrack trackCopy g' with
        | none => none
        | some (g'', invs') => some (g'', ⟨cb, g.held, true⟩ :: (invs ++ invs'))

/-- Lines 176-259 for a block whose tail byte was found, with the mutex: the
`lock_guard` of line 183, the critical section in which the entry is stored,
`trackCopy` and `receiversCopy` are taken and the entry is erased if need be, the
release at line 236, and the dispatch loop over the copies. -/
def guardedApplyTrack (body : Invocation → List Reentry) (g : Guarded) (track : TrackRecord) :
    Option (Guarded × List Invocation) :=
  if g.held then none
  else
    let unknownTrack : Bool := (TrackMap.find g.client.trackMap track.trackID).isNone
    let trackCopy := track
    let receiversCopy := g.client.trackReceivers
    guardedDispatch body receiversCopy unknownTrack trackCopy
      ⟨⟨g.client.trackReceivers, (applyTrack g.client track).1.trackMap⟩, false⟩

/-- A receiver whose methods, when the dispatch loop invokes them, register the
receiver 2, and make no call when `registerTrackReceiver` invokes them. -/
def bodyRegisters (inv : Invocation) : List Reentry :=
  if inv.byDispatch then [.register 2] else []

/-- Receivers whose methods register the receiver 2 whoever invokes them. -/
def bodyReenters (_ : Invocation) : List Reentry := [.register 2]

/-- The two containers that the threads share. -/
inductive SharedVar where
  | trackMap
  | trackReceivers
deriving DecidableEq, Repr

/-- What an operation does, in program order, as far as the mutex and the shared
containers go. -/
inductive Event where
  | lock
  | unlock
  | read (v : SharedVar)
  | write (v : SharedVar)
  | call (cb : Callback)
deriving DecidableEq, Repr

/-- `registerTrackReceiver`, lines 55-74. -/
def registerTrace (c : TrackLinkClient) (newReceiver : Nat) : List Event :=
  if newReceiver = 0 then []
  else
    .read .trackReceivers ::
      (if newReceiver ∈ c.trackReceivers then []
       else [.lock, .read .trackMap] ++ (registerTrackReceiver c newReceiver).2.map .call ++
         [.write .trackReceivers, .unlock])

/-- `unregisterTrackReceiver`, lines 76-87. -/
def unregisterTrace (c : TrackLinkClient) (oldReceiver : Nat) : List Event :=
  .read .trackReceivers ::
    (if oldReceiver ∈ c.trackReceivers then [.lock, .write .trackReceivers, .unlock] else [])

/-- `getTrackMap`, lines 89-92: the map is handed out by reference and read by the
caller. -/
def getTrackMapTrace : List Event := [.read .trackMap]

/-- Lines 182-259 of `receiveData` for one block: `tailFound` tells whether the byte
behind the echo groups is `'t'`. -/
def blockTrace (c : TrackLinkClient) (track : TrackRecord) (tailFound : Bool) : List Event :=
  [.lock, .read .trackMap] ++
    (if (TrackMap.find c.trackMap track.trackID).isNone then [.write .trackMap] else []) ++
    [.read .trackMap, .write .trackMap] ++
    (if tailFound then
      [.read .trackMap, .read .trackReceivers] ++
        (if ¬ (TrackMap.find c.trackMap track.trackID).isNone ∧ track.state = TS_OFF then
          [.write .trackMap] else []) ++
        [.unlock] ++ (applyTrack c track).2.map .call
     else [.unlock])

/-- Every event of a trace with the state of the mutex when it happens; the first
argument is the state before the trace. -/
def annotate : Bool → List Event → List (Event × Bool)
  | _, [] => []
  | _, .lock :: rest => (.lock, true) :: annotate true rest
  | h, .unlock :: rest => (.unlock, h) :: annotate false rest
  | h, e :: rest => (e, h) :: annotate h rest

/-- The event reads or writes a shared container. -/
def Event.isAccess : Event → Bool
  | .read _ => true
  | .write _ => true
  | _ => false

/-- The event writes a shared container. -/
def Event.isWrite : Event → Bool
  | .write _ => true
  | _ => false

/-! ## UDPManager::SetBlocking (UDPManager.cpp 829-847) -/

/-- What a call of `SetBlocking` leaves: the value returned and the calls
`ioctlsocket(handle, FIONBIO, &onL)` made, each as the handle and the value of `onL`. -/
structure IoctlResult where
  ret : Bool
  osCalls : List (Nat × Nat)
deriving DecidableEq, Repr

/-- `UDPManager::SetBlocking`.  The first argument is the operating system's
`ioctlsocket` for the command `FIONBIO`: its answer for a handle and a value of the
argument, `SOCKET_ERROR` on failure.  For `FIONBIO` a value of zero asks for blocking
mode and any other value for non-blocking mode. -/
def UDPManager.SetBlocking (ioctlsocket : Nat → Nat → Int) (u : UDPManager)
    (bIsBlockingA : Bool) : IoctlResult :=
  if u.m_hSocket = INVALID_SOCKET then ⟨false, []⟩
  else
    let onL : Nat := if bIsBlockingA then 1 else 0
    if ioctlsocket u.m_hSocket onL = SOCKET_ERROR then ⟨false, [(u.m_hSocket, onL)]⟩
    else ⟨true, [(u.m_hSocket, onL)]⟩

/-! ## Blocks with other bytes behind the echo pairs -/

/-- The echo groups of a block when the byte behind each pair of floats is the one
given with it, where the sender puts `'e'`. -/
def encodeEchoesWith : List (PharusVector2f × Nat) → List Nat
  | [] => []
  | em :: es => 69 :: (bytes32 em.1.x ++ bytes32 em.1.y ++ [em.2]) ++ encodeEchoesWith es

/-- The block of a record with the bytes `marks` behind its echo pairs, one for each
echo in order. -/
def encodeTrackWith (r : TrackRecord) (marks : List Nat) : List Nat :=
  encodeHead r ++ (encodeEchoesWith (r.echoes.zip marks) ++ [116])

/-- A New record for id 7 with one echo at (1, 2). -/
def sampleEchoTrack : TrackRecord :=
  ⟨7, ⟨0, 0⟩, ⟨0, 0⟩, ⟨0, 0⟩, ⟨1065353216, 0⟩, 1056964608, TS_NEW, [⟨1, 2⟩]⟩

/-- A datagram of 20480 bytes: 445 blocks of 46 bytes each (updates of track 7), then
`'T'`, eight zero bytes and `'t'`, the beginning of a block that is cut off. -/
def overrunDatagram : List Nat :=
  encodeTracks (List.replicate 445 (sampleTrack 7 TS_CONT)) ++ [84, 0, 0, 0, 0, 0, 0, 0, 0, 116]

/-! ## Wall regions (AefPharusTypes.h 35-104, AefPharusInstance.cpp 839-905) -/

/-- Enumeration `EAefPharusWallSide`. -/
inductive EAefPharusWallSide where
  | Front
  | Left
  | Back
  | Right
  | Floor
  | Ceiling
deriving DecidableEq, Repr

/-- `FAefPharusWallRegion` as far as `FindWallRegion` looks at it: the side and the
tracking bounds.  `Box` stands for `FBox2D`. -/
structure FAefPharusWallRegion (Box : Type) where
  WallSide : EAefPharusWallSide
  TrackingBounds : Box

/-- `FAefPharusWallRegion::ContainsTrackPoint`: the bounds test of the engine,
`FBox2D::IsInside`, which is the first argument. -/
def FAefPharusWallRegion.ContainsTrackPoint {Box Point : Type} (IsInside : Box → Point → Bool)
    (Region : FAefPharusWallRegion Box) (TrackPos : Point) : Bool :=
  IsInside Region.TrackingBounds TrackPos

/-- Lines 848-863: the loop over `Config.WallRegions` from index `i` on, which adds a
pointer to every region that contains the point.  A pointer into the array is the
index together with the region it points to. -/
def collectMatching {Box Point : Type} (IsInside : Box → Point → Bool) (TrackPos : Point) :
    List (FAefPharusWallRegion Box) → Nat → List (Nat × FAefPharusWallRegion Box)
  | [], _ => []
  | Region :: rest, i =>
    if Region.ContainsTrackPoint IsInside TrackPos then
      (i, Region) :: collectMatching IsInside TrackPos rest (i + 1)
    else collectMatching IsInside TrackPos rest (i + 1)

/-- One of the four loops of lines 879-901: the first of the matching regions whose
side is the given one. -/
def firstOfSide {Box : Type} (side : EAefPharusWallSide) :
    List (Nat × FAefPharusWallRegion Box) → Option (Nat × FAefPharusWallRegion Box)
  | [] => none
  | Region :: rest => if Region.2.WallSide = side then some Region else firstOfSide side rest

/-- `UAefPharusInstance::FindWallRegion`; `none` is the null pointer. -/
def FindWallRegion {Box Point : Type} (IsInside : Box → Point → Bool)
    (WallRegions : List (FAefPharusWallRegion Box)) (TrackPos : Point) :
    Option (Nat × FAefPharusWallRegion Box) :=
  let MatchingRegions := collectMatching IsInside TrackPos WallRegions 0
  if MatchingRegions.length = 0 then none
  else if MatchingRegions.length = 1 then MatchingRegions.head?
  else
    match firstOfSide .Front MatchingRegions with
    | some Region => some Region
    | none =>
      match firstOfSide .Right MatchingRegions with
      | some Region => some Region
      | none =>
        match firstOfSide .Back MatchingRegions with
        | some Region => some Region
        | none =>
          match firstOfSide .Left MatchingRegions with
          | some Region => some Region
          | none => MatchingRegions.head?

/-- The first region of a list, in order, that satisfies `P`, with its index; the
second argument is the index of the head of the list. -/
def firstWhere {Box : Type} (P : FAefPharusWallRegion Box → Bool) :
    List (FAefPharusWallRegion Box) → Nat → Option (Nat × FAefPharusWallRegion Box)
  | [], _ => none
  | r :: rs, i => if P r then some (i, r) else firstWhere P rs (i + 1)

/-- Bounds on a line: the interval from the first to the second number, ends
excluded. -/
def sampleInside (b : Int × Int) (x : Int) : Bool := decide (b.1 < x ∧ x < b.2)

/-- Three regions: a floor over (0, 10), a left wall over (5, 15) and a front wall
over (8, 20). -/
def sampleRegions : List (FAefPharusWallRegion (Int × Int)) :=
  [⟨.Floor, (0, 10)⟩, ⟨.Left, (5, 15)⟩, ⟨.Front, (8, 20)⟩]

/-! ## Actor pool (AefPharusActorPool.cpp 17-227, AefPharusActorPool.h 122-152) -/

/-- The engine's `INDEX_NONE`. -/
def INDEX_NONE : Int := -1

/-- The members of `UAefPharusActorPool` that the pool management works on.  An
`AActor*` is a number, `0` being the null pointer; `FreeIndices` is an array of
`int32`. -/
structure UAefPharusActorPool where
  PooledActors : List Nat
  FreeIndices : List Int
  bIsInitialized : Bool
deriving DecidableEq, Repr

/-- `UAefPharusActorPool::Shutdown`, as far as the three members go. -/
def UAefPharusActorPool.Shutdown (pool : UAefPharusActorPool) : UAefPharusActorPool :=
  if ¬ pool.bIsInitialized then pool else ⟨[], [], false⟩

/-- The spawn loop of `Initialize`, lines 68-82, for the indices `i` of a list in
order: the arrays and `SuccessCount` after it.  `SpawnPooledActor i` is the actor that
the world spawns for index `i`, null when it spawns none. -/
def spawnLoop (SpawnPooledActor : Nat → Nat) :
    List Nat → List Nat × List Int × Nat → List Nat × List Int × Nat
  | [], acc => acc
  | i :: rest, (PooledActors, FreeIndices, SuccessCount) =>
    if SpawnPooledActor i ≠ 0 then
      spawnLoop SpawnPooledActor rest
        (PooledActors ++ [SpawnPooledActor i], FreeIndices ++ [(i : Int)], SuccessCount + 1)
    else spawnLoop SpawnPooledActor rest (PooledActors, FreeIndices, SuccessCount)

/-- `UAefPharusActorPool::Initialize`: the pool after the call and the value returned.
`InWorld` and `InActorClass` tell whether the two pointers are set. -/
def UAefPharusActorPool.Initialize (SpawnPooledActor : Nat → Nat) (InWorld InActorClass : Bool)
    (InPoolSize : Int) (pool : UAefPharusActorPool) : UAefPharusActorPool × Bool :=
  if ¬ InWorld then (pool, false)
  else if ¬ InActorClass then (pool, false)
  else if InPoolSize ≤ 0 then (pool, false)
  else
    let pool0 := if pool.bIsInitialized then pool.Shutdown else pool
    let r := spawnLoop SpawnPooledActor (List.range InPoolSize.toNat)
      (pool0.PooledActors, pool0.FreeIndices, 0)
    (⟨r.1, r.2.1, decide (r.2.2 > 0)⟩, decide (r.2.2 > 0))

/-- `PooledActors[Index]`: the array checks the index, and an index outside it stops
the program (`none`). -/
def UAefPharusActorPool.actorAt (pool : UAefPharusActorPool) (Index : Int) : Option Nat :=
  if 0 ≤ Index then pool.PooledActors[Index.toNat]? else none

/-- `UAefPharusActorPool::AcquireActor`: the pool after the call, the actor returned
and `OutPoolIndex`; `none` when the array is indexed out of range.  `IsValid` is the
engine's test of an actor pointer. -/
def UAefPharusActorPool.AcquireActor (IsValid : Nat → Bool) (pool : UAefPharusActorPool) :
    Option (UAefPharusActorPool × Nat × Int) :=
  if ¬ pool.bIsInitialized then some (pool, 0, INDEX_NONE)
  else
    match pool.FreeIndices with
    | [] => some (pool, 0, INDEX_NONE)
    | OutPoolIndex :: rest =>
      match pool.actorAt OutPoolIndex with
      | none => none
      | some Actor =>
        if Actor = 0 ∨ ¬ IsValid Actor then
          some (⟨pool.PooledActors, rest, pool.bIsInitialized⟩, 0, INDEX_NONE)
        else some (⟨pool.PooledActors, rest, pool.bIsInitialized⟩, Actor, OutPoolIndex)

/-- `UAefPharusActorPool::ReleaseActor`: the pool after the call and the value
returned. -/
def UAefPharusActorPool.ReleaseActor (IsValid : Nat → Bool) (pool : UAefPharusActorPool)
    (PoolIndex : Int) : UAefPharusActorPool × Bool :=
  if ¬ pool.bIsInitialized then (pool, false)
  else if PoolIndex < 0 ∨ PoolIndex ≥ (pool.PooledActors.length : Int) then (pool, false)
  else if PoolIndex ∈ pool.FreeIndices then (pool, false)
  else
    match pool.actorAt PoolIndex with
    | none => (pool, false)
    | some Actor =>
      if Actor = 0 ∨ ¬ IsValid Actor then (pool, false)
      else (⟨pool.PooledActors, pool.FreeIndices ++ [PoolIndex], pool.bIsInitialized⟩, true)

/-- `GetPoolSize`. -/
def UAefPharusActorPool.GetPoolSize (pool : UAefPharusActorPool) : Int :=
  (pool.PooledActors.length : Int)

/-- `GetActiveActorCount`. -/
def UAefPharusActorPool.GetActiveActorCount (pool : UAefPharusActorPool) : Int :=
  (pool.PooledActors.length : Int) - (pool.FreeIndices.length : Int)

/-- A world in which the spawn for index 0 fails and every other spawn gives the
actor `10 + i`. -/
def spawnSecondOnly (i : Nat) : Nat := if i = 0 then 0 else 10 + i

/-! ## The legacy receive path (PharusLasertracking, ThirdParty/TrackLink.cpp 148-244) -/

/-- The loop `for (auto receiver : trackReceivers)` of the legacy path, lines 220-240.
It runs under the lock on the map itself: `track` is a reference to the entry found
under `tid`, and the branch for a known track in state `TS_OFF` erases that entry
inside the loop.  Once the entry is gone the reference dangles, and a further
iteration has no defined behaviour (`none`). -/
def legacyNotify : List Nat → Bool → Nat → TrackMap → Option (TrackMap × List Callback)
  | [], _, _, m => some (m, [])
  | receiver :: rest, unknownTrack, tid, m =>
    match TrackMap.find m tid with
    | none => none
    | some track =>
      if unknownTrack ∧ track.state ≠ TS_OFF then
        match legacyNotify rest unknownTrack tid m with
        | none => none
        | some (m', evs) => some (m', ⟨receiver, .onTrackNew, track⟩ :: evs)
      else if ¬ unknownTrack ∧ track.state ≠ TS_OFF then
        match legacyNotify rest unknownTrack tid m with
        | none => none
        | some (m', evs) => some (m', ⟨receiver, .onTrackUpdate, track⟩ :: evs)
      else if ¬ unknownTrack ∧ track.state = TS_OFF then
        match legacyNotify rest unknownTrack tid (TrackMap.erase m tid) with
        | none => none
        | some (m', evs) => some (m', ⟨receiver, .onTrackLost, track⟩ :: evs)
      else legacyNotify rest unknownTrack tid m

/-- Legacy lines 174-241 for a block whose tail byte was found: the entry is stored
and the receivers are notified from the entry, under the lock. -/
def legacyApplyTrack (c : TrackLinkClient) (track : TrackRecord) :
    Option (TrackLinkClient × List Callback) :=
  let unknownTrack : Bool := (TrackMap.find c.trackMap track.trackID).isNone
  match legacyNotify c.trackReceivers unknownTrack track.trackID
      (storeTrack c.trackMap track.trackID track) with
  | none => none
  | some (m, evs) => some (⟨c.trackReceivers, m⟩, evs)

/-- The legacy parse loop, lines 162-242; the first argument bounds the iterations as
in `parseLoop`. -/
def legacyParseLoop : Nat → List Nat → Nat → Nat → TrackLinkClient →
    Option (TrackLinkClient × List Callback)
  | 0, _, recvSize, curPos, c => if curPos < recvSize then none else some (c, [])
  | fuel + 1, buf, recvSize, curPos, c =>
    if curPos < recvSize then
      match peek buf curPos with
      | none => none
      | some hd =>
        if hd ≠ 84 then some (c, [])
        else
          match read32 buf (curPos + 1) with
          | none => none
          | some tid =>
            match readTrack buf tid (curPos + 5) with
            | none => none
            | some (track, p) =>
              match peek buf p with
              | none => none
              | some tl =>
                if tl ≠ 116 then
                  some (⟨c.trackReceivers, storeTrack c.trackMap tid track⟩, [])
                else
                  match legacyApplyTrack c track with
                  | none => none
                  | some (c1, evs1) =>
                    match legacyParseLoop fuel buf recvSize (p + 1) c1 with
                    | none => none
                    | some (c', evs) => some (c', evs1 ++ evs)
    else some (c, [])

/-- Legacy lines 155-242 after a receive that left the `int` `recvSize`: the test of
the reassembly loop, which reads `recvBuf[recvSize - 1]` whatever `recvSize` is, and
the parse loop once that byte is `'t'`. -/
def legacyAfterReceive (c : TrackLinkClient) (buf : List Nat) (recvSize : Int) :
    Option (RecvThread × List Callback) :=
  if recvSize ≤ 0 then none
  else if peek buf (recvSize.toNat - 1) ≠ some 116 then some (⟨c, buf, recvSize.toNat⟩, [])
  else
    match legacyParseLoop recvSize.toNat buf recvSize.toNat 0 c with
    | none => none
    | some (c', evs) => some (⟨c', buf, 0⟩, evs)

/-- One call of `Receive` in the legacy path and everything up to the next one.  The
value returned inside the reassembly loop is added to `recvSize` unchecked. -/
def legacyRecvStep (s : RecvThread) (o : RecvOutcome) : Option (RecvThread × List Callback) :=
  if s.recvSize = 0 then
    let r := Receive s.recvBuf 0 BUFSIZE o
    if r.2 > 0 then legacyAfterReceive s.client r.1 r.2
    else some (⟨s.client, r.1, 0⟩, [])
  else
    let r := Receive s.recvBuf s.recvSize (BUFSIZE - s.recvSize) o
    legacyAfterReceive s.client r.1 ((s.recvSize : Int) + r.2)

/-- The legacy receive loop over a finite sequence of outcomes of `Receive`. -/
def legacyRecvRun : RecvThread → List RecvOutcome → Option (RecvThread × List Callback)
  | s, [] => some (s, [])
  | s, o :: os =>
    match legacyRecvStep s o with
    | none => none
    | some (s', evs) =>
      match legacyRecvRun s' os with
      | none => none
      | some (s'', evs') => some (s'', evs ++ evs')

/-- Every call of `Receive` in the run succeeds: it returns a positive count, which
it does when the datagram is not empty and fits the region offered.  The states are
those of the AefPharus receive loop. -/
def AllReceived : RecvThread → List RecvOutcome → Prop
  | _, [] => True
  | s, o :: os =>
    0 < (Receive s.recvBuf s.recvSize (BUFSIZE - s.recvSize) o).2 ∧
      match recvStep s o with
      | none => True
      | some (s', _) => AllReceived s' os

instance decAllReceived : ∀ (s : RecvThread) (os : List RecvOutcome), Decidable (AllReceived s os)
  | _, [] => isTrue trivial
  | s, o :: os =>
    match h : recvStep s o with
    | none =>
      decidable_of_iff (0 < (Receive s.recvBuf s.recvSize (BUFSIZE - s.recvSize) o).2)
        (by simp [AllReceived, h])
    | some (s', evs) =>
      have := decAllReceived s' os
      decidable_of_iff
        (0 < (Receive s.recvBuf s.recvSize (BUFSIZE - s.recvSize) o).2 ∧ AllReceived s' os)
        (by simp [AllReceived, h])

/-! ## The two loop heads of `receiveData` (TrackLink.cpp 99-146) -/

/-- One step of `receiveData` in which each loop head reads `threadExit` on its own.
When the connection loop ends because the flag is read as set (line 101), the thread
comes to the head of the receive loop (line 138) with `udpman` still null, and that
head reads the flag again.  A call of `Receive` through the null pointer has no
defined behaviour (`none`).  Everything else is `threadStep`. -/
def receiveDataStep (cfg : Construction) (t : Thread) (e : StepEnv) :
    Option (Thread × List SocketOp × List Callback) :=
  match t.phase with
  | .connecting =>
    if e.threadExit then some (⟨.bound, t.udpman, t.recv⟩, [], [])
    else threadStep cfg t e
  | .bound =>
    match t.udpman with
    | none => if e.threadExit then some (⟨.ended, none, t.recv⟩, [], []) else none
    | some _ => threadStep cfg t e
  | .ended => some (t, [], [])

/-- The thread over a sequence of such steps. -/
def receiveDataRun (cfg : Construction) : Thread → List StepEnv →
    Option (Thread × List SocketOp × List Callback)
  | t, [] => some (t, [], [])
  | t, e :: es =>
    match receiveDataStep cfg t e with
    | none => none
    | some (t', ops, evs) =>
      match receiveDataRun cfg t' es with
      | none => none
      | some (t'', ops', evs') => some (t'', ops ++ ops', evs ++ evs')

/-- The flag `threadExit` is never reset: once a step reads it as set, so does every
later step. -/
def FlagMonotone : List StepEnv → Prop
  | [] => True
  | e :: es => (e.threadExit = true → ∀ e' ∈ es, e'.threadExit = true) ∧ FlagMonotone es

instance decFlagMonotone : ∀ (es : List StepEnv), Decidable (FlagMonotone es)
  | [] => isTrue trivial
  | e :: es =>
    have := decFlagMonotone es
    inferInstanceAs (Decidable
      ((e.threadExit = true → ∀ e' ∈ es, e'.threadExit = true) ∧ FlagMonotone es))

/-- What the calls made so far have done to the socket behind `udpman`: there is none
(not created yet, `Create` failed, or closed); `Create` returned true; then `Bind` or
`BindMcast` returned true; then `SetTimeoutReceive(1)` was applied. -/
inductive SocketState where
  | absent
  | created
  | bound
  | ready
deriving DecidableEq, Repr

/-- The state of the socket after one more call. -/
def SocketState.after : SocketState → SocketOp → SocketState
  | _, .Create ok => if ok then .created else .absent
  | st, .Bind _ _ ok => if st = .created ∧ ok = true then .bound else st
  | st, .BindMcast _ _ _ ok => if st = .created ∧ ok = true then .bound else st
  | st, .SetTimeoutReceive seconds => if st = .bound ∧ seconds = 1 then .ready else st
  | _, .Close => .absent
  | st, .Receive _ _ => st

/-- The state of the socket after a list of calls. -/
def SocketState.afterAll : SocketState → List SocketOp → SocketState
  | st, [] => st
  | st, op :: ops => SocketState.afterAll (st.after op) ops

/-- Every `Receive` of the list is made on a socket that is ready. -/
def receivesReady : SocketState → List SocketOp → Prop
  | _, [] => True
  | st, op :: ops => (op.isReceive = true → st = .ready) ∧ receivesReady (st.after op) ops

/-- What the thread state says about the socket: at the connection loop `udpman` is
null; in the receive loop it is null with no socket, or points to an open socket that
is ready. -/
def Thread.agrees (t : Thread) (st : SocketState) : Prop :=
  match t.phase with
  | .connecting => t.udpman = none ∧ st = .absent
  | .bound =>
    (t.udpman = none ∧ st = .absent) ∨
      ∃ u, t.udpman = some u ∧ u.m_hSocket ≠ INVALID_SOCKET ∧ st = .ready
  | .ended => True

/-! ## The track map -/

theorem TrackMap.find_insert_of_none (m : TrackMap) (k : Nat) (v : TrackRecord)
    (h : TrackMap.find m k = none) : TrackMap.find (TrackMap.insert m k v) k = some v := by
  induction m with
  | nil => simp [TrackMap.insert, TrackMap.find]
  | cons a t ih =>
    obtain ⟨k', w⟩ := a
    simp only [TrackMap.find] at h
    split at h
    · simp at h
    · rename_i hne
      simp only [TrackMap.insert]
      split
      · simp [TrackMap.find]
      · split
        · rename_i heq
          exact absurd heq.symm hne
        · simp [TrackMap.find, hne, ih h]

theorem TrackMap.find_assign_self (m : TrackMap) (k : Nat) (v w : TrackRecord)
    (h : TrackMap.find m k = some w) : TrackMap.find (TrackMap.assign m k v) k = some v := by
  induction m with
  | nil => simp [TrackMap.find] at h
  | cons a t ih =>
    obtain ⟨k', w'⟩ := a
    simp only [TrackMap.find] at h
    simp only [TrackMap.assign]
    split
    · rename_i heq
      simp [TrackMap.find, heq]
    · rename_i hne
      simp only [hne, if_false] at h
      simp [TrackMap.find, hne, ih h]

theorem TrackMap.assign_assign (m : TrackMap) (k : Nat) (v w : TrackRecord) :
    TrackMap.assign (TrackMap.assign m k v) k w = TrackMap.assign m k w := by
  induction m with
  | nil => rfl
  | cons a t ih =>
    obtain ⟨k', w'⟩ := a
    simp only [TrackMap.assign]
    split
    · rename_i heq
      simp [TrackMap.assign, heq]
    · rename_i hne
      simp [TrackMap.assign, hne, ih]

theorem TrackMap.erase_assign_insert (m : TrackMap) (k : Nat) (z v : TrackRecord)
    (h : TrackMap.find m k = none) :
    TrackMap.erase (TrackMap.assign (TrackMap.insert m k z) k v) k = m := by
  induction m with
  | nil => simp [TrackMap.insert, TrackMap.assign, TrackMap.erase]
  | cons a t ih =>
    obtain ⟨k', w⟩ := a
    simp only [TrackMap.find] at h
    split at h
    · simp at h
    · rename_i hne
      simp only [TrackMap.insert]
      split
      · simp [TrackMap.assign, TrackMap.erase]
      · split
        · rename_i heq
          exact absurd heq.symm hne
        · simp [TrackMap.assign, TrackMap.erase, hne, ih h]

theorem storeTrack_of_none (m : TrackMap) (k : Nat) (v : TrackRecord)
    (h : TrackMap.find m k = none) :
    storeTrack m k v = TrackMap.assign (TrackMap.insert m k TrackRecord.zero) k v := by
  simp [storeTrack, h]

theorem storeTrack_of_some (m : TrackMap) (k : Nat) (v w : TrackRecord)
    (h : TrackMap.find m k = some w) : storeTrack m k v = TrackMap.assign m k v := by
  simp [storeTrack, h]

theorem find_storeTrack (m : TrackMap) (k : Nat) (v : TrackRecord) :
    TrackMap.find (storeTrack m k v) k = some v := by
  cases h : TrackMap.find m k with
  | none =>
    rw [storeTrack_of_none m k v h]
    exact TrackMap.find_assign_self _ k v _ (TrackMap.find_insert_of_none m k _ h)
  | some w =>
    rw [storeTrack_of_some m k v w h]
    exact TrackMap.find_assign_self _ k v w h

theorem storeTrack_storeTrack (m : TrackMap) (k : Nat) (v w : TrackRecord) :
    storeTrack (storeTrack m k v) k w = storeTrack m k w := by
  rw [storeTrack_of_some (storeTrack m k v) k w v (find_storeTrack m k v)]
  cases h : TrackMap.find m k with
  | none =>
    rw [storeTrack_of_none m k v h, storeTrack_of_none m k w h, TrackMap.assign_assign]
  | some u =>
    rw [storeTrack_of_some m k v u h, storeTrack_of_some m k w u h, TrackMap.assign_assign]

theorem erase_storeTrack_of_none (m : TrackMap) (k : Nat) (v : TrackRecord)
    (h : TrackMap.find m k = none) : TrackMap.erase (storeTrack m k v) k = m := by
  rw [storeTrack_of_none m k v h]
  exact TrackMap.erase_assign_insert m k _ v h

/-! ## Reading the wire encoding back -/

theorem le32_bytes32 (n : Nat) (h : n < 4294967296) :
    n % 256 + 256 * (n / 256 % 256) + 65536 * (n / 65536 % 256)
      + 16777216 * (n / 16777216 % 256) = n := by
  omega

theorem peek_append (pre l : List Nat) (k : Nat) (h : pre.length + k < BUFSIZE) :
    peek (pre ++ l) (pre.length + k) = some (l.getD k 0) := by
  simp [peek, h, List.getD_eq_getElem?_getD, List.getElem?_append_right]

theorem read32_append (pre l : List Nat) (k : Nat) (h : pre.length + k + 3 < BUFSIZE) :
    read32 (pre ++ l) (pre.length + k) =
      some (l.getD k 0 + 256 * l.getD (k + 1) 0 + 65536 * l.getD (k + 2) 0
        + 16777216 * l.getD (k + 3) 0) := by
  unfold read32
  rw [peek_append pre l k (by omega), Nat.add_assoc, peek_append pre l (k + 1) (by omega),
    Nat.add_assoc, peek_append pre l (k + 2) (by omega), Nat.add_assoc,
    peek_append pre l (k + 3) (by omega)]

theorem readVec_append (pre l : List Nat) (k : Nat) (h : pre.length + k + 7 < BUFSIZE) :
    readVec (pre ++ l) (pre.length + k) =
      some ⟨l.getD k 0 + 256 * l.getD (k + 1) 0 + 65536 * l.getD (k + 2) 0
          + 16777216 * l.getD (k + 3) 0,
        l.getD (k + 4) 0 + 256 * l.getD (k + 5) 0 + 65536 * l.getD (k + 6) 0
          + 16777216 * l.getD (k + 7) 0⟩ := by
  unfold readVec
  rw [read32_append pre l k (by omega),
    show pre.length + k + 4 = pre.length + (k + 4) from by omega,
    read32_append pre l (k + 4) (by omega)]

theorem encodeEcho_length (e : PharusVector2f) : (encodeEcho e).length = 10 := by
  simp [encodeEcho, bytes32]

theorem encodeEchoes_length (es : List PharusVector2f) :
    (encodeEchoes es).length = 10 * es.length := by
  induction es with
  | nil => rfl
  | cons e es ih => simp [encodeEchoes, encodeEcho_length, ih]; omega

theorem encodeTrack_length (r : TrackRecord) :
    (encodeTrack r).length = 46 + 10 * r.echoes.length := by
  simp only [encodeTrack, bytes32, List.length_cons, List.length_append, encodeEchoes_length,
    List.length_nil]
  omega

theorem readEchoes_encode (es : List PharusVector2f) :
    ∀ (pre post : List Nat) (acc : List PharusVector2f) (fuel : Nat),
      (∀ e ∈ es, e.wf) → es.length < fuel → pre.length + 10 * es.length < BUFSIZE →
      readEchoes fuel (pre ++ (encodeEchoes es ++ 116 :: post)) pre.length acc
        = some (acc ++ es, pre.length + 10 * es.length) := by
  induction es with
  | nil =>
    intro pre post acc fuel _ hf hlen
    obtain ⟨f, rfl⟩ : ∃ f, fuel = f + 1 := ⟨fuel - 1, by simp at hf; omega⟩
    have hp := peek_append pre (encodeEchoes [] ++ 116 :: post) 0 (by simpa using hlen)
    simp only [Nat.add_zero, encodeEchoes, List.nil_append, List.getD_cons_zero] at hp ⊢
    rw [readEchoes, hp]
    simp
  | cons e es ih =>
    intro pre post acc fuel hwf hf hlen
    obtain ⟨f, rfl⟩ : ∃ f, fuel = f + 1 := ⟨fuel - 1, by simp at hf; omega⟩
    simp only [List.length_cons] at hf hlen
    have hp := peek_append pre (encodeEchoes (e :: es) ++ 116 :: post) 0 (by omega)
    have hv := readVec_append pre (encodeEchoes (e :: es) ++ 116 :: post) 1 (by omega)
    simp only [Nat.add_zero] at hp
    have he : e.wf := hwf e (List.mem_cons_self _ _)
    have hx := le32_bytes32 e.x he.1
    have hy := le32_bytes32 e.y he.2
    have hrec := ih (pre ++ encodeEcho e) post (acc ++ [e]) f
      (fun e' h' => hwf e' (List.mem_cons_of_mem _ h')) (by omega)
      (by simp [encodeEcho_length]; omega)
    simp only [List.length_append, encodeEcho_length, List.append_assoc] at hrec
    simp only [encodeEchoes, encodeEcho, bytes32, List.cons_append, List.nil_append,
      List.append_assoc, List.getD_cons_zero, List.getD_cons_succ] at hp hv hrec ⊢
    simp only [hx, hy] at hv
    rw [readEchoes, hp]
    simp only [if_true, hv]
    rw [hrec]
    simp only [List.append_assoc, List.singleton_append, Option.some.injEq, Prod.mk.injEq,
      true_and, List.length_cons]
    omega

theorem encodeTrack_eq (r : TrackRecord) :
    encodeTrack r = encodeHead r ++ (encodeEchoes r.echoes ++ [116]) := by
  simp [encodeTrack, encodeHead]

theorem encodeHead_length (r : TrackRecord) : (encodeHead r).length = 45 := by
  simp [encodeHead, bytes32]

theorem encodeHead_eq (r : TrackRecord) : encodeHead r = 84 :: encodeFields (fieldsOf r) := by
  simp [encodeHead, encodeFields, fieldsOf]

theorem read32_fields (fs : List Nat) :
    ∀ (pre post : List Nat) (i : Nat), (∀ f ∈ fs, f < 4294967296) → i < fs.length →
      pre.length + 4 * i + 3 < BUFSIZE →
      read32 (pre ++ (encodeFields fs ++ post)) (pre.length + 4 * i) = some (fs.getD i 0) := by
  induction fs with
  | nil => intro pre post i _ hi; simp at hi
  | cons f fs ih =>
    intro pre post i hfs hi hb
    cases i with
    | zero =>
      have h := read32_append pre (encodeFields (f :: fs) ++ post) 0 (by omega)
      have hf := le32_bytes32 f (hfs f (List.mem_cons_self _ _))
      simp only [encodeFields, bytes32, List.cons_append, List.nil_append, List.append_assoc,
        List.getD_cons_zero, List.getD_cons_succ, Nat.zero_add, hf] at h
      simpa using h
    | succ j =>
      have h := ih (pre ++ bytes32 f) post j (fun g hg => hfs g (List.mem_cons_of_mem _ hg))
        (by simpa using hi) (by simp [bytes32]; omega)
      have hl : (pre ++ bytes32 f).length + 4 * j = pre.length + 4 * (j + 1) := by
        simp [bytes32]; omega
      rw [hl] at h
      simpa [encodeFields, List.append_assoc] using h

theorem read_field (r : TrackRecord) (hwf : r.wf) (pre post : List Nat) (i : Nat) (hi : i < 11)
    (hlen : pre.length + (encodeTrack r).length ≤ BUFSIZE) :
    read32 (pre ++ (encodeTrack r ++ post)) (pre.length + 1 + 4 * i)
      = some ((fieldsOf r).getD i 0) := by
  rw [encodeTrack_length] at hlen
  have hfs : ∀ f ∈ fieldsOf r, f < 4294967296 := by
    obtain ⟨hid, hst, hsp, hcp, hep, hrp, hor, _⟩ := hwf
    intro f hf
    simp only [fieldsOf, List.mem_cons, List.mem_singleton, List.not_mem_nil, or_false] at hf
    rcases hf with h | h | h | h | h | h | h | h | h | h | h <;> subst h
    · exact hid
    · exact hst
    · exact hcp.1
    · exact hcp.2
    · exact hep.1
    · exact hep.2
    · exact hor.1
    · exact hor.2
    · exact hsp
    · exact hrp.1
    · exact hrp.2
  have h := read32_fields (fieldsOf r) (pre ++ [84]) (encodeEchoes r.echoes ++ 116 :: post) i
    hfs (by simpa [fieldsOf] using hi) (by simp; omega)
  simpa [encodeTrack_eq, encodeHead_eq, List.append_assoc] using h

theorem readTrack_encode (r : TrackRecord) (hwf : r.wf) (pre post : List Nat)
    (hlen : pre.length + (encodeTrack r).length ≤ BUFSIZE) :
    peek (pre ++ (encodeTrack r ++ post)) pre.length = some 84 ∧
    read32 (pre ++ (encodeTrack r ++ post)) (pre.length + 1) = some r.trackID ∧
    readTrack (pre ++ (encodeTrack r ++ post)) r.trackID (pre.length + 5)
      = some (r, pre.length + 45 + 10 * r.echoes.length) ∧
    peek (pre ++ (encodeTrack r ++ post)) (pre.length + 45 + 10 * r.echoes.length)
      = some 116 := by
  have f0 := read_field r hwf pre post 0 (by omega) hlen
  have f1 := read_field r hwf pre post 1 (by omega) hlen
  have f2 := read_field r hwf pre post 2 (by omega) hlen
  have f3 := read_field r hwf pre post 3 (by omega) hlen
  have f4 := read_field r hwf pre post 4 (by omega) hlen
  have f5 := read_field r hwf pre post 5 (by omega) hlen
  have f6 := read_field r hwf pre post 6 (by omega) hlen
  have f7 := read_field r hwf pre post 7 (by omega) hlen
  have f8 := read_field r hwf pre post 8 (by omega) hlen
  have f9 := read_field r hwf pre post 9 (by omega) hlen
  have f10 := read_field r hwf pre post 10 (by omega) hlen
  simp only [fieldsOf, List.getD_cons_zero, List.getD_cons_succ, Nat.reduceMul, Nat.add_zero,
    Nat.add_assoc, Nat.reduceAdd] at f0 f1 f2 f3 f4 f5 f6 f7 f8 f9 f10
  rw [encodeTrack_length] at hlen
  have h0 := peek_append pre (encodeTrack r ++ post) 0 (by omega)
  have h8 := readEchoes_encode r.echoes (pre ++ encodeHead r) post [] (BUFSIZE + 1) hwf.2.2.2.2.2.2.2
    (by simp only [BUFSIZE] at hlen ⊢; omega)
    (by simp only [List.length_append, encodeHead_length]; omega)
  have h9 := peek_append (pre ++ encodeHead r ++ encodeEchoes r.echoes) (116 :: post) 0
    (by simp only [List.length_append, encodeHead_length, encodeEchoes_length]; omega)
  simp only [List.length_append, encodeHead_length, encodeEchoes_length, List.append_assoc,
    Nat.add_zero, List.getD_cons_zero, List.nil_append, Nat.add_assoc] at h8 h9
  have h0' : peek (pre ++ (encodeTrack r ++ post)) pre.length = some 84 := by
    simpa [encodeTrack] using h0
  refine ⟨h0', f0, ?_, ?_⟩
  · simp only [encodeTrack_eq, List.append_assoc, List.singleton_append] at f1 f2 f3 f4 f5 f6 f7 f8 f9 f10 ⊢
    simp only [readTrack, readVec, Nat.add_assoc, Nat.reduceAdd, f1, f2, f3, f4, f5, f6, f7, f8, f9,
      f10, h8, List.nil_append]
  · simp only [encodeTrack_eq, List.append_assoc, List.singleton_append, Nat.add_assoc]
    exact h9

/-! ## The loops and their iteration bounds -/

theorem readEchoes_pos (fuel : Nat) :
    ∀ (buf : List Nat) (q : Nat) (acc es : List PharusVector2f) (p : Nat),
      readEchoes fuel buf q acc = some (es, p) → q ≤ p := by
  induction fuel with
  | zero => intro buf q acc es p h; simp [readEchoes] at h
  | succ f ih =>
    intro buf q acc es p h
    rw [readEchoes] at h
    split at h
    · simp at h
    · split at h
      · split at h
        · simp at h
        · have := ih _ _ _ _ _ h
          omega
      · simp only [Option.some.injEq, Prod.mk.injEq] at h
        omega

theorem readEchoes_fuel (f1 : Nat) :
    ∀ (f2 : Nat) (buf : List Nat) (q : Nat) (acc : List PharusVector2f),
      BUFSIZE < q + f1 → BUFSIZE < q + f2 →
      readEchoes f1 buf q acc = readEchoes f2 buf q acc := by
  induction f1 with
  | zero =>
    intro f2 buf q acc h1 _
    have hp : peek buf q = none := by simp only [peek]; rw [if_neg (by omega)]
    cases f2 with
    | zero => rfl
    | succ g => simp [readEchoes, hp]
  | succ f ih =>
    intro f2 buf q acc h1 h2
    cases f2 with
    | zero =>
      have hp : peek buf q = none := by simp only [peek]; rw [if_neg (by omega)]
      simp [readEchoes, hp]
    | succ g =>
      rw [readEchoes, readEchoes]
      cases hp : peek buf q with
      | none => rfl
      | some b =>
        have hq : q < BUFSIZE := by
          simp only [peek] at hp
          by_contra hc
          rw [if_neg hc] at hp
          simp at hp
        simp only
        split
        · cases readVec buf (q + 1) with
          | none => rfl
          | some e => exact ih g buf (q + 10) (acc ++ [e]) (by omega) (by omega)
        · rfl

theorem readTrack_pos (buf : List Nat) (tid q : Nat) (t : TrackRecord) (p : Nat)
    (h : readTrack buf tid q = some (t, p)) : q + 40 ≤ p := by
  unfold readTrack at h
  split at h
  · split at h
    · rename_i he
      simp only [Option.some.injEq, Prod.mk.injEq] at h
      have := readEchoes_pos _ _ _ _ _ _ he
      omega
    · simp at h
  · simp at h

theorem parseLoop_fuel (f1 : Nat) :
    ∀ (f2 : Nat) (buf : List Nat) (recvSize curPos : Nat) (c : TrackLinkClient),
      recvSize - curPos ≤ f1 → recvSize - curPos ≤ f2 →
      parseLoop f1 buf recvSize curPos c = parseLoop f2 buf recvSize curPos c := by
  induction f1 with
  | zero =>
    intro f2 buf recvSize curPos c h1 _
    have hn : ¬ curPos < recvSize := by omega
    cases f2 with
    | zero => rfl
    | succ g => simp [parseLoop, hn]
  | succ f ih =>
    intro f2 buf recvSize curPos c h1 h2
    cases f2 with
    | zero =>
      have hn : ¬ curPos < recvSize := by omega
      simp [parseLoop, hn]
    | succ g =>
      rw [parseLoop, parseLoop]
      split
      · cases peek buf curPos with
        | none => rfl
        | some hd =>
          simp only
          split
          · rfl
          · cases read32 buf (curPos + 1) with
            | none => rfl
            | some tid =>
              simp only
              cases hr : readTrack buf tid (curPos + 5) with
              | none => rfl
              | some tp =>
                obtain ⟨track, p⟩ := tp
                have hpos := readTrack_pos _ _ _ _ _ hr
                simp only
                cases peek buf p with
                | none => rfl
                | some tl =>
                  simp only
                  split
                  · rfl
                  · rw [ih g buf recvSize (p + 1) _ (by omega) (by omega)]
      · rfl

theorem read32_congr (buf buf' : List Nat) (q p : Nat) (hq : q + 3 ≤ p)
    (h : ∀ i, i ≤ p → peek buf' i = peek buf i) : read32 buf' q = read32 buf q := by
  unfold read32
  rw [h q (by omega), h (q + 1) (by omega), h (q + 2) (by omega), h (q + 3) (by omega)]

theorem readVec_congr (buf buf' : List Nat) (q p : Nat) (hq : q + 7 ≤ p)
    (h : ∀ i, i ≤ p → peek buf' i = peek buf i) : readVec buf' q = readVec buf q := by
  unfold readVec
  rw [read32_congr buf buf' q p (by omega) h, read32_congr buf buf' (q + 4) p (by omega) h]

theorem readEchoes_congr (fuel : Nat) :
    ∀ (buf buf' : List Nat) (q : Nat) (acc es : List PharusVector2f) (p : Nat),
      readEchoes fuel buf q acc = some (es, p) →
      (∀ i, i ≤ p → peek buf' i = peek buf i) →
      readEchoes fuel buf' q acc = some (es, p) := by
  induction fuel with
  | zero => intro buf buf' q acc es p h; simp [readEchoes] at h
  | succ f ih =>
    intro buf buf' q acc es p h hag
    have hqp := readEchoes_pos _ _ _ _ _ _ h
    rw [readEchoes] at h ⊢
    rw [hag q hqp]
    cases hp : peek buf q with
    | none => rw [hp] at h; simp at h
    | some b =>
      rw [hp] at h
      simp only at h ⊢
      by_cases hb : b = 69
      · rw [if_pos hb] at h ⊢
        cases hv : readVec buf (q + 1) with
        | none => rw [hv] at h; simp at h
        | some e =>
          rw [hv] at h
          simp only at h
          have hpos := readEchoes_pos _ _ _ _ _ _ h
          rw [readVec_congr buf buf' (q + 1) p (by omega) hag, hv]
          exact ih buf buf' (q + 10) (acc ++ [e]) es p h hag
      · rw [if_neg hb] at h ⊢
        exact h

theorem readTrack_congr (buf buf' : List Nat) (tid q : Nat) (t : TrackRecord) (p : Nat)
    (h : readTrack buf tid q = some (t, p)) (hag : ∀ i, i ≤ p → peek buf' i = peek buf i) :
    readTrack buf' tid q = some (t, p) := by
  have hpos := readTrack_pos _ _ _ _ _ h
  unfold readTrack at h ⊢
  rw [read32_congr buf buf' q p (by omega) hag, readVec_congr buf buf' (q + 4) p (by omega) hag,
    readVec_congr buf buf' (q + 12) p (by omega) hag,
    readVec_congr buf buf' (q + 20) p (by omega) hag,
    read32_congr buf buf' (q + 28) p (by omega) hag,
    readVec_congr buf buf' (q + 32) p (by omega) hag]
  split at h
  · rename_i st cp ep ori sp rp h1 h2 h3 h4 h5 h6
    cases he : readEchoes (BUFSIZE + 1) buf (q + 40) [] with
    | none => rw [he] at h; simp at h
    | some x =>
      obtain ⟨es, p'⟩ := x
      rw [he] at h
      simp only [Option.some.injEq, Prod.mk.injEq] at h
      obtain ⟨ht, hp⟩ := h
      subst hp
      rw [readEchoes_congr _ buf buf' _ _ _ _ he hag]
      simp [ht]
  · simp at h

theorem parseLoop_missing_tail (fuel : Nat) (buf : List Nat) (recvSize curPos : Nat)
    (c : TrackLinkClient) (tid : Nat) (track : TrackRecord) (p tl : Nat)
    (hlt : curPos < recvSize) (hfuel : recvSize - curPos ≤ fuel)
    (hT : peek buf curPos = some 84) (hid : read32 buf (curPos + 1) = some tid)
    (hrd : readTrack buf tid (curPos + 5) = some (track, p))
    (htl : peek buf p = some tl) (hne : tl ≠ 116) :
    parseLoop fuel buf recvSize curPos c =
      some (⟨c.trackReceivers, storeTrack c.trackMap tid track⟩, []) := by
  obtain ⟨f, rfl⟩ : ∃ f, fuel = f + 1 := ⟨fuel - 1, by omega⟩
  rw [parseLoop, if_pos hlt, hT]
  simp only [ne_eq, not_true_eq_false, if_false, hid, hrd, htl]
  rw [if_pos hne]

/-! ## Parsing well-formed transmissions -/

theorem parseLoop_block (r : TrackRecord) (hwf : r.wf) (pre post : List Nat) (fuel recvSize : Nat)
    (c : TrackLinkClient) (hlt : pre.length < recvSize)
    (hlen : pre.length + (encodeTrack r).length ≤ BUFSIZE) :
    parseLoop (fuel + 1) (pre ++ (encodeTrack r ++ post)) recvSize pre.length c =
      match parseLoop fuel (pre ++ (encodeTrack r ++ post)) recvSize
          (pre.length + (encodeTrack r).length) (applyTrack c r).1 with
      | none => none
      | some (c', evs) => some (c', (applyTrack c r).2 ++ evs) := by
  obtain ⟨h0, h1, h2, h3⟩ := readTrack_encode r hwf pre post hlen
  have hpos : pre.length + 45 + 10 * r.echoes.length + 1 = pre.length + (encodeTrack r).length := by
    rw [encodeTrack_length]; omega
  rw [parseLoop, if_pos hlt, h0]
  simp only [ne_eq, not_true_eq_false, if_false, h1, h2, h3, hpos]

theorem encodeTracks_length_cons (r : TrackRecord) (rs : List TrackRecord) :
    (encodeTracks (r :: rs)).length = (encodeTrack r).length + (encodeTracks rs).length := by
  simp [encodeTracks]

theorem parseLoop_tracks (rs : List TrackRecord) :
    ∀ (pre post : List Nat) (fuel recvSize : Nat) (c : TrackLinkClient),
      (∀ r ∈ rs, r.wf) → recvSize = pre.length + (encodeTracks rs).length →
      recvSize ≤ BUFSIZE → (encodeTracks rs).length ≤ fuel →
      parseLoop fuel (pre ++ (encodeTracks rs ++ post)) recvSize pre.length c
        = some (applyTracks c rs) := by
  induction rs with
  | nil =>
    intro pre post fuel recvSize c _ hrs _ _
    have hn : ¬ pre.length < recvSize := by simp [encodeTracks] at hrs; omega
    cases fuel with
    | zero => simp [parseLoop, hn, applyTracks]
    | succ f => simp [parseLoop, hn, applyTracks]
  | cons r rs ih =>
    intro pre post fuel recvSize c hwf hrs hcap hfuel
    rw [encodeTracks_length_cons] at hrs hfuel
    have hr : r.wf := hwf r (List.mem_cons_self _ _)
    have hl := encodeTrack_length r
    obtain ⟨f, rfl⟩ : ∃ f, fuel = f + 1 := ⟨fuel - 1, by omega⟩
    have hb := parseLoop_block r hr pre (encodeTracks rs ++ post) f recvSize c (by omega)
      (by omega)
    have hrec := ih (pre ++ encodeTrack r) post f recvSize (applyTrack c r).1
      (fun r' h' => hwf r' (List.mem_cons_of_mem _ h')) (by simp; omega) hcap (by omega)
    simp only [List.length_append, List.append_assoc] at hrec
    simp only [encodeTracks, List.append_assoc]
    rw [hb, hrec]
    simp [applyTracks]

theorem processBuffer_encodeTracks (c : TrackLinkClient) (rs : List TrackRecord)
    (hwf : ∀ r ∈ rs, r.wf) (hcap : (encodeTracks rs).length ≤ BUFSIZE) :
    processBuffer c (encodeTracks rs) (encodeTracks rs).length = some (applyTracks c rs) := by
  have h := parseLoop_tracks rs [] [] (encodeTracks rs).length (encodeTracks rs).length c hwf
    (by simp) hcap (Nat.le_refl _)
  simpa [processBuffer] using h

theorem processBuffer_encodeTrack (c : TrackLinkClient) (r : TrackRecord) (hwf : r.wf)
    (hcap : (encodeTrack r).length ≤ BUFSIZE) :
    processBuffer c (encodeTrack r) (encodeTrack r).length = some (applyTrack c r) := by
  have h := processBuffer_encodeTracks c [r] (by simpa using hwf) (by simpa [encodeTracks] using hcap)
  simpa [encodeTracks, applyTracks] using h

/-! ## The registry step, case by case -/

theorem dispatch_new (L : List Nat) (r : TrackRecord) (h : r.state ≠ TS_OFF) :
    dispatch L true r = notifyAll L .onTrackNew r := by
  unfold dispatch notifyAll
  rw [← List.filterMap_eq_map]
  congr 1
  funext rc
  simp [notifyOne, h]

theorem dispatch_update (L : List Nat) (r : TrackRecord) (h : r.state ≠ TS_OFF) :
    dispatch L false r = notifyAll L .onTrackUpdate r := by
  unfold dispatch notifyAll
  rw [← List.filterMap_eq_map]
  congr 1
  funext rc
  simp [notifyOne, h]

theorem dispatch_lost (L : List Nat) (r : TrackRecord) (h : r.state = TS_OFF) :
    dispatch L false r = notifyAll L .onTrackLost r := by
  unfold dispatch notifyAll
  rw [← List.filterMap_eq_map]
  congr 1
  funext rc
  simp [notifyOne, h]

theorem dispatch_none (L : List Nat) (r : TrackRecord) (h : r.state = TS_OFF) :
    dispatch L true r = [] := by
  unfold dispatch
  rw [List.filterMap_eq_nil_iff]
  intro rc _
  simp [notifyOne, h]

theorem applyTrack_new (c : TrackLinkClient) (r : TrackRecord)
    (hf : TrackMap.find c.trackMap r.trackID = none) (hs : r.state ≠ TS_OFF) :
    applyTrack c r = (⟨c.trackReceivers, storeTrack c.trackMap r.trackID r⟩,
      notifyAll c.trackReceivers .onTrackNew r) := by
  simp [applyTrack, hf, hs, dispatch_new]

theorem applyTrack_update (c : TrackLinkClient) (r w : TrackRecord)
    (hf : TrackMap.find c.trackMap r.trackID = some w) (hs : r.state ≠ TS_OFF) :
    applyTrack c r = (⟨c.trackReceivers, storeTrack c.trackMap r.trackID r⟩,
      notifyAll c.trackReceivers .onTrackUpdate r) := by
  simp [applyTrack, hf, hs, dispatch_update]

theorem applyTrack_lost (c : TrackLinkClient) (r w : TrackRecord)
    (hf : TrackMap.find c.trackMap r.trackID = some w) (hs : r.state = TS_OFF) :
    applyTrack c r = (⟨c.trackReceivers,
        TrackMap.erase (storeTrack c.trackMap r.trackID r) r.trackID⟩,
      notifyAll c.trackReceivers .onTrackLost r) := by
  simp [applyTrack, hf, hs, dispatch_lost]

theorem applyTrack_ended_unknown (c : TrackLinkClient) (r : TrackRecord)
    (hf : TrackMap.find c.trackMap r.trackID = none) (hs : r.state = TS_OFF) :
    applyTrack c r = (⟨c.trackReceivers, storeTrack c.trackMap r.trackID r⟩, []) := by
  simp [applyTrack, hf, hs, dispatch_none]

/-! ## Lifecycle of one id -/

theorem feedRecords_cons (c : TrackLinkClient) (r : TrackRecord) (rs : List TrackRecord)
    (hwf : r.wf) (hcap : (encodeTrack r).length ≤ BUFSIZE) :
    feedRecords c (r :: rs) =
      match feedRecords (applyTrack c r).1 rs with
      | none => none
      | some (c'', evss) => some (c'', (applyTrack c r).2 :: evss) := by
  simp [feedRecords, processBuffer_encodeTrack c r hwf hcap]

theorem feedRecords_updates (mid : List TrackRecord) :
    ∀ (L : List Nat) (M : TrackMap) (id : Nat) (prev : TrackRecord) (tl : List TrackRecord),
      (∀ r ∈ mid, r.wf ∧ r.trackID = id ∧ (encodeTrack r).length ≤ BUFSIZE ∧ r.state ≠ TS_OFF) →
      feedRecords ⟨L, storeTrack M id prev⟩ (mid ++ tl) =
        match feedRecords ⟨L, storeTrack M id (mid.getLastD prev)⟩ tl with
        | none => none
        | some (c'', evss) => some (c'', mid.map (notifyAll L .onTrackUpdate) ++ evss) := by
  induction mid with
  | nil =>
    intro L M id prev tl _
    simp only [List.nil_append, List.getLastD_nil, List.map_nil]
    cases feedRecords ⟨L, storeTrack M id prev⟩ tl with
    | none => rfl
    | some x => rfl
  | cons r rs ih =>
    intro L M id prev tl h
    obtain ⟨hwf, hid, hcap, hst⟩ := h r (List.mem_cons_self _ _)
    have hfind : TrackMap.find (storeTrack M id prev) r.trackID = some prev := by
      rw [hid]; exact find_storeTrack M id prev
    have ha := applyTrack_update ⟨L, storeTrack M id prev⟩ r prev hfind hst
    simp only [hid, storeTrack_storeTrack] at ha
    rw [List.cons_append, feedRecords_cons _ r _ hwf hcap, ha]
    simp only
    rw [ih L M id r tl (fun r' h' => h r' (List.mem_cons_of_mem _ h'))]
    simp only [List.getLastD_cons, List.map_cons, List.cons_append]
    cases feedRecords ⟨L, storeTrack M id (rs.getLastD r)⟩ tl with
    | none => rfl
    | some x => rfl

/-! ## One receive -/

theorem zeroFrom_zero (buf : List Nat) : zeroFrom buf 0 = [] := by
  simp [zeroFrom]

theorem zeroFrom_length (buf : List Nat) : zeroFrom buf buf.length = buf := by
  simp [zeroFrom]

theorem recvStep_top (s : RecvThread) (d : List Nat) (hidle : s.recvSize = 0)
    (hpos : 0 < d.length) (hcap : d.length ≤ BUFSIZE) :
    recvStep s (.datagram d) = afterReceive s.client d d.length := by
  have hp : (0 : Int) < (d.length : Int) := by exact_mod_cast hpos
  simp [recvStep, hidle, Receive, hcap, zeroFrom_zero, hp]

theorem peek_last (d : List Nat) (hpos : 0 < d.length) (hcap : d.length ≤ BUFSIZE) :
    peek d (d.length - 1) = d.getLast? := by
  have h : d.length - 1 < BUFSIZE := by omega
  have h2 : d.length - 1 < d.length := by omega
  simp [peek, h, List.getLast?_eq_getElem?, List.getD_eq_getElem?_getD, List.getElem?_eq_getElem h2]

theorem encodeTrack_last (r : TrackRecord) (l : List Nat) :
    (l ++ encodeTrack r).getLast? = some 116 := by
  rw [encodeTrack_eq, ← List.append_assoc, ← List.append_assoc]
  simp

theorem encodeTracks_last (rs : List TrackRecord) :
    ∀ l : List Nat, rs ≠ [] → (l ++ encodeTracks rs).getLast? = some 116 := by
  induction rs with
  | nil => intro l h; exact absurd rfl h
  | cons r rs ih =>
    intro l _
    cases rs with
    | nil => simpa [encodeTracks] using encodeTrack_last r l
    | cons r' rs' =>
      have h := ih (l ++ encodeTrack r) (by simp)
      simpa [encodeTracks, List.append_assoc] using h

theorem encodeTracks_pos (rs : List TrackRecord) (h : rs ≠ []) :
    0 < (encodeTracks rs).length := by
  cases rs with
  | nil => exact absurd rfl h
  | cons r rs => rw [encodeTracks_length_cons, encodeTrack_length]; omega

theorem recvStep_tracks (s : RecvThread) (rs : List TrackRecord) (hidle : s.recvSize = 0)
    (hne : rs ≠ []) (hwf : ∀ r ∈ rs, r.wf) (hcap : (encodeTracks rs).length ≤ BUFSIZE) :
    recvStep s (.datagram (encodeTracks rs)) =
      some (⟨(applyTracks s.client rs).1, encodeTracks rs, 0⟩, (applyTracks s.client rs).2) := by
  have hpos := encodeTracks_pos rs hne
  have hl := encodeTracks_last rs [] hne
  rw [List.nil_append] at hl
  rw [recvStep_top s _ hidle hpos hcap, afterReceive, peek_last _ hpos hcap, hl,
    processBuffer_encodeTracks _ rs hwf hcap]
  simp

theorem applyTracks_append (rs1 : List TrackRecord) :
    ∀ (c : TrackLinkClient) (rs2 : List TrackRecord),
      applyTracks c (rs1 ++ rs2) =
        ((applyTracks (applyTracks c rs1).1 rs2).1,
          (applyTracks c rs1).2 ++ (applyTracks (applyTracks c rs1).1 rs2).2) := by
  induction rs1 with
  | nil => intro c rs2; simp [applyTracks]
  | cons r rs ih => intro c rs2; simp [applyTracks, ih]

theorem encodeTracks_append (rs1 rs2 : List TrackRecord) :
    encodeTracks (rs1 ++ rs2) = encodeTracks rs1 ++ encodeTracks rs2 := by
  induction rs1 with
  | nil => rfl
  | cons r rs ih => simp [encodeTracks, ih]

theorem recvStep_sub (c : TrackLinkClient) (B1 B2 : List Nat) (h1 : 0 < B1.length)
    (h2 : 0 < B2.length) (hcap : (B1 ++ B2).length ≤ BUFSIZE) :
    recvStep ⟨c, B1, B1.length⟩ (.datagram B2) =
      afterReceive c (B1 ++ B2) (B1 ++ B2).length := by
  rw [List.length_append] at hcap
  have hne : B1.length ≠ 0 := by omega
  have hfit : B2.length ≤ BUFSIZE - B1.length := by omega
  have hp : ¬ ((B2.length : Int) ≤ 0) := by omega
  have hq : ¬ ((B1.length : Int) + (B2.length : Int) > (BUFSIZE : Int)) := by omega
  simp only [recvStep, hne, if_false, Receive, hfit, if_true, hp, hq, zeroFrom_length,
    Int.toNat_ofNat, List.length_append]

theorem recvStep_idle_buf (c : TrackLinkClient) (b1 b2 : List Nat) (o : RecvOutcome) :
    recvStep ⟨c, b1, 0⟩ o = recvStep ⟨c, b2, 0⟩ o ∨
    (recvStep ⟨c, b1, 0⟩ o = some (⟨c, b1, 0⟩, []) ∧
      recvStep ⟨c, b2, 0⟩ o = some (⟨c, b2, 0⟩, [])) := by
  cases o with
  | timeout => right; simp [recvStep, Receive, SOCKET_TIMEOUT, SOCKET_ERROR]
  | selectError => right; simp [recvStep, Receive, SOCKET_ERROR]
  | datagram d => left; simp [recvStep, Receive, zeroFrom_zero]
  | recvError => left; simp [recvStep, Receive, zeroFrom_zero]

theorem recvRun_idle_buf (os : List RecvOutcome) :
    ∀ (c : TrackLinkClient) (b1 b2 : List Nat),
      observe (recvRun ⟨c, b1, 0⟩ os) = observe (recvRun ⟨c, b2, 0⟩ os) := by
  induction os with
  | nil => intro c b1 b2; simp [recvRun, observe]
  | cons o os ih =>
    intro c b1 b2
    rcases recvStep_idle_buf c b1 b2 o with h | ⟨h1, h2⟩
    · simp only [recvRun, h]
    · have hi := ih c b1 b2
      simp only [recvRun, h1, h2]
      cases hr1 : recvRun ⟨c, b1, 0⟩ os with
      | none =>
        cases hr2 : recvRun ⟨c, b2, 0⟩ os with
        | none => rfl
        | some y => rw [hr1, hr2] at hi; simp [observe] at hi
      | some x =>
        cases hr2 : recvRun ⟨c, b2, 0⟩ os with
        | none => rw [hr1, hr2] at hi; simp [observe] at hi
        | some y =>
          rw [hr1, hr2] at hi
          simp only [observe, Option.map_some', Option.some.injEq, Prod.mk.injEq] at hi ⊢
          simp [hi.1, hi.2]

/-! ## Who is notified -/

theorem notifyOne_receiver (u : Bool) (t : TrackRecord) (rc : Nat) (e : Callback)
    (h : notifyOne u t rc = some e) : e.receiver = rc := by
  unfold notifyOne at h
  split at h
  · simp only [Option.some.injEq] at h; rw [← h]
  · split at h
    · simp only [Option.some.injEq] at h; rw [← h]
    · split at h
      · simp only [Option.some.injEq] at h; rw [← h]
      · simp at h

theorem applyTrack_receivers (c : TrackLinkClient) (t : TrackRecord) :
    (applyTrack c t).1.trackReceivers = c.trackReceivers ∧
    ∀ e ∈ (applyTrack c t).2, e.receiver ∈ c.trackReceivers := by
  refine ⟨rfl, ?_⟩
  intro e he
  simp only [applyTrack, dispatch, List.mem_filterMap] at he
  obtain ⟨rc, hrc, hn⟩ := he
  rw [notifyOne_receiver _ _ _ _ hn]
  exact hrc

theorem parseLoop_receivers (fuel : Nat) :
    ∀ (buf : List Nat) (recvSize curPos : Nat) (c c' : TrackLinkClient) (evs : List Callback),
      parseLoop fuel buf recvSize curPos c = some (c', evs) →
      c'.trackReceivers = c.trackReceivers ∧ ∀ e ∈ evs, e.receiver ∈ c.trackReceivers := by
  induction fuel with
  | zero =>
    intro buf recvSize curPos c c' evs h
    rw [parseLoop] at h
    split at h
    · simp at h
    · simp only [Option.some.injEq, Prod.mk.injEq] at h
      obtain ⟨h1, h2⟩ := h
      subst h1 h2
      simp
  | succ f ih =>
    intro buf recvSize curPos c c' evs h
    rw [parseLoop] at h
    split at h
    · split at h
      · simp at h
      · split at h
        · simp only [Option.some.injEq, Prod.mk.injEq] at h
          obtain ⟨h1, h2⟩ := h
          subst h1 h2
          simp
        · split at h
          · simp at h
          · split at h
            · simp at h
            · split at h
              · simp at h
              · split at h
                · simp only [Option.some.injEq, Prod.mk.injEq] at h
                  obtain ⟨h1, h2⟩ := h
                  subst h1 h2
                  simp
                · split at h
                  · simp at h
                  · rename_i c2 evs2 hrec
                    simp only [Option.some.injEq, Prod.mk.injEq] at h
                    obtain ⟨h1, h2⟩ := h
                    subst h1 h2
                    obtain ⟨ha1, ha2⟩ := applyTrack_receivers c ‹TrackRecord›
                    obtain ⟨hr1, hr2⟩ := ih _ _ _ _ _ _ hrec
                    rw [ha1] at hr1 hr2
                    refine ⟨hr1, ?_⟩
                    intro e he
                    rcases List.mem_append.mp he with he | he
                    · exact ha2 e he
                    · exact hr2 e he
    · simp only [Option.some.injEq, Prod.mk.injEq] at h
      obtain ⟨h1, h2⟩ := h
      subst h1 h2
      simp

theorem afterReceive_receivers (c : TrackLinkClient) (buf : List Nat) (n : Nat)
    (s' : RecvThread) (evs : List Callback) (h : afterReceive c buf n = some (s', evs)) :
    s'.client.trackReceivers = c.trackReceivers ∧ ∀ e ∈ evs, e.receiver ∈ c.trackReceivers := by
  unfold afterReceive at h
  split at h
  · simp only [Option.some.injEq, Prod.mk.injEq] at h
    obtain ⟨h1, h2⟩ := h
    subst h1 h2
    simp
  · split at h
    · simp at h
    · rename_i c2 evs2 hp
      simp only [Option.some.injEq, Prod.mk.injEq] at h
      obtain ⟨h1, h2⟩ := h
      subst h1 h2
      exact parseLoop_receivers _ _ _ _ _ _ _ hp

theorem recvStep_receivers (s s' : RecvThread) (o : RecvOutcome) (evs : List Callback)
    (h : recvStep s o = some (s', evs)) :
    s'.client.trackReceivers = s.client.trackReceivers ∧
    ∀ e ∈ evs, e.receiver ∈ s.client.trackReceivers := by
  unfold recvStep at h
  split at h
  · simp only at h
    split at h
    · exact afterReceive_receivers _ _ _ _ _ h
    · simp only [Option.some.injEq, Prod.mk.injEq] at h
      obtain ⟨h1, h2⟩ := h
      subst h1 h2
      simp
  · simp only at h
    split at h
    · simp only [Option.some.injEq, Prod.mk.injEq] at h
      obtain ⟨h1, h2⟩ := h
      subst h1 h2
      simp
    · split at h
      · simp only [Option.some.injEq, Prod.mk.injEq] at h
        obtain ⟨h1, h2⟩ := h
        subst h1 h2
        simp
      · exact afterReceive_receivers _ _ _ _ _ h

theorem recvRun_receivers (os : List RecvOutcome) :
    ∀ (s s' : RecvThread) (evs : List Callback), recvRun s os = some (s', evs) →
      s'.client.trackReceivers = s.client.trackReceivers ∧
      ∀ e ∈ evs, e.receiver ∈ s.client.trackReceivers := by
  induction os with
  | nil =>
    intro s s' evs h
    simp only [recvRun, Option.some.injEq, Prod.mk.injEq] at h
    obtain ⟨h1, h2⟩ := h
    subst h1 h2
    simp
  | cons o os ih =>
    intro s s' evs h
    rw [recvRun] at h
    split at h
    · simp at h
    · rename_i s1 evs1 hstep
      split at h
      · simp at h
      · rename_i s2 evs2 hrun
        simp only [Option.some.injEq, Prod.mk.injEq] at h
        obtain ⟨h1, h2⟩ := h
        subst h1 h2
        obtain ⟨ha1, ha2⟩ := recvStep_receivers _ _ _ _ hstep
        obtain ⟨hr1, hr2⟩ := ih _ _ _ hrun
        rw [ha1] at hr1 hr2
        refine ⟨hr1, ?_⟩
        intro e he
        rcases List.mem_append.mp he with he | he
        · exact ha2 e he
        · exact hr2 e he

theorem callbacksTo_notifyAll (L : List Nat) (k : CallbackKind) (t : TrackRecord) (r : Nat) :
    callbacksTo r (notifyAll L k t) = notifyAll (L.filter fun x => decide (x = r)) k t := by
  induction L with
  | nil => rfl
  | cons a L ih =>
    simp only [callbacksTo, notifyAll, List.map_cons, List.filter_cons] at ih ⊢
    by_cases h : a = r
    · simp [h, ih]
    · simp [h, ih]

theorem filter_eq_of_nodup (L : List Nat) (r : Nat) (hnd : L.Nodup) (hr : r ∈ L) :
    (L.filter fun x => decide (x = r)) = [r] := by
  induction L with
  | nil => simp at hr
  | cons a L ih =>
    rw [List.nodup_cons] at hnd
    by_cases h : a = r
    · subst h
      have : (L.filter fun x => decide (x = a)) = [] := by
        rw [List.filter_eq_nil_iff]
        intro x hx
        simp only [decide_eq_true_eq]
        intro hxa
        exact hnd.1 (hxa ▸ hx)
      simp [List.filter_cons, this]
    · have hr' : r ∈ L := by
        rcases List.mem_cons.mp hr with h' | h'
        · exact absurd h'.symm h
        · exact h'
      simp [List.filter_cons, h, ih hnd.2 hr']

theorem applyTrack_events (c : TrackLinkClient) (t : TrackRecord)
    (h : ¬ (TrackMap.find c.trackMap t.trackID = none ∧ t.state = TS_OFF)) :
    ∃ k, (applyTrack c t).2 = notifyAll c.trackReceivers k t := by
  cases hf : TrackMap.find c.trackMap t.trackID with
  | none =>
    have hs : t.state ≠ TS_OFF := fun hs => h ⟨hf, hs⟩
    exact ⟨.onTrackNew, by rw [applyTrack_new c t hf hs]⟩
  | some w =>
    by_cases hs : t.state = TS_OFF
    · exact ⟨.onTrackLost, by rw [applyTrack_lost c t w hf hs]⟩
    · exact ⟨.onTrackUpdate, by rw [applyTrack_update c t w hf hs]⟩

theorem register_nodup (c : TrackLinkClient) (r : Nat) (hnd : c.trackReceivers.Nodup) :
    (registerTrackReceiver c r).1.trackReceivers.Nodup := by
  unfold registerTrackReceiver
  split
  · exact hnd
  · split
    · exact hnd
    · rename_i _ hmem
      simp only
      rw [List.nodup_append]
      refine ⟨hnd, List.nodup_singleton r, ?_⟩
      intro x hx hx'
      rw [List.mem_singleton] at hx'
      exact hmem (hx' ▸ hx)

theorem register_mem (c : TrackLinkClient) (r x : Nat) (hx : x ∈ c.trackReceivers) :
    x ∈ (registerTrackReceiver c r).1.trackReceivers := by
  unfold registerTrackReceiver
  split
  · exact hx
  · split
    · exact hx
    · simp [hx]

theorem register_trackMap (c : TrackLinkClient) (r : Nat) :
    (registerTrackReceiver c r).1.trackMap = c.trackMap := by
  unfold registerTrackReceiver
  split
  · rfl
  · split <;> rfl

theorem registerAll_spec (rs : List Nat) :
    ∀ (c : TrackLinkClient), c.trackReceivers.Nodup →
      (registerAll c rs).trackReceivers.Nodup ∧
      (∀ x ∈ c.trackReceivers, x ∈ (registerAll c rs).trackReceivers) ∧
      (registerAll c rs).trackMap = c.trackMap := by
  induction rs with
  | nil => intro c h; exact ⟨h, fun x hx => hx, rfl⟩
  | cons r rs ih =>
    intro c h
    obtain ⟨h1, h2, h3⟩ := ih (registerTrackReceiver c r).1 (register_nodup c r h)
    refine ⟨h1, fun x hx => h2 x (register_mem c r x hx), ?_⟩
    show (registerAll (registerTrackReceiver c r).1 rs).trackMap = c.trackMap
    rw [h3, register_trackMap]

theorem reachable_nodup (c : TrackLinkClient) (h : Reachable c) : c.trackReceivers.Nodup := by
  induction h with
  | init => exact List.nodup_nil
  | register c r _ ih => exact register_nodup c r ih
  | unregister c r _ ih => exact ih.erase r
  | receive c c' buf recvSize evs _ hp ih =>
    rw [(parseLoop_receivers _ _ _ _ _ _ _ hp).1]
    exact ih

/-! ## Claims about the lifecycle -/

/-- C1, the code at the failing input.  On a fresh client with one receiver, the
records Ended, New for id 7, one datagram each or both in one buffer: the Ended record
makes no callback and leaves an entry for 7, and the first record whose state is not
Ended is then reported by onTrackUpdate, not by onTrackNew. -/
theorem lifecycle_ended_first :
    feedRecords ⟨[1], []⟩ [sampleTrack 7 TS_OFF, sampleTrack 7 TS_NEW] =
      some (⟨[1], [(7, sampleTrack 7 TS_NEW)]⟩,
        [[], [⟨1, .onTrackUpdate, sampleTrack 7 TS_NEW⟩]]) ∧
    processBuffer ⟨[1], []⟩ (encodeTracks [sampleTrack 7 TS_OFF, sampleTrack 7 TS_NEW])
        (encodeTracks [sampleTrack 7 TS_OFF, sampleTrack 7 TS_NEW]).length =
      some (⟨[1], [(7, sampleTrack 7 TS_NEW)]⟩,
        [⟨1, .onTrackUpdate, sampleTrack 7 TS_NEW⟩]) := by
  decide

/-- The lifecycle when the first record of an id is not an Ended one.  For an id
absent from the map and records for that id delivered one datagram each, the first
of which is not Ended: the first record makes one
onTrackNew per receiver; every following record up to the first Ended one makes one
onTrackUpdate per receiver and the entry holds the latest record; the first Ended
record makes one onTrackLost per receiver, and after it the id is absent from the map
(the client is back in its initial state). -/
theorem lifecycle_of_fresh_id (c : TrackLinkClient) (r0 : TrackRecord)
    (mid : List TrackRecord) (last : TrackRecord)
    (hfresh : TrackMap.find c.trackMap r0.trackID = none)
    (h0 : r0.wf ∧ (encodeTrack r0).length ≤ BUFSIZE ∧ r0.state ≠ TS_OFF)
    (hmid : ∀ r ∈ mid, r.wf ∧ r.trackID = r0.trackID ∧ (encodeTrack r).length ≤ BUFSIZE
      ∧ r.state ≠ TS_OFF)
    (hlast : last.wf ∧ last.trackID = r0.trackID ∧ (encodeTrack last).length ≤ BUFSIZE
      ∧ last.state = TS_OFF) :
    feedRecords c (r0 :: mid) =
      some (⟨c.trackReceivers, storeTrack c.trackMap r0.trackID (mid.getLastD r0)⟩,
        notifyAll c.trackReceivers .onTrackNew r0
          :: mid.map (notifyAll c.trackReceivers .onTrackUpdate)) ∧
    TrackMap.find (storeTrack c.trackMap r0.trackID (mid.getLastD r0)) r0.trackID
      = some (mid.getLastD r0) ∧
    ∃ c', feedRecords c (r0 :: (mid ++ [last])) =
        some (c', notifyAll c.trackReceivers .onTrackNew r0
          :: (mid.map (notifyAll c.trackReceivers .onTrackUpdate)
            ++ [notifyAll c.trackReceivers .onTrackLost last])) ∧
      TrackMap.find c'.trackMap r0.trackID = none ∧ c' = c := by
  obtain ⟨hwf0, hcap0, hst0⟩ := h0
  obtain ⟨hwfl, hidl, hcapl, hstl⟩ := hlast
  have hnew := applyTrack_new c r0 hfresh hst0
  have hfind : TrackMap.find (storeTrack c.trackMap r0.trackID (mid.getLastD r0)) last.trackID
      = some (mid.getLastD r0) := by
    rw [hidl]; exact find_storeTrack _ _ _
  have hlost := applyTrack_lost
    ⟨c.trackReceivers, storeTrack c.trackMap r0.trackID (mid.getLastD r0)⟩ last _ hfind hstl
  simp only [hidl, storeTrack_storeTrack, erase_storeTrack_of_none _ _ _ hfresh] at hlost
  refine ⟨?_, find_storeTrack _ _ _, c, ?_, hfresh, rfl⟩
  · have h := feedRecords_updates mid c.trackReceivers c.trackMap r0.trackID r0 [] hmid
    rw [List.append_nil] at h
    rw [feedRecords_cons c r0 mid hwf0 hcap0, hnew]
    simp only
    rw [h]
    simp [feedRecords]
  · have h := feedRecords_updates mid c.trackReceivers c.trackMap r0.trackID r0 [last] hmid
    rw [feedRecords_cons c r0 _ hwf0 hcap0, hnew]
    simp only
    rw [h, feedRecords_cons _ last [] hwfl hcapl, hlost]
    simp [feedRecords]

/-- An instance of the lifecycle: id 7 on a fresh client with receiver 1, records New,
Continuing, Ended. -/
theorem lifecycle_of_fresh_id_witness :
    feedRecords ⟨[1], []⟩ [sampleTrack 7 TS_NEW, sampleTrack 7 TS_CONT] =
      some (⟨[1], storeTrack [] 7 (sampleTrack 7 TS_CONT)⟩,
        [[⟨1, .onTrackNew, sampleTrack 7 TS_NEW⟩],
          [⟨1, .onTrackUpdate, sampleTrack 7 TS_CONT⟩]]) ∧
    ∃ c', feedRecords ⟨[1], []⟩
        [sampleTrack 7 TS_NEW, sampleTrack 7 TS_CONT, sampleTrack 7 TS_OFF] =
        some (c', [[⟨1, .onTrackNew, sampleTrack 7 TS_NEW⟩],
          [⟨1, .onTrackUpdate, sampleTrack 7 TS_CONT⟩],
          [⟨1, .onTrackLost, sampleTrack 7 TS_OFF⟩]]) ∧
      TrackMap.find c'.trackMap 7 = none ∧ c' = ⟨[1], []⟩ := by
  have h := lifecycle_of_fresh_id ⟨[1], []⟩ (sampleTrack 7 TS_NEW) [sampleTrack 7 TS_CONT]
    (sampleTrack 7 TS_OFF) (by decide) (by decide) (by decide) (by decide)
  exact ⟨h.1, h.2.2⟩

/-- C2, the code at the failing input.  An Ended record for id 7 on an empty map makes
no callback but leaves an entry for 7 in the map: its size goes from 0 to 1. -/
theorem ended_unknown_leaves_entry :
    processBuffer ⟨[1], []⟩ (encodeTrack (sampleTrack 7 TS_OFF))
        (encodeTrack (sampleTrack 7 TS_OFF)).length =
      some (⟨[1], [(7, sampleTrack 7 TS_OFF)]⟩, []) := by
  decide

/-- C3, the code at the failing input.  With receiver 1 registered from the start, an
Ended datagram for id 7 followed by a Continuing one: the only callback the receiver
ever gets is an onTrackUpdate for 7, with no onTrackNew for 7 before it. -/
theorem update_without_new :
    (recvRun sampleThread [.datagram (encodeTrack (sampleTrack 7 TS_OFF)),
        .datagram (encodeTrack (sampleTrack 7 TS_CONT))]).map (fun x => x.2) =
      some [⟨1, .onTrackUpdate, sampleTrack 7 TS_CONT⟩] := by
  decide

/-! ## Claims about parsing and reassembly -/

/-- C4.  Round trip through one receive: the block of a record `r` whose fields are
32-bit patterns and which fits the buffer, received whole by a top-level `Receive`,
is parsed back to `r` itself: the registry step and the dispatch are run on a record
equal to `r` in every field, echoes included.  So every callback made carries `r`;
every registered receiver gets one, unless the id was unknown and the state is Ended,
where none is made; and the map holds `r` under its id unless the id was known and
the state is Ended (the entry is then erased). -/
theorem roundtrip_one_receive (s : RecvThread) (r : TrackRecord) (hidle : s.recvSize = 0)
    (hwf : r.wf) (hcap : (encodeTrack r).length ≤ BUFSIZE) :
    recvStep s (.datagram (encodeTrack r)) =
      some (⟨(applyTrack s.client r).1, encodeTrack r, 0⟩, (applyTrack s.client r).2) ∧
    (∀ e ∈ (applyTrack s.client r).2, e.record = r) ∧
    (¬ (TrackMap.find s.client.trackMap r.trackID = none ∧ r.state = TS_OFF) →
      (applyTrack s.client r).2.map (fun e => e.receiver) = s.client.trackReceivers) ∧
    (¬ (TrackMap.find s.client.trackMap r.trackID ≠ none ∧ r.state = TS_OFF) →
      TrackMap.find (applyTrack s.client r).1.trackMap r.trackID = some r) := by
  have h := recvStep_tracks s [r] hidle (by simp) (by simpa using hwf)
    (by simpa [encodeTracks] using hcap)
  simp only [encodeTracks, List.append_nil, applyTracks] at h
  refine ⟨h, ?_⟩
  cases hf : TrackMap.find s.client.trackMap r.trackID with
  | none =>
    by_cases hs : r.state = TS_OFF
    · rw [applyTrack_ended_unknown _ r hf hs]
      simp [hs, find_storeTrack]
    · rw [applyTrack_new _ r hf hs]
      simp [hs, find_storeTrack, notifyAll, Function.comp_def]
  | some w =>
    by_cases hs : r.state = TS_OFF
    · rw [applyTrack_lost _ r w hf hs]
      simp [hs, notifyAll, Function.comp_def]
    · rw [applyTrack_update _ r w hf hs]
      simp [hs, find_storeTrack, notifyAll, Function.comp_def]

/-- C4, witness: the record of the scenario, id 7, state New, with one echo, on a fresh
client with receiver 1: one onTrackNew carrying the record, and the record stored. -/
theorem roundtrip_one_receive_witness :
    recvStep sampleThread
        (.datagram (encodeTrack { sampleTrack 7 TS_NEW with echoes := [⟨3, 4⟩] })) =
      some (⟨⟨[1], [(7, { sampleTrack 7 TS_NEW with echoes := [⟨3, 4⟩] })]⟩,
          encodeTrack { sampleTrack 7 TS_NEW with echoes := [⟨3, 4⟩] }, 0⟩,
        [⟨1, .onTrackNew, { sampleTrack 7 TS_NEW with echoes := [⟨3, 4⟩] }⟩]) :=
  (roundtrip_one_receive sampleThread { sampleTrack 7 TS_NEW with echoes := [⟨3, 4⟩] }
    (by decide) (by decide) (by decide)).1

/-- C5, counterexample.  The block of a New record with id 116 (whose low id byte is
0x74, the tail marker) split after its second byte: received whole it makes one
onTrackNew and stores the record; received as the two parts, the first part is parsed
on its own because it ends in 0x74, no callback is made, and the map is left with a
zeroed entry for 116. -/
theorem split_after_tail_valued_byte :
    observe (recvRun sampleThread [.datagram (encodeTrack (sampleTrack 116 TS_NEW))]) =
      some (⟨[1], [(116, sampleTrack 116 TS_NEW)]⟩, [⟨1, .onTrackNew, sampleTrack 116 TS_NEW⟩]) ∧
    observe (recvRun sampleThread
        [.datagram ((encodeTrack (sampleTrack 116 TS_NEW)).take 2),
          .datagram ((encodeTrack (sampleTrack 116 TS_NEW)).drop 2)]) =
      some (⟨[1], [(116, ⟨116, ⟨0, 0⟩, ⟨0, 0⟩, ⟨0, 0⟩, ⟨0, 0⟩, 0, 0, []⟩)]⟩, []) := by
  decide

/-- C5, as amended.  A well-formed transmission of at most 20480 bytes split into two
non-empty parts, where the first part does not end in the byte 0x74 or is itself a
whole number of blocks: the two parts delivered by two successive receives, starting
at a top-level receive, give the same callbacks and the same client as the
transmission delivered by one receive, namely those of its records in order. -/
theorem split_receive (s : RecvThread) (B1 B2 : List Nat) (rs : List TrackRecord)
    (hidle : s.recvSize = 0) (h1 : B1 ≠ []) (h2 : B2 ≠ [])
    (hB : B1 ++ B2 = encodeTracks rs) (hwf : ∀ r ∈ rs, r.wf)
    (hcap : (B1 ++ B2).length ≤ BUFSIZE)
    (hsplit : B1.getLast? ≠ some 116 ∨
      ∃ rs1 rs2, rs = rs1 ++ rs2 ∧ B1 = encodeTracks rs1 ∧ B2 = encodeTracks rs2) :
    observe (recvRun s [.datagram B1, .datagram B2]) = some (applyTracks s.client rs) ∧
    observe (recvRun s [.datagram (B1 ++ B2)]) = some (applyTracks s.client rs) := by
  have hl1 : 0 < B1.length := List.length_pos.mpr h1
  have hl2 : 0 < B2.length := List.length_pos.mpr h2
  have hne : rs ≠ [] := by
    intro h
    rw [h] at hB
    simp [encodeTracks] at hB
    exact h1 hB.1
  have hcap' : (encodeTracks rs).length ≤ BUFSIZE := by rw [← hB]; exact hcap
  have hwhole := recvStep_tracks s rs hidle hne hwf hcap'
  refine ⟨?_, ?_⟩
  · rcases hsplit with hlast | ⟨rs1, rs2, hrs, hb1, hb2⟩
    · have hc1 : B1.length ≤ BUFSIZE := by rw [List.length_append] at hcap; omega
      have hstep1 : recvStep s (.datagram B1) = some (⟨s.client, B1, B1.length⟩, []) := by
        rw [recvStep_top s B1 hidle hl1 hc1, afterReceive, peek_last B1 hl1 hc1, if_pos hlast]
      have hstep2 := recvStep_sub s.client B1 B2 hl1 hl2 hcap
      rw [hB, ← recvStep_top s _ hidle (encodeTracks_pos rs hne) hcap', hwhole] at hstep2
      simp [recvRun, hstep1, hstep2, observe]
    · subst hb1 hb2
      have hne1 : rs1 ≠ [] := by
        intro h; rw [h] at h1; exact h1 rfl
      have hne2 : rs2 ≠ [] := by
        intro h; rw [h] at h2; exact h2 rfl
      have hwf1 : ∀ r ∈ rs1, r.wf := fun r hr => hwf r (by rw [hrs]; simp [hr])
      have hwf2 : ∀ r ∈ rs2, r.wf := fun r hr => hwf r (by rw [hrs]; simp [hr])
      rw [List.length_append] at hcap
      have hstep1 := recvStep_tracks s rs1 hidle hne1 hwf1 (by omega)
      have hstep2 := recvStep_tracks
        ⟨(applyTracks s.client rs1).1, encodeTracks rs1, 0⟩ rs2 rfl hne2 hwf2 (by omega)
      simp [recvRun, hstep1, hstep2, observe, hrs, applyTracks_append]
  · rw [hB]
    simp [recvRun, hwhole, observe]

/-- C5, witness: the blocks of a New and a Continuing record for id 7, split ten bytes
into the first block. -/
theorem split_receive_witness :
    observe (recvRun sampleThread
        [.datagram ((encodeTracks [sampleTrack 7 TS_NEW, sampleTrack 7 TS_CONT]).take 10),
          .datagram ((encodeTracks [sampleTrack 7 TS_NEW, sampleTrack 7 TS_CONT]).drop 10)]) =
      some (applyTracks sampleThread.client [sampleTrack 7 TS_NEW, sampleTrack 7 TS_CONT]) ∧
    observe (recvRun sampleThread
        [.datagram ((encodeTracks [sampleTrack 7 TS_NEW, sampleTrack 7 TS_CONT]).take 10 ++
          (encodeTracks [sampleTrack 7 TS_NEW, sampleTrack 7 TS_CONT]).drop 10)]) =
      some (applyTracks sampleThread.client [sampleTrack 7 TS_NEW, sampleTrack 7 TS_CONT]) :=
  split_receive sampleThread _ _ [sampleTrack 7 TS_NEW, sampleTrack 7 TS_CONT]
    (by decide) (by decide) (by decide) (by decide) (by decide) (by decide)
    (Or.inl (by decide))

/-- C6.  A reassembled buffer whose first byte is not `'T'` is discarded: the parse
loop makes no callback and returns the client unchanged (track map and receiver
list), and whatever the socket delivers from the next top-level receive on is
processed exactly as on a thread that never held that buffer. -/
theorem header_mismatch_discarded (c : TrackLinkClient) (buf : List Nat) (recvSize : Nat)
    (hpos : 0 < recvSize) (hT : peek buf 0 ≠ some 84) :
    processBuffer c buf recvSize = some (c, []) ∧
    ∀ os, observe (recvRun ⟨c, buf, 0⟩ os) = observe (recvRun ⟨c, [], 0⟩ os) := by
  refine ⟨?_, fun os => recvRun_idle_buf os c buf []⟩
  obtain ⟨f, rfl⟩ : ∃ f, recvSize = f + 1 := ⟨recvSize - 1, by omega⟩
  have hb : peek buf 0 = some (buf.getD 0 0) := by simp [peek, BUFSIZE]
  rw [hb] at hT
  have hne : buf.getD 0 0 ≠ 84 := fun h => hT (by rw [h])
  rw [processBuffer, parseLoop, if_pos hpos, hb]
  simp only
  rw [if_pos hne]

/-- C6, witness: the two-byte buffer `0x00 't'` on a client with one receiver, and a
well-formed block received next. -/
theorem header_mismatch_discarded_witness :
    processBuffer ⟨[1], []⟩ [0, 116] 2 = some (⟨[1], []⟩, []) ∧
    observe (recvRun ⟨⟨[1], []⟩, [0, 116], 0⟩ [.datagram (encodeTrack (sampleTrack 7 TS_NEW))])
      = observe (recvRun ⟨⟨[1], []⟩, [], 0⟩ [.datagram (encodeTrack (sampleTrack 7 TS_NEW))]) :=
  ⟨(header_mismatch_discarded ⟨[1], []⟩ [0, 116] 2 (by decide) (by decide)).1,
    (header_mismatch_discarded ⟨[1], []⟩ [0, 116] 2 (by decide) (by decide)).2 _⟩

/-- C7.  When the parse loop stands at a block (header `'T'`, id, 40-byte body, echo
groups) that is followed by a byte other than `'t'`, the loop ends there: no callback
is made for the block or for anything behind it, the only change to the client is the
entry written for the block itself, and the result is the same for every buffer that
agrees with this one up to that byte, so nothing behind it is parsed.  The loop
returns, so the thread goes on to the next top-level receive. -/
theorem missing_tail_discards_rest (fuel : Nat) (buf : List Nat) (recvSize curPos : Nat)
    (c : TrackLinkClient) (tid : Nat) (track : TrackRecord) (p tl : Nat)
    (hlt : curPos < recvSize) (hfuel : recvSize - curPos ≤ fuel)
    (hT : peek buf curPos = some 84) (hid : read32 buf (curPos + 1) = some tid)
    (hrd : readTrack buf tid (curPos + 5) = some (track, p))
    (htl : peek buf p = some tl) (hne : tl ≠ 116) :
    parseLoop fuel buf recvSize curPos c =
      some (⟨c.trackReceivers, storeTrack c.trackMap tid track⟩, []) ∧
    ∀ buf', (∀ i, i ≤ p → peek buf' i = peek buf i) →
      parseLoop fuel buf' recvSize curPos c = parseLoop fuel buf recvSize curPos c := by
  have hpos := readTrack_pos _ _ _ _ _ hrd
  have h := parseLoop_missing_tail fuel buf recvSize curPos c tid track p tl hlt hfuel hT hid
    hrd htl hne
  refine ⟨h, fun buf' hag => ?_⟩
  rw [h]
  exact parseLoop_missing_tail fuel buf' recvSize curPos c tid track p tl hlt hfuel
    (by rw [hag curPos (by omega)]; exact hT)
    (by rw [read32_congr buf buf' (curPos + 1) p (by omega) hag]; exact hid)
    (readTrack_congr buf buf' tid (curPos + 5) track p hrd hag)
    (by rw [hag p (Nat.le_refl p)]; exact htl) hne

/-- C7, witness: the block of id 7 with its tail byte replaced by zero, followed by a
well-formed block for id 8, on a fresh client with one receiver; the result is that
of the same buffer with the second block replaced by a block for id 9. -/
theorem missing_tail_discards_rest_witness :
    parseLoop 92 (encodeHead (sampleTrack 7 TS_NEW) ++ 0 :: encodeTrack (sampleTrack 8 TS_NEW))
        92 0 ⟨[1], []⟩ =
      some (⟨[1], [(7, sampleTrack 7 TS_NEW)]⟩, []) ∧
    parseLoop 92 (encodeHead (sampleTrack 7 TS_NEW) ++ 0 :: encodeTrack (sampleTrack 9 TS_NEW))
        92 0 ⟨[1], []⟩ =
      parseLoop 92 (encodeHead (sampleTrack 7 TS_NEW) ++ 0 :: encodeTrack (sampleTrack 8 TS_NEW))
        92 0 ⟨[1], []⟩ :=
  ⟨(missing_tail_discards_rest 92 _ 92 0 ⟨[1], []⟩ 7 (sampleTrack 7 TS_NEW) 45 0
      (by decide) (by decide) (by decide) (by decide) (by decide) (by decide) (by decide)).1,
    (missing_tail_discards_rest 92 _ 92 0 ⟨[1], []⟩ 7 (sampleTrack 7 TS_NEW) 45 0
      (by decide) (by decide) (by decide) (by decide) (by decide) (by decide) (by decide)).2
      _ (by decide)⟩

/-! ## Claims about the receiver list -/

theorem register_events (m : TrackMap) (r : Nat) :
    (m.filterMap fun iter =>
        if iter.2.state ≠ TS_OFF then some (⟨r, .onTrackNew, iter.2⟩ : Callback) else none) =
      (m.filter fun iter => decide (iter.2.state ≠ TS_OFF)).map
        fun iter => ⟨r, .onTrackNew, iter.2⟩ := by
  induction m with
  | nil => rfl
  | cons a m ih =>
    by_cases h : a.2.state = TS_OFF
    · simpa [List.filterMap_cons, List.filter_cons, h] using ih
    · simpa [List.filterMap_cons, List.filter_cons, h] using ih

/-- C8.  Registering a non-null receiver `r` that is not yet in the list calls
`r.onTrackNew` once for every entry of the map whose state is not `TS_OFF`, with that
entry's record and in map order, calls nothing else, and then appends `r` to the
list; so the number of callbacks is the number N of such entries.  A later record
with a state other than Ended for an id that is in the map reaches `r` as exactly one
onTrackUpdate. -/
theorem register_catches_up (c : TrackLinkClient) (r : Nat) (hr : r ≠ 0)
    (hnew : r ∉ c.trackReceivers) :
    registerTrackReceiver c r =
      (⟨c.trackReceivers ++ [r], c.trackMap⟩,
        (c.trackMap.filter fun iter => decide (iter.2.state ≠ TS_OFF)).map
          fun iter => ⟨r, .onTrackNew, iter.2⟩) ∧
    (registerTrackReceiver c r).2.length =
      (c.trackMap.filter fun iter => decide (iter.2.state ≠ TS_OFF)).length ∧
    ∀ t w, t.wf → (encodeTrack t).length ≤ BUFSIZE →
      TrackMap.find c.trackMap t.trackID = some w → t.state ≠ TS_OFF →
      ∃ c' evs, processBuffer (registerTrackReceiver c r).1 (encodeTrack t)
          (encodeTrack t).length = some (c', evs) ∧
        callbacksTo r evs = [⟨r, .onTrackUpdate, t⟩] := by
  have hreg : registerTrackReceiver c r =
      (⟨c.trackReceivers ++ [r], c.trackMap⟩,
        (c.trackMap.filter fun iter => decide (iter.2.state ≠ TS_OFF)).map
          fun iter => ⟨r, .onTrackNew, iter.2⟩) := by
    rw [← register_events]
    simp [registerTrackReceiver, hr, hnew]
  refine ⟨hreg, by rw [hreg]; simp, ?_⟩
  intro t w hwf hcap hfind hst
  rw [hreg]
  refine ⟨(applyTrack ⟨c.trackReceivers ++ [r], c.trackMap⟩ t).1,
    (applyTrack ⟨c.trackReceivers ++ [r], c.trackMap⟩ t).2,
    processBuffer_encodeTrack _ t hwf hcap, ?_⟩
  have hnil : (c.trackReceivers.filter fun x => decide (x = r)) = [] := by
    rw [List.filter_eq_nil_iff]
    intro x hx
    simp only [decide_eq_true_eq]
    intro hxr
    exact hnew (hxr ▸ hx)
  rw [applyTrack_update ⟨c.trackReceivers ++ [r], c.trackMap⟩ t w hfind hst]
  show callbacksTo r (notifyAll (c.trackReceivers ++ [r]) .onTrackUpdate t) = _
  rw [callbacksTo_notifyAll, List.filter_append, hnil]
  simp [notifyAll]

/-- C8, witness: receiver 2 registers on a client holding a live entry for id 7 and an
Ended entry for id 8; it gets one onTrackNew, for id 7, and a later Continuing record
for id 7 reaches it as one onTrackUpdate. -/
theorem register_catches_up_witness :
    registerTrackReceiver sampleClient 2 =
      (⟨[1, 2], sampleClient.trackMap⟩, [⟨2, .onTrackNew, sampleTrack 7 TS_NEW⟩]) ∧
    (registerTrackReceiver sampleClient 2).2.length = 1 ∧
    ∃ c' evs, processBuffer (registerTrackReceiver sampleClient 2).1
        (encodeTrack (sampleTrack 7 TS_CONT)) (encodeTrack (sampleTrack 7 TS_CONT)).length
          = some (c', evs) ∧
      callbacksTo 2 evs = [⟨2, .onTrackUpdate, sampleTrack 7 TS_CONT⟩] :=
  ⟨(register_catches_up sampleClient 2 (by decide) (by decide)).1,
    (register_catches_up sampleClient 2 (by decide) (by decide)).2.1,
    (register_catches_up sampleClient 2 (by decide) (by decide)).2.2
      (sampleTrack 7 TS_CONT) (sampleTrack 7 TS_NEW) (by decide) (by decide) (by decide)
      (by decide)⟩

/-- C9.  Registering a receiver that is already in the list makes no callback and
leaves the receiver list and the track map as they are.  On a list without
duplicates (the list starts empty and only `registerTrackReceiver` appends to it),
after any further registrations `r` occurs in the list exactly once and the map is
unchanged, and a record that is dispatched (any record except an Ended one for an
unknown id) reaches `r` by exactly one callback. -/
theorem register_idempotent (c : TrackLinkClient) (r : Nat) (hr : r ∈ c.trackReceivers)
    (hnd : c.trackReceivers.Nodup) :
    registerTrackReceiver c r = (c, []) ∧
    (∀ n, registerAll c (List.replicate n r) = c) ∧
    (∀ rs, (registerAll c rs).trackReceivers.count r = 1 ∧
      (registerAll c rs).trackMap = c.trackMap) ∧
    ∀ t, t.wf → (encodeTrack t).length ≤ BUFSIZE →
      ∃ c' evs, processBuffer c (encodeTrack t) (encodeTrack t).length = some (c', evs) ∧
        (callbacksTo r evs).length ≤ 1 ∧
        (¬ (TrackMap.find c.trackMap t.trackID = none ∧ t.state = TS_OFF) →
          (callbacksTo r evs).length = 1) := by
  have hreg : registerTrackReceiver c r = (c, []) := by
    simp [registerTrackReceiver, hr]
  refine ⟨hreg, ?_, ?_, ?_⟩
  · intro n
    induction n with
    | zero => rfl
    | succ n ih => rw [List.replicate_succ, registerAll, hreg]; exact ih
  · intro rs
    obtain ⟨h1, h2, h3⟩ := registerAll_spec rs c hnd
    exact ⟨List.count_eq_one_of_mem h1 (h2 r hr), h3⟩
  · intro t hwf hcap
    refine ⟨(applyTrack c t).1, (applyTrack c t).2, processBuffer_encodeTrack c t hwf hcap, ?_⟩
    by_cases hdisp : TrackMap.find c.trackMap t.trackID = none ∧ t.state = TS_OFF
    · rw [applyTrack_ended_unknown c t hdisp.1 hdisp.2]
      simp [callbacksTo, hdisp]
    · obtain ⟨k, hk⟩ := applyTrack_events c t hdisp
      rw [hk, callbacksTo_notifyAll, filter_eq_of_nodup _ r hnd hr]
      simp [notifyAll]

/-- C9, witness: receiver 1 registers again, any number of times, on a client where it
is registered; a later Continuing record for id 7 reaches it once. -/
theorem register_idempotent_witness :
    registerTrackReceiver sampleClient 1 = (sampleClient, []) ∧
    registerAll sampleClient (List.replicate 3 1) = sampleClient ∧
    (registerAll sampleClient [1, 2, 1]).trackReceivers.count 1 = 1 ∧
    ∃ c' evs, processBuffer sampleClient (encodeTrack (sampleTrack 7 TS_CONT))
        (encodeTrack (sampleTrack 7 TS_CONT)).length = some (c', evs) ∧
      (callbacksTo 1 evs).length ≤ 1 ∧
      (¬ (TrackMap.find sampleClient.trackMap (sampleTrack 7 TS_CONT).trackID = none
          ∧ (sampleTrack 7 TS_CONT).state = TS_OFF) → (callbacksTo 1 evs).length = 1) :=
  ⟨(register_idempotent sampleClient 1 (by decide) (by decide)).1,
    (register_idempotent sampleClient 1 (by decide) (by decide)).2.1 3,
    ((register_idempotent sampleClient 1 (by decide) (by decide)).2.2.1 [1, 2, 1]).1,
    (register_idempotent sampleClient 1 (by decide) (by decide)).2.2.2
      (sampleTrack 7 TS_CONT) (by decide) (by decide)⟩

/-- C10.  On a receiver list without duplicates, unregistering `r` leaves the list
with `r` filtered out, the other receivers in their order; when `r` is not in the
list the client is unchanged; the track map is unchanged and no callback is made;
and while the list stays as unregistering left it, no callback of the receive loop
goes to `r`. -/
theorem unregister_removes (c : TrackLinkClient) (r : Nat) (hnd : c.trackReceivers.Nodup) :
    unregisterTrackReceiver c r =
      (⟨c.trackReceivers.filter fun x => x != r, c.trackMap⟩, []) ∧
    (r ∉ c.trackReceivers → unregisterTrackReceiver c r = (c, [])) ∧
    ∀ (s s' : RecvThread) (os : List RecvOutcome) (evs : List Callback),
      s.client.trackReceivers = (unregisterTrackReceiver c r).1.trackReceivers →
      recvRun s os = some (s', evs) → callbacksTo r evs = [] := by
  have he : c.trackReceivers.erase r = c.trackReceivers.filter fun x => x != r :=
    hnd.erase_eq_filter r
  refine ⟨by simp [unregisterTrackReceiver, he], ?_, ?_⟩
  · intro hn
    simp [unregisterTrackReceiver, List.erase_of_not_mem hn]
  · intro s s' os evs hs hrun
    obtain ⟨_, hev⟩ := recvRun_receivers os s s' evs hrun
    unfold callbacksTo
    rw [List.filter_eq_nil_iff]
    intro e he'
    have hmem := hev e he'
    rw [hs] at hmem
    simp only [unregisterTrackReceiver, he, List.mem_filter, bne_iff_ne, ne_eq] at hmem
    simp only [decide_eq_true_eq]
    exact hmem.2

/-- C10, witness: receiver 1 is unregistered from a client whose list is `[1, 2]`; a
Continuing record for id 7 received afterwards is reported to receiver 2 only. -/
theorem unregister_removes_witness :
    unregisterTrackReceiver ⟨[1, 2], sampleClient.trackMap⟩ 1 =
      (⟨[2], sampleClient.trackMap⟩, []) ∧
    callbacksTo 1 [⟨2, .onTrackUpdate, sampleTrack 7 TS_CONT⟩] = [] :=
  ⟨(unregister_removes ⟨[1, 2], sampleClient.trackMap⟩ 1 (by decide)).1,
    (unregister_removes ⟨[1, 2], sampleClient.trackMap⟩ 1 (by decide)).2.2
      ⟨⟨[2], sampleClient.trackMap⟩, [], 0⟩
      ⟨⟨[2], [(7, sampleTrack 7 TS_CONT), (8, sampleTrack 8 TS_OFF)]⟩,
        encodeTrack (sampleTrack 7 TS_CONT), 0⟩
      [.datagram (encodeTrack (sampleTrack 7 TS_CONT))]
      [⟨2, .onTrackUpdate, sampleTrack 7 TS_CONT⟩] (by decide) (by decide)⟩

/-! ## Claims about updates, rejected blocks and failed sub-receives -/

/-- C14.  A record with a state other than Ended for an id that is in the map,
received as one block, replaces the entry: afterwards the entry found under the id is
the new record itself, equal in state, currentPos, expectPos, relPos, orientation,
speed and in its list of echoes (in wire order), whatever the previous entry held;
with no echoes in the new record the stored list is empty.  Every receiver gets one
onTrackUpdate with the new record. -/
theorem update_overwrites_entry (c : TrackLinkClient) (prev t : TrackRecord)
    (hknown : TrackMap.find c.trackMap t.trackID = some prev) (hwf : t.wf)
    (hcap : (encodeTrack t).length ≤ BUFSIZE) (hst : t.state ≠ TS_OFF) :
    ∃ c', processBuffer c (encodeTrack t) (encodeTrack t).length
        = some (c', notifyAll c.trackReceivers .onTrackUpdate t) ∧
      TrackMap.find c'.trackMap t.trackID = some t ∧
      (t.echoes = [] → ∀ e, TrackMap.find c'.trackMap t.trackID = some e → e.echoes = []) := by
  refine ⟨⟨c.trackReceivers, storeTrack c.trackMap t.trackID t⟩, ?_, find_storeTrack _ _ _, ?_⟩
  · rw [processBuffer_encodeTrack c t hwf hcap, applyTrack_update c t prev hknown hst]
  · intro he e hfind
    rw [find_storeTrack] at hfind
    simp only [Option.some.injEq] at hfind
    rw [← hfind, he]

/-- C14, witness: the entry for id 7 holds a record with two echoes; a Continuing
record for id 7 without echoes replaces it. -/
theorem update_overwrites_entry_witness :
    ∃ c', processBuffer ⟨[1], [(7, { sampleTrack 7 TS_NEW with echoes := [⟨3, 4⟩, ⟨5, 6⟩] })]⟩
        (encodeTrack (sampleTrack 7 TS_CONT)) (encodeTrack (sampleTrack 7 TS_CONT)).length
        = some (c', notifyAll [1] .onTrackUpdate (sampleTrack 7 TS_CONT)) ∧
      TrackMap.find c'.trackMap 7 = some (sampleTrack 7 TS_CONT) ∧
      ((sampleTrack 7 TS_CONT).echoes = [] →
        ∀ e, TrackMap.find c'.trackMap 7 = some e → e.echoes = []) :=
  update_overwrites_entry
    ⟨[1], [(7, { sampleTrack 7 TS_NEW with echoes := [⟨3, 4⟩, ⟨5, 6⟩] })]⟩
    { sampleTrack 7 TS_NEW with echoes := [⟨3, 4⟩, ⟨5, 6⟩] } (sampleTrack 7 TS_CONT)
    (by decide) (by decide) (by decide) (by decide)

/-- C12.  Inside the reassembly loop, a sub-receive that returns a value of zero or
less (timeout, error, empty datagram) drops everything accumulated: the step makes
no callback, leaves the client (track map and receiver list) unchanged and puts the
thread back at the top-level receive, and from there on every run is the one of a
thread that starts with an empty buffer at offset 0. -/
theorem failed_subreceive_discards (s : RecvThread) (o : RecvOutcome)
    (hasm : s.recvSize ≠ 0)
    (hret : (Receive s.recvBuf s.recvSize (BUFSIZE - s.recvSize) o).2 ≤ 0) :
    recvStep s o =
      some (⟨s.client, (Receive s.recvBuf s.recvSize (BUFSIZE - s.recvSize) o).1, 0⟩, []) ∧
    ∀ os, observe (recvRun
        ⟨s.client, (Receive s.recvBuf s.recvSize (BUFSIZE - s.recvSize) o).1, 0⟩ os)
      = observe (recvRun ⟨s.client, [], 0⟩ os) := by
  refine ⟨?_, fun os => recvRun_idle_buf os _ _ _⟩
  simp only [recvStep, hasm, if_false, hret, if_true]

/-- C12, witness: two bytes of a block are in the buffer and the sub-receive times
out. -/
theorem failed_subreceive_discards_witness :
    recvStep ⟨⟨[1], []⟩, [84, 7], 2⟩ .timeout = some (⟨⟨[1], []⟩, [84, 7], 0⟩, []) ∧
    observe (recvRun ⟨⟨[1], []⟩, [84, 7], 0⟩ [.datagram (encodeTrack (sampleTrack 7 TS_NEW))])
      = observe (recvRun ⟨⟨[1], []⟩, [], 0⟩ [.datagram (encodeTrack (sampleTrack 7 TS_NEW))]) :=
  ⟨(failed_subreceive_discards ⟨⟨[1], []⟩, [84, 7], 2⟩ .timeout (by decide) (by decide)).1,
    (failed_subreceive_discards ⟨⟨[1], []⟩, [84, 7], 2⟩ .timeout (by decide) (by decide)).2 _⟩

/-- C20, the code at the failing input.  A block for id 7 whose tail byte is zero
instead of `'t'` is rejected without a callback, yet the map is not what it was: on an
empty map an entry for 7 has been inserted, and on a map that holds an entry for 7
with two echoes that entry has been overwritten with the fields of the rejected
block. -/
theorem rejected_block_changes_map :
    processBuffer ⟨[1], []⟩ (encodeHead (sampleTrack 7 TS_CONT) ++ [0]) 46 =
      some (⟨[1], [(7, sampleTrack 7 TS_CONT)]⟩, []) ∧
    processBuffer ⟨[1], [(7, { sampleTrack 7 TS_NEW with echoes := [⟨3, 4⟩, ⟨5, 6⟩] })]⟩
        (encodeHead (sampleTrack 7 TS_CONT) ++ [0]) 46 =
      some (⟨[1], [(7, sampleTrack 7 TS_CONT)]⟩, []) := by
  decide

/-! ## Claims about the socket and the constructor -/

/-- C11, the code at the failing input.  The constructors check nothing: for port 0,
for 70000 and for -1 the client is constructed, `recvThread` is started, and the port
kept is the argument modulo 65536. -/
theorem construct_accepts_any_port :
    TrackLinkClient.construct true 0 0 0 = ⟨false, true, 0, 0, 0, true⟩ ∧
    TrackLinkClient.construct true 0 70000 0 = ⟨false, true, 0, 4464, 0, true⟩ ∧
    TrackLinkClient.construct true 0 (-1) 0 = ⟨false, true, 0, 65535, 0, true⟩ ∧
    TrackLinkClient.constructAny true 0 0 = ⟨false, true, 0, 0, 0, true⟩ := by
  decide

/-- C19, counterexample.  An open socket with handle 5 whose `closesocket` fails on
the first call and succeeds on the second: one `Close()` leaves the handle 5, and
`Close(); Close()` leaves `INVALID_SOCKET`. -/
theorem close_twice_after_failure :
    (UDPManager.Close (fun _ => SOCKET_ERROR) ⟨5⟩).state = ⟨5⟩ ∧
    (UDPManager.Close (fun _ => 0) (UDPManager.Close (fun _ => SOCKET_ERROR) ⟨5⟩).state).state
      = ⟨INVALID_SOCKET⟩ ∧
    (UDPManager.Close (fun _ => 0) (UDPManager.Close (fun _ => SOCKET_ERROR) ⟨5⟩).state).state
      ≠ (UDPManager.Close (fun _ => SOCKET_ERROR) ⟨5⟩).state := by
  decide

/-- C19, as amended.  `first` and `second` are the answers of the operating system to
the `closesocket` of the first and of the second `Close`.  The object after
`Close(); Close()` is the object after one `Close()` exactly when the socket is not
open, or the first `closesocket` succeeds, or the second fails: every pair of
outcomes but failure followed by success.  On an object whose handle is
`INVALID_SOCKET`, `Close` calls nothing, changes nothing and returns false.  When
`Close` returns true the handle is `INVALID_SOCKET` and a second `Close` makes no
call.  When `closesocket` fails, `Close` returns false and keeps the handle, and a
second `Close` is a `Close` of the same object. -/
theorem close_idempotent (first second : Nat → Int) (u : UDPManager) :
    ((UDPManager.Close second (UDPManager.Close first u).state).state
        = (UDPManager.Close first u).state ↔
      (u.m_hSocket = INVALID_SOCKET ∨ first u.m_hSocket ≠ SOCKET_ERROR ∨
        second u.m_hSocket = SOCKET_ERROR)) ∧
    (u.m_hSocket = INVALID_SOCKET → UDPManager.Close first u = ⟨u, false, []⟩) ∧
    ((UDPManager.Close first u).ret = true →
      (UDPManager.Close first u).state.m_hSocket = INVALID_SOCKET ∧
      UDPManager.Close second (UDPManager.Close first u).state =
        ⟨(UDPManager.Close first u).state, false, []⟩) ∧
    (u.m_hSocket ≠ INVALID_SOCKET → first u.m_hSocket = SOCKET_ERROR →
      UDPManager.Close first u = ⟨u, false, [u.m_hSocket]⟩ ∧
      UDPManager.Close second (UDPManager.Close first u).state = UDPManager.Close second u) := by
  unfold UDPManager.Close
  by_cases h1 : u.m_hSocket = INVALID_SOCKET
  · simp [h1]
  · by_cases h2 : first u.m_hSocket = SOCKET_ERROR
    · by_cases h3 : second u.m_hSocket = SOCKET_ERROR
      · simp [h1, h2, h3]
      · have hne : (⟨INVALID_SOCKET⟩ : UDPManager) ≠ u := by
          intro h
          exact h1 (by rw [← h])
        simp [h1, h2, h3, hne]
    · simp [h1, h2]

/-- C19, witness: an open socket with handle 5; `closesocket` succeeds, and, for the
last part, fails at the first `Close`. -/
theorem close_idempotent_witness :
    (UDPManager.Close (fun _ => 0) (UDPManager.Close (fun _ => 0) ⟨5⟩).state).state
      = (UDPManager.Close (fun _ => 0) ⟨5⟩).state ∧
    (UDPManager.Close (fun _ => 0) ⟨5⟩).state = ⟨INVALID_SOCKET⟩ ∧
    UDPManager.Close (fun _ => SOCKET_ERROR) ⟨5⟩ = ⟨⟨5⟩, false, [5]⟩ :=
  ⟨(close_idempotent (fun _ => 0) (fun _ => 0) ⟨5⟩).1.mpr (Or.inr (Or.inl (by decide))),
    by decide,
    ((close_idempotent (fun _ => SOCKET_ERROR) (fun _ => 0) ⟨5⟩).2.2.2 (by decide)
      (by decide)).1⟩

/-! ## Claims about the capacity of the buffer -/

theorem sizeStep_ok (s : SizeState) (ret : Int) (tail : Bool) (hs : s.ok)
    (hret : ret ≤ (nextCall s).2) : (sizeStep s ret tail).ok := by
  obtain ⟨h1, h2⟩ := hs
  unfold sizeStep
  unfold nextCall at hret
  cases hi : s.inner with
  | true =>
    have hp := h2 hi
    simp only [hi, if_true] at hret ⊢
    by_cases hr : ret ≤ 0
    · simp [hr, SizeState.ok]
    · by_cases hover : s.recvSize + ret > 20480
      · simp [hr, hover, SizeState.ok]
      · simp only [hr, hover, if_false, SizeState.ok]
        constructor
        · omega
        · intro _; omega
  | false =>
    simp only [hi] at hret ⊢
    by_cases hr : ret > 0
    · simp only [hr, if_true, SizeState.ok, Bool.false_eq_true, if_false]
      simp only [Bool.false_eq_true, if_false] at hret
      exact ⟨hret, fun _ => trivial⟩
    · simp only [hr, if_false, SizeState.ok, Bool.false_eq_true]
      simp only [Bool.false_eq_true, if_false] at hret
      exact ⟨by omega, by simp⟩

theorem nextCall_ok (s : SizeState) (hs : s.ok) :
    0 ≤ (nextCall s).1 ∧ 0 ≤ (nextCall s).2 ∧ (nextCall s).1 + (nextCall s).2 = 20480 := by
  obtain ⟨h1, h2⟩ := hs
  unfold nextCall
  cases hi : s.inner with
  | true =>
    have hp := h2 hi
    simp only [if_true]
    omega
  | false => simp

theorem Receive_le_offered (buf : List Nat) (off iSize : Nat) (o : RecvOutcome) :
    (Receive buf off iSize o).2 ≤ (iSize : Int) := by
  cases o with
  | timeout =>
    show SOCKET_TIMEOUT ≤ (iSize : Int)
    unfold SOCKET_TIMEOUT SOCKET_ERROR
    omega
  | selectError =>
    show SOCKET_ERROR ≤ (iSize : Int)
    unfold SOCKET_ERROR
    omega
  | recvError =>
    show SOCKET_ERROR ≤ (iSize : Int)
    unfold SOCKET_ERROR
    omega
  | datagram d =>
    simp only [Receive]
    by_cases h : d.length ≤ iSize
    · rw [if_pos h]; simp only; omega
    · rw [if_neg h]; simp only [SOCKET_ERROR]; omega

theorem Receive_length (buf : List Nat) (off iSize : Nat) (o : RecvOutcome)
    (hbuf : off ≤ buf.length) (hret : 0 < (Receive buf off iSize o).2) :
    (Receive buf off iSize o).1.length = off + (Receive buf off iSize o).2.toNat := by
  cases o with
  | timeout =>
    have h : (Receive buf off iSize .timeout).2 = SOCKET_TIMEOUT := rfl
    rw [h] at hret
    unfold SOCKET_TIMEOUT SOCKET_ERROR at hret
    omega
  | selectError =>
    have h : (Receive buf off iSize .selectError).2 = SOCKET_ERROR := rfl
    rw [h] at hret
    unfold SOCKET_ERROR at hret
    omega
  | recvError =>
    have h : (Receive buf off iSize .recvError).2 = SOCKET_ERROR := rfl
    rw [h] at hret
    unfold SOCKET_ERROR at hret
    omega
  | datagram d =>
    simp only [Receive] at hret ⊢
    by_cases h : d.length ≤ iSize
    · rw [if_pos h]
      simp only [List.length_append, zeroFrom, List.length_take, List.length_replicate,
        Int.toNat_ofNat]
      omega
    · rw [if_neg h] at hret
      simp only [SOCKET_ERROR] at hret
      omega

theorem afterReceive_recvSize (c : TrackLinkClient) (buf : List Nat) (n : Nat)
    (s' : RecvThread) (evs : List Callback) (h : afterReceive c buf n = some (s', evs)) :
    s'.recvBuf = buf ∧ (s'.recvSize = n ∨ s'.recvSize = 0) := by
  unfold afterReceive at h
  split at h
  · simp only [Option.some.injEq, Prod.mk.injEq] at h
    rw [← h.1]; exact ⟨rfl, Or.inl rfl⟩
  · split at h
    · simp at h
    · simp only [Option.some.injEq, Prod.mk.injEq] at h
      rw [← h.1]; exact ⟨rfl, Or.inr rfl⟩

/-- In the embedding of the receive loop the calls of `Receive` return at most what
they are offered, and the bound of the reassembly holds on the bytes themselves:
inside the reassembly loop the buffer holds exactly `recvSize` bytes, at most
20480. -/
theorem recvStep_capacity (s s' : RecvThread) (o : RecvOutcome) (evs : List Callback)
    (hbuf : s.recvSize ≠ 0 → s.recvBuf.length = s.recvSize)
    (h : recvStep s o = some (s', evs)) :
    s'.recvSize ≤ BUFSIZE ∧ (s'.recvSize ≠ 0 → s'.recvBuf.length = s'.recvSize) := by
  unfold recvStep at h
  split at h
  · simp only at h
    split at h
    · rename_i hidle hpos
      have hle := Receive_le_offered s.recvBuf 0 BUFSIZE o
      have hlen := Receive_length s.recvBuf 0 BUFSIZE o (Nat.zero_le _) hpos
      obtain ⟨hb, hs⟩ := afterReceive_recvSize _ _ _ _ _ h
      rcases hs with hs | hs
      · rw [hs, hb, hlen]
        exact ⟨by omega, fun _ => by omega⟩
      · rw [hs]; exact ⟨Nat.zero_le _, fun hne => absurd rfl hne⟩
    · simp only [Option.some.injEq, Prod.mk.injEq] at h
      rw [← h.1]; exact ⟨Nat.zero_le _, fun hne => absurd rfl hne⟩
  · rename_i hasm
    simp only at h
    split at h
    · simp only [Option.some.injEq, Prod.mk.injEq] at h
      rw [← h.1]; exact ⟨Nat.zero_le _, fun hne => absurd rfl hne⟩
    · rename_i hpos
      split at h
      · simp only [Option.some.injEq, Prod.mk.injEq] at h
        rw [← h.1]; exact ⟨Nat.zero_le _, fun hne => absurd rfl hne⟩
      · have hle := Receive_le_offered s.recvBuf s.recvSize (BUFSIZE - s.recvSize) o
        have hlen := Receive_length s.recvBuf s.recvSize (BUFSIZE - s.recvSize) o
          (by rw [hbuf hasm]) (by omega)
        obtain ⟨hb, hs⟩ := afterReceive_recvSize _ _ _ _ _ h
        rcases hs with hs | hs
        · rw [hs, hb, hlen]
          exact ⟨by omega, fun _ => rfl⟩
        · rw [hs]; exact ⟨Nat.zero_le _, fun hne => absurd rfl hne⟩

/-- C13, counterexample.  A top-level `Receive` that fails returns `SOCKET_ERROR`,
which is at most the length offered, and the loop stores it in `recvSize`: the
variable is -1 at that point. -/
theorem recvSize_negative_after_error :
    Admissible SizeState.init [(SOCKET_ERROR, false)] ∧
    sizeRun SizeState.init [(SOCKET_ERROR, false)] = [⟨-1, false⟩] := by
  decide

/-- C13, as amended.  When every call of `Receive` returns at most the length it was
offered: after every call `recvSize` is at most 20480, and it is positive whenever
the thread is inside the reassembly loop; every call is offered the region from a
non-negative offset (0 at top level, `recvSize` inside the loop) up to the end of the
array, of length 20480 minus the offset and not negative; and the bytes a call
stores end at an index of at most 20480, so none is written outside the array. -/
theorem capacity_invariant (inputs : List (Int × Bool))
    (hadm : Admissible SizeState.init inputs) :
    (∀ s ∈ sizeRun SizeState.init inputs,
      s.recvSize ≤ 20480 ∧ (s.inner = true → 0 < s.recvSize ∧ nextCall s
        = (s.recvSize, 20480 - s.recvSize) ∧ 0 ≤ 20480 - s.recvSize)) ∧
    ∀ call ∈ callTrace SizeState.init inputs,
      0 ≤ call.1 ∧ 0 ≤ call.2.1 ∧ call.1 + call.2.1 = 20480 ∧
      (0 < call.2.2 → call.1 + call.2.2 ≤ 20480) := by
  have hinit : SizeState.init.ok := by
    simp [SizeState.ok, SizeState.init]
  have key : ∀ (inputs : List (Int × Bool)) (s : SizeState), s.ok → Admissible s inputs →
      (∀ t ∈ sizeRun s inputs, t.ok) ∧
      ∀ call ∈ callTrace s inputs,
        0 ≤ call.1 ∧ 0 ≤ call.2.1 ∧ call.1 + call.2.1 = 20480 ∧
        (0 < call.2.2 → call.1 + call.2.2 ≤ 20480) := by
    intro inputs
    induction inputs with
    | nil => intro s _ _; simp [sizeRun, callTrace]
    | cons x rest ih =>
      intro s hs hadm
      obtain ⟨ret, tail⟩ := x
      obtain ⟨hret, hrest⟩ := hadm
      have hnext := sizeStep_ok s ret tail hs hret
      obtain ⟨ih1, ih2⟩ := ih (sizeStep s ret tail) hnext hrest
      obtain ⟨c1, c2, c3⟩ := nextCall_ok s hs
      constructor
      · intro t ht
        simp only [sizeRun, List.mem_cons] at ht
        rcases ht with ht | ht
        · rw [ht]; exact hnext
        · exact ih1 t ht
      · intro call hc
        simp only [callTrace, List.mem_cons] at hc
        rcases hc with hc | hc
        · rw [hc]
          refine ⟨c1, c2, c3, fun _ => ?_⟩
          simp only
          omega
        · exact ih2 call hc
  obtain ⟨k1, k2⟩ := key inputs SizeState.init hinit hadm
  refine ⟨fun s hs => ?_, k2⟩
  obtain ⟨h1, h2⟩ := k1 s hs
  refine ⟨h1, fun hi => ⟨h2 hi, by simp [nextCall, hi], by omega⟩⟩

/-- C13, witness: 20000 bytes at top level that do not end in `'t'`, then a
sub-receive that fills the last 480 bytes, again without `'t'`, then a sub-receive
that is offered nothing and returns 0. -/
theorem capacity_invariant_witness :
    sizeRun SizeState.init [(20000, false), (480, false), (0, false)]
      = [⟨20000, true⟩, ⟨20480, true⟩, ⟨0, false⟩] ∧
    callTrace SizeState.init [(20000, false), (480, false), (0, false)]
      = [(0, 20480, 20000), (20000, 480, 480), (20480, 0, 0)] ∧
    ∀ call ∈ callTrace SizeState.init [(20000, false), (480, false), (0, false)],
      0 ≤ call.1 ∧ 0 ≤ call.2.1 ∧ call.1 + call.2.1 = 20480 ∧
      (0 < call.2.2 → call.1 + call.2.2 ≤ 20480) :=
  ⟨by decide, by decide,
    (capacity_invariant [(20000, false), (480, false), (0, false)] (by decide)).2⟩

/-! ## Claims about connecting and the bound socket -/

theorem threadStep_failed_attempt (cfg : Construction) (r : RecvThread) (e : StepEnv)
    (hexit : e.threadExit = false) (hfail : attemptFails cfg e = true) :
    threadStep cfg ⟨.connecting, none, r⟩ e =
      some (⟨.connecting, none, r⟩, failedAttemptOps cfg e, []) := by
  unfold attemptFails at hfail
  unfold threadStep failedAttemptOps
  simp only [hexit, Bool.false_eq_true, if_false]
  by_cases hc : (UDPManager.Create e.socket UDPManager.fresh).2 = true
  · simp only [hc, Bool.not_true, Bool.false_or, Bool.not_eq_true'] at hfail
    simp [hc, hfail]
  · simp [hc]

theorem threadRun_failed_attempts (cfg : Construction) (r : RecvThread) (fails : List StepEnv) :
    ∀ (rest : List StepEnv),
      (∀ e ∈ fails, e.threadExit = false ∧ attemptFails cfg e = true) →
      threadRun cfg ⟨.connecting, none, r⟩ (fails ++ rest) =
        match threadRun cfg ⟨.connecting, none, r⟩ rest with
        | none => none
        | some (t, ops, evs) => some (t, fails.flatMap (failedAttemptOps cfg) ++ ops, evs) := by
  induction fails with
  | nil =>
    intro rest _
    simp only [List.nil_append, List.flatMap_nil]
    cases threadRun cfg ⟨.connecting, none, r⟩ rest with
    | none => rfl
    | some x => rfl
  | cons e es ih =>
    intro rest h
    obtain ⟨hexit, hfail⟩ := h e (List.mem_cons_self _ _)
    have hrec := ih rest (fun e' h' => h e' (List.mem_cons_of_mem _ h'))
    rw [List.cons_append, threadRun, threadStep_failed_attempt cfg r e hexit hfail]
    simp only
    rw [hrec]
    cases threadRun cfg ⟨.connecting, none, r⟩ rest with
    | none => rfl
    | some x => simp

theorem threadRun_ended (cfg : Construction) (es : List StepEnv) :
    ∀ (u : Option UDPManager) (r : RecvThread),
      threadRun cfg ⟨.ended, u, r⟩ es = some (⟨.ended, u, r⟩, [], []) := by
  induction es with
  | nil => intro u r; rfl
  | cons e es ih => intro u r; simp [threadRun, threadStep, ih]

theorem threadRun_shutdown_connecting (cfg : Construction) (r : RecvThread) (rest : List StepEnv)
    (hr : ∀ e ∈ rest, e.threadExit = true) :
    threadRun cfg ⟨.connecting, none, r⟩ rest =
      some (⟨if rest = [] then .connecting else .ended, none, r⟩, [], []) := by
  cases rest with
  | nil => rfl
  | cons e es =>
    have he := hr e (List.mem_cons_self _ _)
    simp [threadRun, threadStep, he, finishOps, threadRun_ended]

theorem failedAttemptOps_no_receive (cfg : Construction) (e : StepEnv) :
    ∀ op ∈ failedAttemptOps cfg e, op.isReceive = false := by
  intro op hop
  unfold failedAttemptOps at hop
  split at hop
  · simp only [List.mem_singleton] at hop
    rw [hop]; rfl
  · simp only [List.mem_cons, List.mem_singleton, List.not_mem_nil, or_false] at hop
    rcases hop with h | h | h
    · rw [h]; rfl
    · rw [h]; unfold bindOp; split <;> rfl
    · rw [h]; rfl

/-- C15.  Connecting.  As long as `threadExit` is unset, every attempt that fails (no
socket from `Create`, or the configured bind, unicast or multicast, fails) leaves the
thread at the head of the connection loop with `udpman` null, after a `Create` that
failed or a `Create`, the failed bind and a `Close`; the next attempt follows, for
any number of failures in a row.  Once `threadExit` is read as set, no further
attempt is made, the thread ends, and no `Receive` has been called; this also holds
when the flag is first seen right after an attempt that succeeded: the socket is
closed and the thread ends. -/
theorem connecting_retries_until_shutdown (cfg : Construction) (c : TrackLinkClient)
    (fails rest : List StepEnv)
    (hf : ∀ e ∈ fails, e.threadExit = false ∧ attemptFails cfg e = true)
    (hr : ∀ e ∈ rest, e.threadExit = true) :
    threadRun cfg (Thread.start c) fails =
      some (Thread.start c, fails.flatMap (failedAttemptOps cfg), []) ∧
    threadRun cfg (Thread.start c) (fails ++ rest) =
      some (⟨if rest = [] then .connecting else .ended, none, ⟨c, [], 0⟩⟩,
        fails.flatMap (failedAttemptOps cfg), []) ∧
    (∀ op ∈ fails.flatMap (failedAttemptOps cfg), op.isReceive = false) ∧
    (∀ e, e.threadExit = false → attemptFails cfg e = false →
      ∃ u, threadStep cfg (Thread.start c) e =
        some (⟨.bound, some u, ⟨c, [], 0⟩⟩,
          [.Create true, bindOp cfg e u, .SetTimeoutReceive 1], [])) ∧
    (∀ u e, e.threadExit = true →
      threadStep cfg ⟨.bound, some u, ⟨c, [], 0⟩⟩ e =
        some (⟨.ended, none, ⟨c, [], 0⟩⟩, [.Close], [])) := by
  refine ⟨?_, ?_, ?_, ?_, ?_⟩
  · have h := threadRun_failed_attempts cfg ⟨c, [], 0⟩ fails [] hf
    simpa [threadRun, Thread.start] using h
  · have h := threadRun_failed_attempts cfg ⟨c, [], 0⟩ fails rest hf
    rw [threadRun_shutdown_connecting cfg ⟨c, [], 0⟩ rest hr] at h
    simpa [Thread.start] using h
  · intro op hop
    rw [List.mem_flatMap] at hop
    obtain ⟨e, _, he⟩ := hop
    exact failedAttemptOps_no_receive cfg e op he
  · intro e hexit hok
    unfold attemptFails at hok
    simp only [Bool.or_eq_false_iff, Bool.not_eq_false'] at hok
    refine ⟨(UDPManager.Create e.socket UDPManager.fresh).1, ?_⟩
    simp [threadStep, Thread.start, hexit, hok.1, hok.2]
  · intro u e hexit
    simp [threadStep, hexit, finishOps]

/-- C15, witness: multicast configuration; `socket` fails, then `bind` fails on socket
5, then `threadExit` is seen set. -/
theorem connecting_retries_until_shutdown_witness :
    threadRun sampleConfig (Thread.start ⟨[1], []⟩) [envCreateFails, envBindFails] =
      some (Thread.start ⟨[1], []⟩,
        [.Create false, .Create true, .BindMcast 0 0 44345 false, .Close], []) ∧
    threadRun sampleConfig (Thread.start ⟨[1], []⟩)
        ([envCreateFails, envBindFails] ++ [envShutdown]) =
      some (⟨.ended, none, ⟨⟨[1], []⟩, [], 0⟩⟩,
        [.Create false, .Create true, .BindMcast 0 0 44345 false, .Close], []) :=
  ⟨(connecting_retries_until_shutdown sampleConfig ⟨[1], []⟩ [envCreateFails, envBindFails]
      [envShutdown] (by decide) (by decide)).1,
    (connecting_retries_until_shutdown sampleConfig ⟨[1], []⟩ [envCreateFails, envBindFails]
      [envShutdown] (by decide) (by decide)).2.1⟩

theorem recvStep_failed_top (r : RecvThread) (o : RecvOutcome) (hidle : r.recvSize = 0)
    (herr : (Receive r.recvBuf 0 BUFSIZE o).2 ≤ 0) :
    recvStep r o = some (⟨r.client, (Receive r.recvBuf 0 BUFSIZE o).1, 0⟩, []) := by
  have h : ¬ (Receive r.recvBuf 0 BUFSIZE o).2 > 0 := by omega
  simp only [recvStep, hidle, if_true, h, if_false]

theorem threadStep_bound (cfg : Construction) (t t' : Thread) (e : StepEnv)
    (ops : List SocketOp) (evs : List Callback) (hb : t.phase = .bound)
    (h : threadStep cfg t e = some (t', ops, evs)) :
    ((t'.phase = .bound ∧ t'.udpman = t.udpman) ∨ t'.phase = .ended) ∧
    ∀ op ∈ ops, op.isConnect = false := by
  unfold threadStep at h
  rw [hb] at h
  simp only at h
  have hfin : ∀ op ∈ finishOps t.udpman, op.isConnect = false := by
    intro op hop
    unfold finishOps at hop
    split at hop
    · simp only [List.mem_singleton] at hop
      rw [hop]; rfl
    · simp at hop
  split at h
  · split at h
    · simp only [Option.some.injEq, Prod.mk.injEq] at h
      obtain ⟨h1, h2, _⟩ := h
      subst h1 h2
      exact ⟨Or.inr rfl, hfin⟩
    · split at h
      · simp at h
      · simp only [Option.some.injEq, Prod.mk.injEq] at h
        obtain ⟨h1, h2, _⟩ := h
        subst h1 h2
        refine ⟨Or.inl ⟨rfl, rfl⟩, ?_⟩
        intro op hop
        simp only [List.mem_singleton] at hop
        rw [hop]; rfl
  · split at h
    · split at h
      · simp at h
      · simp only [Option.some.injEq, Prod.mk.injEq] at h
        obtain ⟨h1, h2, _⟩ := h
        subst h1 h2
        exact ⟨Or.inr rfl, hfin⟩
    · split at h
      · simp at h
      · simp only [Option.some.injEq, Prod.mk.injEq] at h
        obtain ⟨h1, h2, _⟩ := h
        subst h1 h2
        refine ⟨Or.inl ⟨rfl, rfl⟩, ?_⟩
        intro op hop
        simp only [List.mem_singleton] at hop
        rw [hop]; rfl

theorem threadRun_bound (cfg : Construction) (es : List StepEnv) :
    ∀ (t t' : Thread) (ops : List SocketOp) (evs : List Callback),
      t.phase = .bound ∨ t.phase = .ended → threadRun cfg t es = some (t', ops, evs) →
      (t'.phase = .bound → t'.udpman = t.udpman) ∧ t'.phase ≠ .connecting ∧
      ∀ op ∈ ops, op.isConnect = false := by
  induction es with
  | nil =>
    intro t t' ops evs hp h
    simp only [threadRun, Option.some.injEq, Prod.mk.injEq] at h
    obtain ⟨h1, h2, _⟩ := h
    subst h1 h2
    refine ⟨fun _ => rfl, ?_, by simp⟩
    rcases hp with hp | hp <;> rw [hp] <;> simp
  | cons e es ih =>
    intro t t' ops evs hp h
    rw [threadRun] at h
    split at h
    · simp at h
    · rename_i t1 ops1 evs1 hstep
      split at h
      · simp at h
      · rename_i t2 ops2 evs2 hrun
        simp only [Option.some.injEq, Prod.mk.injEq] at h
        obtain ⟨h1, h2, _⟩ := h
        subst h1 h2
        rcases hp with hp | hp
        · obtain ⟨hs1, hs2⟩ := threadStep_bound cfg t t1 e ops1 evs1 hp hstep
          have hp1 : t1.phase = .bound ∨ t1.phase = .ended := by
            rcases hs1 with hs1 | hs1
            · exact Or.inl hs1.1
            · exact Or.inr hs1
          obtain ⟨hr1, hr2, hr3⟩ := ih t1 t2 ops2 evs2 hp1 hrun
          refine ⟨?_, hr2, ?_⟩
          · intro hb2
            rcases hs1 with hs1 | hs1
            · rw [hr1 hb2, hs1.2]
            · obtain ⟨p1, u1, r1⟩ := t1
              simp only at hs1
              subst hs1
              rw [threadRun_ended cfg es] at hrun
              simp only [Option.some.injEq, Prod.mk.injEq] at hrun
              rw [← hrun.1] at hb2
              simp at hb2
          · intro op hop
            rcases List.mem_append.mp hop with hop | hop
            · exact hs2 op hop
            · exact hr3 op hop
        · have hst : threadStep cfg t e = some (t, [], []) := by
            unfold threadStep; rw [hp]
          rw [hst] at hstep
          simp only [Option.some.injEq, Prod.mk.injEq] at hstep
          obtain ⟨h1, h2, _⟩ := hstep
          subst h1 h2
          obtain ⟨hr1, hr2, hr3⟩ := ih t t2 ops2 evs2 (Or.inr hp) hrun
          exact ⟨hr1, hr2, by simpa using hr3⟩

/-- C16, counterexample.  Bound on socket 5 and `threadExit` unset: a top-level
`Receive` fails in `recvfrom` (return value -1), then one fails in `select`
(`SOCKET_ERROR`).  The thread makes two calls of `Receive` at offset 0 and nothing
else: no `Close`, no `Create`, no bind, and it is still bound on socket 5. -/
theorem bound_error_no_reconnect :
    threadRun sampleConfig ⟨.bound, some ⟨5⟩, sampleThread⟩
        [envReceive .recvError, envReceive .selectError] =
      some (⟨.bound, some ⟨5⟩, sampleThread⟩,
        [.Receive 0 20480, .Receive 0 20480], []) := by
  decide

theorem threadStep_bound_cases (cfg : Construction) (t t' : Thread) (e : StepEnv)
    (ops : List SocketOp) (evs : List Callback) (hb : t.phase = .bound)
    (h : threadStep cfg t e = some (t', ops, evs)) :
    (e.threadExit = true ∧ t'.phase = .ended ∧ ops = finishOps t.udpman) ∨
    (e.threadExit = false ∧ t'.phase = .bound ∧ t'.udpman = t.udpman ∧
      ∃ off n, ops = [.Receive off n]) := by
  unfold threadStep at h
  rw [hb] at h
  simp only at h
  split at h
  · split at h
    · rename_i hexit
      simp only [Option.some.injEq, Prod.mk.injEq] at h
      obtain ⟨h1, h2, _⟩ := h
      subst h1 h2
      exact Or.inl ⟨hexit, rfl, rfl⟩
    · rename_i hexit
      split at h
      · simp at h
      · simp only [Option.some.injEq, Prod.mk.injEq] at h
        obtain ⟨h1, h2, _⟩ := h
        subst h1 h2
        exact Or.inr ⟨by simpa using hexit, rfl, rfl, _, _, rfl⟩
  · split at h
    · rename_i hexit
      split at h
      · simp at h
      · simp only [Option.some.injEq, Prod.mk.injEq] at h
        obtain ⟨h1, h2, _⟩ := h
        subst h1 h2
        exact Or.inl ⟨hexit, rfl, rfl⟩
    · rename_i hexit
      split at h
      · simp at h
      · simp only [Option.some.injEq, Prod.mk.injEq] at h
        obtain ⟨h1, h2, _⟩ := h
        subst h1 h2
        exact Or.inr ⟨by simpa using hexit, rfl, rfl, _, _, rfl⟩

theorem threadRun_bound_close (cfg : Construction) (es : List StepEnv) :
    ∀ (t t' : Thread) (ops : List SocketOp) (evs : List Callback),
      t.phase = .bound → threadRun cfg t es = some (t', ops, evs) →
      ((∀ e ∈ es, e.threadExit = false) →
        t'.phase = .bound ∧ ∀ op ∈ ops, op.isReceive = true) ∧
      (SocketOp.Close ∈ ops → t'.phase = .ended ∧ ∃ e ∈ es, e.threadExit = true) := by
  induction es with
  | nil =>
    intro t t' ops evs hb h
    simp only [threadRun, Option.some.injEq, Prod.mk.injEq] at h
    obtain ⟨h1, h2, _⟩ := h
    subst h1 h2
    exact ⟨fun _ => ⟨hb, by simp⟩, fun hc => by simp at hc⟩
  | cons e es ih =>
    intro t t' ops evs hb h
    rw [threadRun] at h
    split at h
    · simp at h
    · rename_i t1 ops1 evs1 hstep
      split at h
      · simp at h
      · rename_i t2 ops2 evs2 hrun
        simp only [Option.some.injEq, Prod.mk.injEq] at h
        obtain ⟨h1, h2, _⟩ := h
        subst h1 h2
        rcases threadStep_bound_cases cfg t t1 e ops1 evs1 hb hstep with
          ⟨hexit, hp1, _⟩ | ⟨hexit, hp1, _, off, n, hops⟩
        · obtain ⟨p1, u1, r1⟩ := t1
          simp only at hp1
          subst hp1
          rw [threadRun_ended cfg es] at hrun
          simp only [Option.some.injEq, Prod.mk.injEq] at hrun
          obtain ⟨h1, h2, _⟩ := hrun
          subst h1 h2
          refine ⟨fun hall => ?_, fun _ => ⟨rfl, e, List.mem_cons_self _ _, hexit⟩⟩
          rw [hall e (List.mem_cons_self _ _)] at hexit
          simp at hexit
        · obtain ⟨hr1, hr2⟩ := ih t1 t2 ops2 evs2 hp1 hrun
          subst hops
          refine ⟨fun hall => ?_, fun hc => ?_⟩
          · obtain ⟨hq1, hq2⟩ := hr1 (fun e' he' => hall e' (List.mem_cons_of_mem _ he'))
            refine ⟨hq1, ?_⟩
            intro op hop
            rcases List.mem_append.mp hop with hop | hop
            · simp only [List.mem_singleton] at hop
              rw [hop]; rfl
            · exact hq2 op hop
          · have hc2 : SocketOp.Close ∈ ops2 := by
              rcases List.mem_append.mp hc with hc | hc
              · simp at hc
              · exact hc
            obtain ⟨hq1, e', he', hx⟩ := hr2 hc2
            exact ⟨hq1, e', List.mem_cons_of_mem _ he', hx⟩

/-- C16, as amended.  Bound, at the top-level receive, `threadExit` unset: when
`Receive` returns zero or less (`SOCKET_ERROR` included) the thread keeps `udpman` and
the client as they are, makes no callback, and the next call is again the top-level
`Receive` on the same socket.  From the bound state on, whatever happens, the thread
makes no `Create`, `Bind` or `BindMcast`, never stands at the connection loop again,
and as long as it is bound `udpman` is the socket it was bound on.  The socket is
closed only when shutdown is requested: as long as `threadExit` is read as unset the
thread stays bound and every call it makes is a `Receive`, and a `Close` among its
calls means that a step read `threadExit` as set and the thread has ended. -/
theorem bound_keeps_socket (cfg : Construction) (t : Thread) (e : StepEnv)
    (hb : t.phase = .bound) (hidle : t.recv.recvSize = 0) (hexit : e.threadExit = false)
    (herr : (Receive t.recv.recvBuf 0 BUFSIZE e.outcome).2 ≤ 0) :
    threadStep cfg t e =
      some (⟨.bound, t.udpman, ⟨t.recv.client, (Receive t.recv.recvBuf 0 BUFSIZE e.outcome).1, 0⟩⟩,
        [.Receive 0 BUFSIZE], []) ∧
    (∀ (es : List StepEnv) (t' : Thread) (ops : List SocketOp) (evs : List Callback),
      threadRun cfg t es = some (t', ops, evs) →
      (t'.phase = .bound → t'.udpman = t.udpman) ∧ t'.phase ≠ .connecting ∧
      ∀ op ∈ ops, op.isConnect = false) ∧
    ∀ (es : List StepEnv) (t' : Thread) (ops : List SocketOp) (evs : List Callback),
      threadRun cfg t es = some (t', ops, evs) →
      ((∀ e' ∈ es, e'.threadExit = false) →
        t'.phase = .bound ∧ ∀ op ∈ ops, op.isReceive = true) ∧
      (SocketOp.Close ∈ ops → t'.phase = .ended ∧ ∃ e' ∈ es, e'.threadExit = true) := by
  refine ⟨?_, fun es t' ops evs h => threadRun_bound cfg es t t' ops evs (Or.inl hb) h,
    fun es t' ops evs h => threadRun_bound_close cfg es t t' ops evs hb h⟩
  unfold threadStep
  rw [hb]
  simp only [hidle, if_true, hexit, Bool.false_eq_true, if_false,
    recvStep_failed_top t.recv e.outcome hidle herr]

/-- C16, witness: bound on socket 5, `recvfrom` fails; then `select` fails, and at the
third step `threadExit` is read as set: two calls of `Receive`, then the `Close`. -/
theorem bound_keeps_socket_witness :
    threadStep sampleConfig ⟨.bound, some ⟨5⟩, sampleThread⟩ (envReceive .recvError) =
      some (⟨.bound, some ⟨5⟩, ⟨⟨[1], []⟩, [], 0⟩⟩, [.Receive 0 BUFSIZE], []) ∧
    threadRun sampleConfig ⟨.bound, some ⟨5⟩, sampleThread⟩
        [envReceive .recvError, envReceive .selectError, envShutdown] =
      some (⟨.ended, none, sampleThread⟩, [.Receive 0 20480, .Receive 0 20480, .Close], []) ∧
    ∃ e' ∈ [envReceive .recvError, envReceive .selectError, envShutdown],
      e'.threadExit = true :=
  ⟨(bound_keeps_socket sampleConfig ⟨.bound, some ⟨5⟩, sampleThread⟩ (envReceive .recvError)
      (by decide) (by decide) (by decide) (by decide)).1,
    by decide,
    (((bound_keeps_socket sampleConfig ⟨.bound, some ⟨5⟩, sampleThread⟩ (envReceive .recvError)
      (by decide) (by decide) (by decide) (by decide)).2.2
      [envReceive .recvError, envReceive .selectError, envShutdown]
      ⟨.ended, none, sampleThread⟩ [.Receive 0 20480, .Receive 0 20480, .Close] []
      (by decide)).2 (by decide)).2⟩

/-! ## Claims about the mutex -/

theorem register_kind (c : TrackLinkClient) (r : Nat) :
    ∀ cb ∈ (registerTrackReceiver c r).2, cb.kind = .onTrackNew ∧ cb.receiver = r := by
  intro cb hcb
  unfold registerTrackReceiver at hcb
  split at hcb
  · simp at hcb
  · split at hcb
    · simp at hcb
    · simp only [List.mem_filterMap] at hcb
      obtain ⟨iter, _, hit⟩ := hcb
      split at hit
      · simp only [Option.some.injEq] at hit
        rw [← hit]
        exact ⟨rfl, rfl⟩
      · simp at hit

theorem guardedRegister_some (body : Invocation → List Reentry) (g g' : Guarded) (r : Nat)
    (invs : List Invocation) (hg : g.held = false)
    (h : guardedRegister body g r = some (g', invs)) :
    g'.held = false ∧ g'.client.trackMap = g.client.trackMap ∧
    ∀ i ∈ invs, i.byDispatch = false ∧ i.mutexHeld = true ∧ i.callback.kind = .onTrackNew := by
  unfold guardedRegister at h
  split at h
  · simp only [Option.some.injEq, Prod.mk.injEq] at h
    obtain ⟨h1, h2⟩ := h
    subst h1 h2
    exact ⟨hg, rfl, by simp⟩
  · split at h
    · simp only [Option.some.injEq, Prod.mk.injEq] at h
      obtain ⟨h1, h2⟩ := h
      subst h1 h2
      exact ⟨hg, rfl, by simp⟩
    · split at h
      · simp at h
      · split at h
        · simp only [Option.some.injEq, Prod.mk.injEq] at h
          obtain ⟨h1, h2⟩ := h
          subst h1 h2
          refine ⟨rfl, register_trackMap _ _, ?_⟩
          intro i hi
          simp only [List.mem_map] at hi
          obtain ⟨cb, hcb, hi⟩ := hi
          rw [← hi]
          exact ⟨rfl, rfl, (register_kind g.client r cb hcb).1⟩
        · simp at h

theorem guardedRegister_quiet (body : Invocation → List Reentry) (g : Guarded) (r : Nat)
    (hq : ∀ cb, body ⟨cb, true, false⟩ = []) (hg : g.held = false) :
    ∃ g' invs, guardedRegister body g r = some (g', invs) := by
  unfold guardedRegister
  split
  · exact ⟨_, _, rfl⟩
  · split
    · exact ⟨_, _, rfl⟩
    · rw [if_neg (by simp [hg])]
      simp [hq]

theorem guardedRegister_none (body : Invocation → List Reentry) (g : Guarded) (r : Nat) :
    guardedRegister body g r = none ↔
      r ≠ 0 ∧ r ∉ g.client.trackReceivers ∧
        (g.held = true ∨ ∃ cb ∈ (registerTrackReceiver g.client r).2,
          ∃ re ∈ body ⟨cb, true, false⟩, re.returnsUnderLock g.client = false) := by
  unfold guardedRegister
  by_cases h0 : r = 0
  · simp [h0]
  · by_cases hm : r ∈ g.client.trackReceivers
    · simp [h0, hm]
    · by_cases hh : g.held = true
      · simp [h0, hm, hh]
      · simp only [h0, hm, hh, if_false, ne_eq, not_false_eq_true, true_and, false_or]
        by_cases hall : ((registerTrackReceiver g.client r).2.all fun cb =>
            (body ⟨cb, true, false⟩).all (Reentry.returnsUnderLock g.client)) = true
        · rw [if_pos hall]
          constructor
          · intro h
            simp at h
          · rintro (hx | ⟨cb, hcb, re, hre, hf⟩)
            · simp at hx
            rw [List.all_eq_true] at hall
            have hcbs := hall cb hcb
            rw [List.all_eq_true] at hcbs
            rw [hcbs re hre] at hf
            simp at hf
        · rw [if_neg hall]
          constructor
          · intro _
            by_contra hcon
            apply hall
            rw [List.all_eq_true]
            intro cb hcb
            rw [List.all_eq_true]
            intro re hre
            by_contra hne
            exact hcon (Or.inr ⟨cb, hcb, re, hre, by simpa using hne⟩)
          · intro _
            rfl

theorem guardedUnregister_some (g g' : Guarded) (r : Nat) (invs : List Invocation)
    (hg : g.held = false) (h : guardedUnregister g r = some (g', invs)) :
    g'.held = false ∧ g'.client.trackMap = g.client.trackMap ∧ invs = [] := by
  unfold guardedUnregister at h
  split at h
  · split at h
    · simp at h
    · simp only [Option.some.injEq, Prod.mk.injEq] at h
      obtain ⟨h1, h2⟩ := h
      subst h1 h2
      exact ⟨rfl, rfl, rfl⟩
  · simp only [Option.some.injEq, Prod.mk.injEq] at h
    obtain ⟨h1, h2⟩ := h
    subst h1 h2
    exact ⟨hg, rfl, rfl⟩

theorem guardedUnregister_free (g : Guarded) (r : Nat) (hg : g.held = false) :
    ∃ g' invs, guardedUnregister g r = some (g', invs) := by
  unfold guardedUnregister
  split
  · rw [if_neg (by simp [hg])]
    exact ⟨_, _, rfl⟩
  · exact ⟨_, _, rfl⟩

theorem runReentries_some (body : Invocation → List Reentry) (rs : List Reentry) :
    ∀ (g g' : Guarded) (invs : List Invocation), g.held = false →
      runReentries body rs g = some (g', invs) →
      g'.held = false ∧ g'.client.trackMap = g.client.trackMap ∧
      ∀ i ∈ invs, i.byDispatch = false ∧ i.mutexHeld = true ∧ i.callback.kind = .onTrackNew := by
  induction rs with
  | nil =>
    intro g g' invs hg h
    simp only [runReentries, Option.some.injEq, Prod.mk.injEq] at h
    obtain ⟨h1, h2⟩ := h
    subst h1 h2
    exact ⟨hg, rfl, by simp⟩
  | cons x rest ih =>
    intro g g' invs hg h
    cases x with
    | register r =>
      simp only [runReentries] at h
      split at h
      · simp at h
      · rename_i g1 invs1 h1
        split at h
        · simp at h
        · rename_i g2 invs2 h2
          simp only [Option.some.injEq, Prod.mk.injEq] at h
          obtain ⟨e1, e2⟩ := h
          subst e1 e2
          obtain ⟨hh1, hm1, hi1⟩ := guardedRegister_some body g g1 r invs1 hg h1
          obtain ⟨hh2, hm2, hi2⟩ := ih g1 g2 invs2 hh1 h2
          refine ⟨hh2, by rw [hm2, hm1], ?_⟩
          intro i hi
          rcases List.mem_append.mp hi with hi | hi
          · exact hi1 i hi
          · exact hi2 i hi
    | unregister r =>
      simp only [runReentries] at h
      split at h
      · simp at h
      · rename_i g1 invs1 h1
        split at h
        · simp at h
        · rename_i g2 invs2 h2
          simp only [Option.some.injEq, Prod.mk.injEq] at h
          obtain ⟨e1, e2⟩ := h
          subst e1 e2
          obtain ⟨hh1, hm1, hi1⟩ := guardedUnregister_some g g1 r invs1 hg h1
          obtain ⟨hh2, hm2, hi2⟩ := ih g1 g2 invs2 hh1 h2
          subst hi1
          exact ⟨hh2, by rw [hm2, hm1], by simpa using hi2⟩

theorem runReentries_quiet (body : Invocation → List Reentry) (rs : List Reentry)
    (hq : ∀ cb, body ⟨cb, true, false⟩ = []) :
    ∀ (g : Guarded), g.held = false → ∃ g' invs, runReentries body rs g = some (g', invs) := by
  induction rs with
  | nil => intro g _; exact ⟨g, [], rfl⟩
  | cons x rest ih =>
    intro g hg
    cases x with
    | register r =>
      obtain ⟨g1, invs1, h1⟩ := guardedRegister_quiet body g r hq hg
      obtain ⟨g2, invs2, h2⟩ := ih g1 (guardedRegister_some body g g1 r invs1 hg h1).1
      exact ⟨g2, invs1 ++ invs2, by simp [runReentries, h1, h2]⟩
    | unregister r =>
      obtain ⟨g1, invs1, h1⟩ := guardedUnregister_free g r hg
      obtain ⟨g2, invs2, h2⟩ := ih g1 (guardedUnregister_some g g1 r invs1 hg h1).1
      exact ⟨g2, invs1 ++ invs2, by simp [runReentries, h1, h2]⟩

theorem filter_byDispatch_nil (invs : List Invocation) (h : ∀ i ∈ invs, i.byDispatch = false) :
    invs.filter (fun i => i.byDispatch) = [] := by
  rw [List.filter_eq_nil_iff]
  intro i hi
  simp [h i hi]

theorem guardedDispatch_some (body : Invocation → List Reentry) (L : List Nat) :
    ∀ (u : Bool) (t : TrackRecord) (g g' : Guarded) (invs : List Invocation),
      g.held = false → guardedDispatch body L u t g = some (g', invs) →
      g'.held = false ∧ g'.client.trackMap = g.client.trackMap ∧
      (invs.filter fun i => i.byDispatch).map (fun i => i.callback) = dispatch L u t ∧
      (∀ i ∈ invs, i.byDispatch = true → i.mutexHeld = false) ∧
      (∀ i ∈ invs, i.mutexHeld = true →
        i.byDispatch = false ∧ i.callback.kind = .onTrackNew) := by
  induction L with
  | nil =>
    intro u t g g' invs hg h
    simp only [guardedDispatch, Option.some.injEq, Prod.mk.injEq] at h
    obtain ⟨h1, h2⟩ := h
    subst h1 h2
    exact ⟨hg, rfl, by simp [dispatch], by simp, by simp⟩
  | cons rc rest ih =>
    intro u t g g' invs hg h
    rw [guardedDispatch] at h
    cases hn : notifyOne u t rc with
    | none =>
      rw [hn] at h
      simp only at h
      obtain ⟨hh2, hm2, hf2, hi2, hj2⟩ := ih u t g g' invs hg h
      refine ⟨hh2, hm2, ?_, hi2, hj2⟩
      simp [dispatch, List.filterMap_cons, hn] at hf2 ⊢
      exact hf2
    | some cb =>
      rw [hn] at h
      simp only at h
      split at h
      · simp at h
      · rename_i g1 invs1 h1
        split at h
        · simp at h
        · rename_i g2 invs2 h2
          simp only [Option.some.injEq, Prod.mk.injEq] at h
          obtain ⟨e1, e2⟩ := h
          subst e1 e2
          obtain ⟨hh1, hm1, hi1⟩ := runReentries_some body _ g g1 invs1 hg h1
          obtain ⟨hh2, hm2, hf2, hi2, hj2⟩ := ih u t g1 g2 invs2 hh1 h2
          refine ⟨hh2, by rw [hm2, hm1], ?_, ?_, ?_⟩
          · simp only [List.filter_cons, if_true, List.filter_append,
              filter_byDispatch_nil invs1 (fun i hi => (hi1 i hi).1), List.nil_append,
              List.map_cons, hf2]
            simp [dispatch, List.filterMap_cons, hn]
          · intro i hi hd
            simp only [List.mem_cons, List.mem_append] at hi
            rcases hi with hi | hi | hi
            · rw [hi]; exact hg
            · rw [(hi1 i hi).1] at hd; simp at hd
            · exact hi2 i hi hd
          · intro i hi hheld
            simp only [List.mem_cons, List.mem_append] at hi
            rcases hi with hi | hi | hi
            · rw [hi] at hheld
              simp only at hheld
              rw [hg] at hheld
              simp at hheld
            · exact ⟨(hi1 i hi).1, (hi1 i hi).2.2⟩
            · exact hj2 i hi hheld

theorem guardedDispatch_quiet (body : Invocation → List Reentry) (L : List Nat)
    (hq : ∀ cb, body ⟨cb, true, false⟩ = []) :
    ∀ (u : Bool) (t : TrackRecord) (g : Guarded), g.held = false →
      ∃ g' invs, guardedDispatch body L u t g = some (g', invs) := by
  induction L with
  | nil => intro u t g _; exact ⟨g, [], rfl⟩
  | cons rc rest ih =>
    intro u t g hg
    cases hn : notifyOne u t rc with
    | none =>
      obtain ⟨g2, invs2, h2⟩ := ih u t g hg
      exact ⟨g2, invs2, by simp [guardedDispatch, hn, h2]⟩
    | some cb =>
      obtain ⟨g1, invs1, h1⟩ := runReentries_quiet body (body ⟨cb, g.held, true⟩) hq g hg
      obtain ⟨g2, invs2, h2⟩ := ih u t g1 (runReentries_some body _ g g1 invs1 hg h1).1
      exact ⟨g2, ⟨cb, g.held, true⟩ :: (invs1 ++ invs2),
        by simp [guardedDispatch, hn, h1, h2]⟩

/-- C18, counterexample.  `getTrackMap` hands the map out without taking the mutex:
the read of the map in its trace happens with the mutex free. -/
theorem getTrackMap_unguarded :
    annotate false getTrackMapTrace = [(.read .trackMap, false)] := by
  decide

theorem annotate_held_last (evs : List Event) (h : ∀ e ∈ evs, e ≠ .unlock) :
    ∀ x ∈ annotate true (evs ++ [.unlock]), x.2 = true := by
  induction evs with
  | nil => intro x hx; simp [annotate] at hx; rw [hx]
  | cons e rest ih =>
    intro x hx
    have hrest := ih (fun e' h' => h e' (List.mem_cons_of_mem _ h'))
    cases e with
    | unlock => exact absurd rfl (h .unlock (List.mem_cons_self _ _))
    | lock =>
      simp only [List.cons_append, annotate, List.mem_cons] at hx
      rcases hx with hx | hx
      · rw [hx]
      · exact hrest x hx
    | read v =>
      simp only [List.cons_append, annotate, List.mem_cons] at hx
      rcases hx with hx | hx
      · rw [hx]
      · exact hrest x hx
    | write v =>
      simp only [List.cons_append, annotate, List.mem_cons] at hx
      rcases hx with hx | hx
      · rw [hx]
      · exact hrest x hx
    | call cb =>
      simp only [List.cons_append, annotate, List.mem_cons] at hx
      rcases hx with hx | hx
      · rw [hx]
      · exact hrest x hx

theorem annotate_critical (body : List Event) (h : ∀ e ∈ body, e.isAccess = true)
    (tail : List Event) :
    ∀ x ∈ annotate true (body ++ .unlock :: tail),
      (x.1.isAccess = true ∧ x.2 = true) ∨ x = (.unlock, true) ∨ x ∈ annotate false tail := by
  induction body with
  | nil =>
    intro x hx
    simp only [List.nil_append, annotate, List.mem_cons] at hx
    rcases hx with hx | hx
    · right; left; exact hx
    · right; right; exact hx
  | cons e rest ih =>
    intro x hx
    have hrest := ih (fun e' h' => h e' (List.mem_cons_of_mem _ h'))
    have he := h e (List.mem_cons_self _ _)
    cases e with
    | unlock => simp [Event.isAccess] at he
    | lock => simp [Event.isAccess] at he
    | call cb => simp [Event.isAccess] at he
    | read v =>
      simp only [List.cons_append, annotate, List.mem_cons] at hx
      rcases hx with hx | hx
      · left; rw [hx]; exact ⟨rfl, rfl⟩
      · exact hrest x hx
    | write v =>
      simp only [List.cons_append, annotate, List.mem_cons] at hx
      rcases hx with hx | hx
      · left; rw [hx]; exact ⟨rfl, rfl⟩
      · exact hrest x hx

theorem annotate_calls (cbs : List Callback) :
    ∀ x ∈ annotate false (cbs.map Event.call), x.2 = false ∧ x.1.isAccess = false := by
  induction cbs with
  | nil => intro x hx; simp [annotate] at hx
  | cons cb rest ih =>
    intro x hx
    simp only [List.map_cons, annotate, List.mem_cons] at hx
    rcases hx with hx | hx
    · rw [hx]; exact ⟨rfl, rfl⟩
    · exact ih x hx

theorem blockTrace_shape (c : TrackLinkClient) (track : TrackRecord) (tailFound : Bool) :
    ∃ body, blockTrace c track tailFound =
        .lock :: (body ++ .unlock ::
          (if tailFound then (applyTrack c track).2.map Event.call else [])) ∧
      ∀ e ∈ body, e.isAccess = true := by
  cases tailFound with
  | false =>
    refine ⟨[.read .trackMap] ++
      (if (TrackMap.find c.trackMap track.trackID).isNone then [.write .trackMap] else []) ++
      [.read .trackMap, .write .trackMap], ?_, ?_⟩
    · simp [blockTrace]
    · intro e he
      simp only [List.mem_append, List.mem_cons, List.mem_singleton, List.not_mem_nil,
        or_false] at he
      rcases he with (he | he) | he | he
      · rw [he]; rfl
      · split at he
        · simp only [List.mem_singleton] at he; rw [he]; rfl
        · simp at he
      · rw [he]; rfl
      · rw [he]; rfl
  | true =>
    refine ⟨[.read .trackMap] ++
      (if (TrackMap.find c.trackMap track.trackID).isNone then [.write .trackMap] else []) ++
      [.read .trackMap, .write .trackMap] ++ [.read .trackMap, .read .trackReceivers] ++
      (if ¬ (TrackMap.find c.trackMap track.trackID).isNone ∧ track.state = TS_OFF then
          [.write .trackMap] else []), ?_, ?_⟩
    · simp [blockTrace]
    · intro e he
      simp only [List.mem_append, List.mem_cons, List.mem_singleton, List.not_mem_nil,
        or_false] at he
      rcases he with (((he | he) | he | he) | he | he) | he
      · rw [he]; rfl
      · split at he
        · simp only [List.mem_singleton] at he; rw [he]; rfl
        · simp at he
      · rw [he]; rfl
      · rw [he]; rfl
      · rw [he]; rfl
      · rw [he]; rfl
      · split at he
        · simp only [List.mem_singleton] at he; rw [he]; rfl
        · simp at he

theorem blockTrace_annotated (c : TrackLinkClient) (track : TrackRecord) (tailFound : Bool) :
    ∀ x ∈ annotate false (blockTrace c track tailFound),
      (x.1.isAccess = true → x.2 = true) ∧ ∀ cb, x.1 = .call cb → x.2 = false := by
  obtain ⟨body, hshape, hbody⟩ := blockTrace_shape c track tailFound
  intro x hx
  rw [hshape] at hx
  simp only [annotate, List.mem_cons] at hx
  rcases hx with hx | hx
  · rw [hx]; exact ⟨fun _ => rfl, fun cb h => by simp at h⟩
  · rcases annotate_critical body hbody _ x hx with h | h | h
    · refine ⟨fun _ => h.2, fun cb hcb => ?_⟩
      rw [hcb] at h
      simp [Event.isAccess] at h
    · rw [h]; exact ⟨fun _ => rfl, fun cb hcb => by simp at hcb⟩
    · cases tailFound with
      | false => simp [annotate] at h
      | true =>
        simp only [if_true] at h
        obtain ⟨h1, h2⟩ := annotate_calls _ x h
        refine ⟨fun hacc => ?_, fun _ _ => h1⟩
        rw [h2] at hacc
        simp at hacc

/-- C17, counterexample.  Receiver 1 is registered, the map is empty and a New record
for id 7 is accepted.  When the method that the dispatch loop invokes on receiver 1
registers receiver 2, `registerTrackReceiver` invokes `onTrackNew` on receiver 2 for
the entry of id 7 while the mutex is held.  When that method of receiver 2 registers
receiver 2 in turn, the call waits for the mutex its own thread holds: the processing
of the record never returns. -/
theorem callback_under_lock :
    guardedApplyTrack bodyRegisters ⟨⟨[1], []⟩, false⟩ (sampleTrack 7 TS_NEW) =
      some (⟨⟨[1, 2], [(7, sampleTrack 7 TS_NEW)]⟩, false⟩,
        [⟨⟨1, .onTrackNew, sampleTrack 7 TS_NEW⟩, false, true⟩,
          ⟨⟨2, .onTrackNew, sampleTrack 7 TS_NEW⟩, true, false⟩]) ∧
    guardedApplyTrack bodyReenters ⟨⟨[1], []⟩, false⟩ (sampleTrack 7 TS_NEW) = none := by
  decide

/-- C17, as amended.  On the receive path, with `recvMutex` as a flag and whatever
calls of `registerTrackReceiver` and `unregisterTrackReceiver` the bodies of the
receiver methods make.  Whenever the processing of an accepted block returns: the
mutex is free, the track map is the one the critical section left, the callbacks of
the dispatch loop are those for the receiver list as it was when the record was
applied, in that order, each carrying the copy of the record taken in the critical
section, every one of them is invoked with the mutex free, and a callback invoked
with the mutex held is an `onTrackNew` that `registerTrackReceiver` made.  The
processing returns whenever the methods that `registerTrackReceiver` invokes make no
call back into the client; a `registerTrackReceiver` does not return exactly when the
receiver is new and the mutex is held or one of those methods calls for the mutex.
In the sequence of lock, accesses, unlock and calls of lines 182-259 every call
comes with the mutex free. -/
theorem dispatch_outside_lock (body : Invocation → List Reentry) (c : TrackLinkClient)
    (track : TrackRecord) :
    (∀ g' invs, guardedApplyTrack body ⟨c, false⟩ track = some (g', invs) →
      g'.held = false ∧
      g'.client.trackMap = (applyTrack c track).1.trackMap ∧
      (invs.filter fun i => i.byDispatch).map (fun i => i.callback) = (applyTrack c track).2 ∧
      (∀ i ∈ invs, i.byDispatch = true → i.mutexHeld = false) ∧
      (∀ i ∈ invs, i.mutexHeld = true →
        i.byDispatch = false ∧ i.callback.kind = .onTrackNew)) ∧
    ((∀ cb, body ⟨cb, true, false⟩ = []) →
      ∃ g' invs, guardedApplyTrack body ⟨c, false⟩ track = some (g', invs)) ∧
    (∀ (g : Guarded) (r : Nat), guardedRegister body g r = none ↔
      r ≠ 0 ∧ r ∉ g.client.trackReceivers ∧
        (g.held = true ∨ ∃ cb ∈ (registerTrackReceiver g.client r).2,
          ∃ re ∈ body ⟨cb, true, false⟩, re.returnsUnderLock g.client = false)) ∧
    (∀ cb ∈ (applyTrack c track).2, cb.record = track ∧ cb.receiver ∈ c.trackReceivers) ∧
    ∀ x ∈ annotate false (blockTrace c track true), ∀ cb, x.1 = .call cb → x.2 = false := by
  refine ⟨?_, ?_, guardedRegister_none body, ?_,
    fun x hx => (blockTrace_annotated c track true x hx).2⟩
  · intro g' invs h
    have h' : guardedDispatch body c.trackReceivers
        (TrackMap.find c.trackMap track.trackID).isNone track
        ⟨⟨c.trackReceivers, (applyTrack c track).1.trackMap⟩, false⟩ = some (g', invs) := by
      simpa [guardedApplyTrack] using h
    exact guardedDispatch_some body c.trackReceivers _ track _ g' invs rfl h'
  · intro hq
    obtain ⟨g', invs, h⟩ := guardedDispatch_quiet body c.trackReceivers hq
      (TrackMap.find c.trackMap track.trackID).isNone track
      ⟨⟨c.trackReceivers, (applyTrack c track).1.trackMap⟩, false⟩ rfl
    exact ⟨g', invs, by simp [guardedApplyTrack, h]⟩
  · intro cb hcb
    refine ⟨?_, (applyTrack_receivers c track).2 cb hcb⟩
    simp only [applyTrack, dispatch, List.mem_filterMap] at hcb
    obtain ⟨rc, _, hn⟩ := hcb
    unfold notifyOne at hn
    split at hn
    · simp only [Option.some.injEq] at hn; rw [← hn]
    · split at hn
      · simp only [Option.some.injEq] at hn; rw [← hn]
      · split at hn
        · simp only [Option.some.injEq] at hn; rw [← hn]
        · simp at hn

/-- C17, witness: receivers 1 and 3, a New record for id 7; the method that the
dispatch loop invokes registers receiver 2.  Receivers 1 and 3 get the callbacks of
the dispatch loop with the mutex free, and the processing returns. -/
theorem dispatch_outside_lock_witness :
    (∃ g' invs, guardedApplyTrack bodyRegisters ⟨⟨[1, 3], []⟩, false⟩ (sampleTrack 7 TS_NEW) =
      some (g', invs)) ∧
    ∀ i ∈ [(⟨⟨1, .onTrackNew, sampleTrack 7 TS_NEW⟩, false, true⟩ : Invocation),
        ⟨⟨2, .onTrackNew, sampleTrack 7 TS_NEW⟩, true, false⟩,
        ⟨⟨3, .onTrackNew, sampleTrack 7 TS_NEW⟩, false, true⟩],
      i.byDispatch = true → i.mutexHeld = false :=
  ⟨(dispatch_outside_lock bodyRegisters ⟨[1, 3], []⟩ (sampleTrack 7 TS_NEW)).2.1 (fun _ => rfl),
    ((dispatch_outside_lock bodyRegisters ⟨[1, 3], []⟩ (sampleTrack 7 TS_NEW)).1
      ⟨⟨[1, 3, 2], [(7, sampleTrack 7 TS_NEW)]⟩, false⟩ _ (by decide)).2.2.2.1⟩

/-- C18, as amended.  With the state of the mutex computed along the trace of each
operation: every read and every write of the track map and of the receiver list
that the receive thread makes for a block happens with `recvMutex` held; in
`registerTrackReceiver` the read of the track map and the write of the receiver list
happen with it held; in `unregisterTrackReceiver` the write of the receiver list
happens with it held. -/
theorem lock_discipline (c : TrackLinkClient) (r : Nat) (track : TrackRecord)
    (tailFound : Bool) :
    (∀ x ∈ annotate false (blockTrace c track tailFound), x.1.isAccess = true → x.2 = true) ∧
    (∀ x ∈ annotate false (registerTrace c r),
      (x.1.isWrite = true ∨ x.1 = .read .trackMap) → x.2 = true) ∧
    (∀ x ∈ annotate false (unregisterTrace c r), x.1.isWrite = true → x.2 = true) := by
  refine ⟨?_, ?_, ?_⟩
  · intro x hx hacc
    exact (blockTrace_annotated c track tailFound x hx).1 hacc
  · intro x hx hw
    unfold registerTrace at hx
    by_cases h0 : r = 0
    · simp [h0, annotate] at hx
    · by_cases hm : r ∈ c.trackReceivers
      · simp only [h0, hm, if_false, if_true, annotate, List.mem_singleton] at hx
        rw [hx] at hw
        simp [Event.isWrite] at hw
      · simp only [h0, hm, if_false, annotate, List.mem_cons, List.cons_append,
          List.nil_append] at hx
        rcases hx with hx | hx | hx | hx
        · rw [hx] at hw
          simp [Event.isWrite] at hw
        · rw [hx]
        · rw [hx]
        · have hno : ∀ e ∈ (registerTrackReceiver c r).2.map Event.call ++
              [.write .trackReceivers], e ≠ Event.unlock := by
            intro e he
            simp only [List.mem_append, List.mem_map, List.mem_singleton] at he
            rcases he with ⟨cb, _, hcb⟩ | he
            · rw [← hcb]; simp
            · rw [he]; simp
          have hx' : x ∈ annotate true
              (((registerTrackReceiver c r).2.map Event.call ++ [.write .trackReceivers])
                ++ [Event.unlock]) := by
            simpa [List.append_assoc] using hx
          exact annotate_held_last _ hno x hx'
  · intro x hx hw
    unfold unregisterTrace at hx
    by_cases hm : r ∈ c.trackReceivers
    · simp only [hm, if_true, annotate, List.mem_cons, List.mem_singleton, List.not_mem_nil,
        or_false] at hx
      rcases hx with hx | hx | hx | hx
      · rw [hx] at hw; simp [Event.isWrite] at hw
      · rw [hx]
      · rw [hx]
      · rw [hx]
    · simp only [hm, if_false, annotate, List.mem_singleton] at hx
      rw [hx] at hw; simp [Event.isWrite] at hw

/-! ## Claims about the frame of one record -/

theorem TrackMap.filter_insert (m : TrackMap) (k : Nat) (v : TrackRecord) :
    (TrackMap.insert m k v).filter (fun e => decide (e.1 ≠ k)) =
      m.filter (fun e => decide (e.1 ≠ k)) := by
  induction m with
  | nil => simp [TrackMap.insert]
  | cons a t ih =>
    obtain ⟨k', w⟩ := a
    simp only [TrackMap.insert]
    split
    · simp
    · split
      · rfl
      · simp only [List.filter_cons, ih]

theorem TrackMap.filter_assign (m : TrackMap) (k : Nat) (v : TrackRecord) :
    (TrackMap.assign m k v).filter (fun e => decide (e.1 ≠ k)) =
      m.filter (fun e => decide (e.1 ≠ k)) := by
  induction m with
  | nil => rfl
  | cons a t ih =>
    obtain ⟨k', w⟩ := a
    simp only [TrackMap.assign]
    split
    · rename_i heq
      simp [heq]
    · simp only [List.filter_cons, ih]

theorem TrackMap.filter_erase (m : TrackMap) (k : Nat) :
    (TrackMap.erase m k).filter (fun e => decide (e.1 ≠ k)) =
      m.filter (fun e => decide (e.1 ≠ k)) := by
  induction m with
  | nil => rfl
  | cons a t ih =>
    obtain ⟨k', w⟩ := a
    simp only [TrackMap.erase]
    split
    · rename_i heq
      simp [heq]
    · simp only [List.filter_cons, ih]

theorem TrackMap.find_filter_ne (m : TrackMap) (k j : Nat) (hj : j ≠ k) :
    TrackMap.find (m.filter (fun e => decide (e.1 ≠ k))) j = TrackMap.find m j := by
  induction m with
  | nil => rfl
  | cons a t ih =>
    obtain ⟨k', w⟩ := a
    by_cases hk : k' = k
    · subst hk
      have hkj : ¬ k' = j := fun h => hj h.symm
      rw [List.filter_cons_of_neg (by simp), TrackMap.find, if_neg hkj, ih]
    · rw [List.filter_cons_of_pos (by simpa using hk), TrackMap.find, TrackMap.find, ih]

theorem storeTrack_frame (m : TrackMap) (k : Nat) (v : TrackRecord) :
    (storeTrack m k v).filter (fun e => decide (e.1 ≠ k)) =
      m.filter (fun e => decide (e.1 ≠ k)) := by
  unfold storeTrack
  rw [TrackMap.filter_assign]
  split
  · exact TrackMap.filter_insert m k _
  · rfl

theorem applyTrack_frame (c : TrackLinkClient) (r : TrackRecord) :
    (applyTrack c r).1.trackMap.filter (fun e => decide (e.1 ≠ r.trackID)) =
      c.trackMap.filter (fun e => decide (e.1 ≠ r.trackID)) := by
  unfold applyTrack
  simp only
  split
  · rw [TrackMap.filter_erase, storeTrack_frame]
  · rw [storeTrack_frame]

/-- C26.  Frame of one record.  A well-formed record with id `k`, received as one
block and processed: the receiver list is the one before, the entries of the map
with a key other than `k` are the entries there were, in the same order and with the
same contents (none added, none removed, none changed), and so a lookup of any other
key gives what it gave before. -/
theorem record_frame (c : TrackLinkClient) (r : TrackRecord) (hwf : r.wf)
    (hcap : (encodeTrack r).length ≤ BUFSIZE) :
    ∃ c' evs, processBuffer c (encodeTrack r) (encodeTrack r).length = some (c', evs) ∧
      c'.trackReceivers = c.trackReceivers ∧
      c'.trackMap.filter (fun e => decide (e.1 ≠ r.trackID)) =
        c.trackMap.filter (fun e => decide (e.1 ≠ r.trackID)) ∧
      ∀ j, j ≠ r.trackID → TrackMap.find c'.trackMap j = TrackMap.find c.trackMap j := by
  refine ⟨(applyTrack c r).1, (applyTrack c r).2, processBuffer_encodeTrack c r hwf hcap, rfl,
    applyTrack_frame c r, ?_⟩
  intro j hj
  rw [← TrackMap.find_filter_ne (applyTrack c r).1.trackMap r.trackID j hj, applyTrack_frame,
    TrackMap.find_filter_ne c.trackMap r.trackID j hj]

/-- C26, witness: the map holds ids 7 and 8 and an Ended record for id 7 arrives; the
entry for id 8 stays as it is. -/
theorem record_frame_witness :
    ∃ c' evs, processBuffer sampleClient (encodeTrack (sampleTrack 7 TS_OFF))
        (encodeTrack (sampleTrack 7 TS_OFF)).length = some (c', evs) ∧
      c'.trackReceivers = [1] ∧
      c'.trackMap.filter (fun e => decide (e.1 ≠ 7)) = [(8, sampleTrack 8 TS_OFF)] ∧
      ∀ j, j ≠ 7 → TrackMap.find c'.trackMap j = TrackMap.find sampleClient.trackMap j :=
  record_frame sampleClient (sampleTrack 7 TS_OFF) (by decide) (by decide)

/-! ## Claims about concatenated transmissions -/

theorem parseLoop_tracks_then (rs : List TrackRecord) :
    ∀ (pre post : List Nat) (fuel recvSize : Nat) (c : TrackLinkClient),
      (∀ r ∈ rs, r.wf) → pre.length + (encodeTracks rs).length ≤ recvSize →
      pre.length + (encodeTracks rs).length ≤ BUFSIZE → recvSize - pre.length ≤ fuel →
      parseLoop fuel (pre ++ (encodeTracks rs ++ post)) recvSize pre.length c =
        match parseLoop fuel (pre ++ (encodeTracks rs ++ post)) recvSize
            (pre.length + (encodeTracks rs).length) (applyTracks c rs).1 with
        | none => none
        | some (c', evs) => some (c', (applyTracks c rs).2 ++ evs) := by
  induction rs with
  | nil =>
    intro pre post fuel recvSize c _ _ _ _
    simp only [encodeTracks, List.length_nil, Nat.add_zero, applyTracks, List.nil_append]
    cases parseLoop fuel (pre ++ post) recvSize pre.length c with
    | none => rfl
    | some x => rfl
  | cons r rs ih =>
    intro pre post fuel recvSize c hwf hrs hcap hfuel
    rw [encodeTracks_length_cons] at hrs hcap
    have hr : r.wf := hwf r (List.mem_cons_self _ _)
    have hl := encodeTrack_length r
    obtain ⟨f, rfl⟩ : ∃ f, fuel = f + 1 := ⟨fuel - 1, by omega⟩
    have hb := parseLoop_block r hr pre (encodeTracks rs ++ post) f recvSize c (by omega)
      (by omega)
    have hrec := ih (pre ++ encodeTrack r) post f recvSize (applyTrack c r).1
      (fun r' h' => hwf r' (List.mem_cons_of_mem _ h')) (by simp; omega) (by simp; omega)
      (by simp; omega)
    simp only [List.length_append, List.append_assoc] at hrec
    have hfu := parseLoop_fuel f (f + 1) (pre ++ (encodeTrack r ++ (encodeTracks rs ++ post)))
      recvSize (pre.length + (encodeTrack r).length + (encodeTracks rs).length)
      (applyTracks (applyTrack c r).1 rs).1 (by omega) (by omega)
    simp only [encodeTracks, List.append_assoc, List.length_append, applyTracks]
    rw [hb, hrec, ← Nat.add_assoc, ← hfu]
    cases parseLoop f (pre ++ (encodeTrack r ++ (encodeTracks rs ++ post))) recvSize
        (pre.length + (encodeTrack r).length + (encodeTracks rs).length)
        (applyTracks (applyTrack c r).1 rs).1 with
    | none => rfl
    | some x => simp

/-- C22.  Concatenation.  `B1` and `B2` are the blocks of the well-formed records
`rs1` and `rs2`, together at most 20480 bytes.  Parsing `B1 ++ B2` as one buffer
gives the client and the callbacks that parsing `B1` and then, from the client it
leaves, `B2` gives, the callbacks of `B1` first; each of the three parses returns.
A buffer of the blocks of `rs` makes one registry application per record, in wire
order (`applyTracks`), and takes up exactly its own length: with any bytes behind the
blocks and any `recvSize` that covers the blocks, the loop stands at the position
right behind them with the client the records leave. -/
theorem parse_concat (c : TrackLinkClient) (rs1 rs2 : List TrackRecord)
    (h1 : ∀ r ∈ rs1, r.wf) (h2 : ∀ r ∈ rs2, r.wf)
    (hcap : (encodeTracks rs1).length + (encodeTracks rs2).length ≤ BUFSIZE) :
    processBuffer c (encodeTracks rs1) (encodeTracks rs1).length = some (applyTracks c rs1) ∧
    processBuffer (applyTracks c rs1).1 (encodeTracks rs2) (encodeTracks rs2).length =
      some (applyTracks (applyTracks c rs1).1 rs2) ∧
    processBuffer c (encodeTracks rs1 ++ encodeTracks rs2)
        (encodeTracks rs1 ++ encodeTracks rs2).length =
      some ((applyTracks (applyTracks c rs1).1 rs2).1,
        (applyTracks c rs1).2 ++ (applyTracks (applyTracks c rs1).1 rs2).2) ∧
    ∀ (post : List Nat) (recvSize fuel : Nat), (encodeTracks rs1).length ≤ recvSize →
      recvSize ≤ fuel →
      parseLoop fuel (encodeTracks rs1 ++ post) recvSize 0 c =
        match parseLoop fuel (encodeTracks rs1 ++ post) recvSize (encodeTracks rs1).length
            (applyTracks c rs1).1 with
        | none => none
        | some (c', evs) => some (c', (applyTracks c rs1).2 ++ evs) := by
  refine ⟨processBuffer_encodeTracks c rs1 h1 (by omega),
    processBuffer_encodeTracks _ rs2 h2 (by omega), ?_, ?_⟩
  · have h := processBuffer_encodeTracks c (rs1 ++ rs2)
      (fun r hr => (List.mem_append.mp hr).elim (h1 r) (h2 r))
      (by rw [encodeTracks_append, List.length_append]; exact hcap)
    rw [encodeTracks_append, applyTracks_append] at h
    exact h
  · intro post recvSize fuel hlen hfuel
    have h := parseLoop_tracks_then rs1 [] post fuel recvSize c h1 (by simpa using hlen)
      (by simp only [List.length_nil, Nat.zero_add]; omega) (by simpa using hfuel)
    simpa using h

/-- C22, witness: a New record for id 7, then in the second part its Update and a New
record for id 9. -/
theorem parse_concat_witness :
    processBuffer ⟨[1], []⟩
        (encodeTracks [sampleTrack 7 TS_NEW] ++
          encodeTracks [sampleTrack 7 TS_CONT, sampleTrack 9 TS_NEW])
        (encodeTracks [sampleTrack 7 TS_NEW] ++
          encodeTracks [sampleTrack 7 TS_CONT, sampleTrack 9 TS_NEW]).length =
      some ((applyTracks (applyTracks ⟨[1], []⟩ [sampleTrack 7 TS_NEW]).1
          [sampleTrack 7 TS_CONT, sampleTrack 9 TS_NEW]).1,
        (applyTracks ⟨[1], []⟩ [sampleTrack 7 TS_NEW]).2 ++
          (applyTracks (applyTracks ⟨[1], []⟩ [sampleTrack 7 TS_NEW]).1
            [sampleTrack 7 TS_CONT, sampleTrack 9 TS_NEW]).2) :=
  (parse_concat ⟨[1], []⟩ [sampleTrack 7 TS_NEW] [sampleTrack 7 TS_CONT, sampleTrack 9 TS_NEW]
    (by decide) (by decide) (by decide)).2.2.1

/-! ## Claims about the port and the blocking mode -/

/-- C27.  Port narrowing.  The constructor is called with the `int32` of the
configuration for its `unsigned short` parameter and checks nothing: for every
integer `p`, so for every `int32`, the port kept is `p` modulo 65536; adding any
multiple of 65536 to `p` gives the same client configuration; 65536 and 0 both give
port 0.  That port is the one bound: the first attempt of the thread, when `socket`
and the bind succeed, calls `Bind` (or `BindMcast`) with it. -/
theorem port_narrowing (m : Bool) (ip g : Nat) (p : Int) (c : TrackLinkClient) (e : StepEnv)
    (hexit : e.threadExit = false) (hsock : e.socket ≠ INVALID_SOCKET)
    (hbind : e.bindOK = true) (hjoin : e.joinOK = true) :
    ((TrackLinkClient.construct m ip p g).port : Int) = p % 65536 ∧
    (TrackLinkClient.construct m ip p g).port < 65536 ∧
    (∀ k : Int, TrackLinkClient.construct m ip (p + 65536 * k) g =
      TrackLinkClient.construct m ip p g) ∧
    (TrackLinkClient.construct m ip 65536 g).port = 0 ∧
    (TrackLinkClient.construct m ip 0 g).port = 0 ∧
    threadStep (TrackLinkClient.construct m ip p g) (Thread.start c) e =
      some (⟨.bound, some ⟨e.socket⟩, ⟨c, [], 0⟩⟩,
        [.Create true,
          if m then .BindMcast g ip (p % 65536).toNat true
          else .Bind (p % 65536).toNat ip true,
          .SetTimeoutReceive 1], []) := by
  have hnn : 0 ≤ p % 65536 := Int.emod_nonneg p (by decide)
  have hlt : p % 65536 < 65536 := Int.emod_lt_of_pos p (by decide)
  refine ⟨?_, ?_, ?_, rfl, rfl, ?_⟩
  · simp only [TrackLinkClient.construct]
    exact Int.toNat_of_nonneg hnn
  · simp only [TrackLinkClient.construct]
    omega
  · intro k
    simp only [TrackLinkClient.construct, Int.add_mul_emod_self_left]
  · cases m <;>
      simp [threadStep, Thread.start, hexit, UDPManager.Create, UDPManager.fresh, hsock,
        bindResult, bindOp, UDPManager.Bind, UDPManager.BindMcast, hbind, hjoin,
        TrackLinkClient.construct]

/-- C27, witness: unicast, `UDPPort = 70000`; the socket is bound to port 4464. -/
theorem port_narrowing_witness :
    ((TrackLinkClient.construct false 0 70000 0).port : Int) = 70000 % 65536 ∧
    threadStep (TrackLinkClient.construct false 0 70000 0) (Thread.start ⟨[1], []⟩)
        (envReceive .timeout) =
      some (⟨.bound, some ⟨6⟩, ⟨⟨[1], []⟩, [], 0⟩⟩,
        [.Create true, .Bind 4464 0 true, .SetTimeoutReceive 1], []) :=
  ⟨(port_narrowing false 0 0 70000 ⟨[1], []⟩ (envReceive .timeout) (by decide) (by decide)
      (by decide) (by decide)).1,
    (port_narrowing false 0 0 70000 ⟨[1], []⟩ (envReceive .timeout) (by decide) (by decide)
      (by decide) (by decide)).2.2.2.2.2⟩

/-- C23.  `SetBlocking` on the open socket 5, the operating system accepting the call.
`SetBlocking(true)` calls `ioctlsocket(5, FIONBIO, &onL)` with `onL = 1`, which asks for
non-blocking mode, and `SetBlocking(false)` calls it with `onL = 0`, which asks for
blocking mode: the mode set is the opposite of the one the argument names.  On a
socket that is not open the function returns false and makes no call. -/
theorem setBlocking_inverted :
    UDPManager.SetBlocking (fun _ _ => 0) ⟨5⟩ true = ⟨true, [(5, 1)]⟩ ∧
    UDPManager.SetBlocking (fun _ _ => 0) ⟨5⟩ false = ⟨true, [(5, 0)]⟩ ∧
    UDPManager.SetBlocking (fun _ _ => 0) UDPManager.fresh true = ⟨false, []⟩ ∧
    UDPManager.SetBlocking (fun _ _ => 0) UDPManager.fresh false = ⟨false, []⟩ := by
  decide

/-! ## Claims about the echo groups -/

theorem encodeEchoesWith_length (ems : List (PharusVector2f × Nat)) :
    (encodeEchoesWith ems).length = 10 * ems.length := by
  induction ems with
  | nil => rfl
  | cons em es ih => simp [encodeEchoesWith, bytes32, ih]; omega

theorem encodeTrackWith_length (r : TrackRecord) (marks : List Nat)
    (hm : marks.length = r.echoes.length) :
    (encodeTrackWith r marks).length = (encodeTrack r).length := by
  simp only [encodeTrackWith, List.length_append, encodeHead_length, encodeEchoesWith_length,
    List.length_zip, hm, Nat.min_self, encodeTrack_length, List.length_singleton]
  omega

theorem readEchoes_encodeWith (ems : List (PharusVector2f × Nat)) :
    ∀ (pre post : List Nat) (acc : List PharusVector2f) (fuel : Nat),
      (∀ em ∈ ems, em.1.wf) → ems.length < fuel → pre.length + 10 * ems.length < BUFSIZE →
      readEchoes fuel (pre ++ (encodeEchoesWith ems ++ 116 :: post)) pre.length acc
        = some (acc ++ ems.map Prod.fst, pre.length + 10 * ems.length) := by
  induction ems with
  | nil =>
    intro pre post acc fuel _ hf hlen
    obtain ⟨f, rfl⟩ : ∃ f, fuel = f + 1 := ⟨fuel - 1, by simp at hf; omega⟩
    have hp := peek_append pre (encodeEchoesWith [] ++ 116 :: post) 0 (by simpa using hlen)
    simp only [Nat.add_zero, encodeEchoesWith, List.nil_append, List.getD_cons_zero] at hp ⊢
    rw [readEchoes, hp]
    simp
  | cons em es ih =>
    intro pre post acc fuel hwf hf hlen
    obtain ⟨f, rfl⟩ : ∃ f, fuel = f + 1 := ⟨fuel - 1, by simp at hf; omega⟩
    simp only [List.length_cons] at hf hlen
    have hp := peek_append pre (encodeEchoesWith (em :: es) ++ 116 :: post) 0 (by omega)
    have hv := readVec_append pre (encodeEchoesWith (em :: es) ++ 116 :: post) 1 (by omega)
    simp only [Nat.add_zero] at hp
    have he : em.1.wf := hwf em (List.mem_cons_self _ _)
    have hx := le32_bytes32 em.1.x he.1
    have hy := le32_bytes32 em.1.y he.2
    have hrec := ih (pre ++ 69 :: (bytes32 em.1.x ++ bytes32 em.1.y ++ [em.2])) post
      (acc ++ [em.1]) f (fun e' h' => hwf e' (List.mem_cons_of_mem _ h')) (by omega)
      (by simp [bytes32]; omega)
    simp only [List.length_append, List.length_cons, bytes32, List.length_nil,
      List.append_assoc] at hrec
    simp only [encodeEchoesWith, bytes32, List.cons_append, List.nil_append,
      List.append_assoc, List.getD_cons_zero, List.getD_cons_succ] at hp hv hrec ⊢
    simp only [hx, hy] at hv
    rw [readEchoes, hp]
    simp only [if_true, hv]
    rw [hrec]
    simp only [List.append_assoc, List.singleton_append, Option.some.injEq, Prod.mk.injEq,
      List.map_cons, true_and, List.length_cons]
    omega

theorem read_head_field (r : TrackRecord) (hwf : r.wf) (pre rest : List Nat) (i : Nat)
    (hi : i < 11) (hlen : pre.length + 45 ≤ BUFSIZE) :
    read32 (pre ++ (encodeHead r ++ rest)) (pre.length + 1 + 4 * i)
      = some ((fieldsOf r).getD i 0) := by
  have hfs : ∀ f ∈ fieldsOf r, f < 4294967296 := by
    obtain ⟨hid, hst, hsp, hcp, hep, hrp, hor, _⟩ := hwf
    intro f hf
    simp only [fieldsOf, List.mem_cons, List.mem_singleton, List.not_mem_nil, or_false] at hf
    rcases hf with h | h | h | h | h | h | h | h | h | h | h <;> subst h
    · exact hid
    · exact hst
    · exact hcp.1
    · exact hcp.2
    · exact hep.1
    · exact hep.2
    · exact hor.1
    · exact hor.2
    · exact hsp
    · exact hrp.1
    · exact hrp.2
  have h := read32_fields (fieldsOf r) (pre ++ [84]) rest i
    hfs (by simpa [fieldsOf] using hi) (by simp; omega)
  simpa [encodeHead_eq, List.append_assoc] using h

theorem readTrack_head (r : TrackRecord) (hwf : r.wf) (pre rest : List Nat)
    (hlen : pre.length + 45 ≤ BUFSIZE) :
    peek (pre ++ (encodeHead r ++ rest)) pre.length = some 84 ∧
    read32 (pre ++ (encodeHead r ++ rest)) (pre.length + 1) = some r.trackID ∧
    readTrack (pre ++ (encodeHead r ++ rest)) r.trackID (pre.length + 5) =
      match readEchoes (BUFSIZE + 1) (pre ++ (encodeHead r ++ rest)) (pre.length + 45) [] with
      | some (echoes, p) =>
        some (⟨r.trackID, r.currentPos, r.expectPos, r.relPos, r.orientation, r.speed, r.state,
          echoes⟩, p)
      | none => none := by
  have f0 := read_head_field r hwf pre rest 0 (by omega) hlen
  have f1 := read_head_field r hwf pre rest 1 (by omega) hlen
  have f2 := read_head_field r hwf pre rest 2 (by omega) hlen
  have f3 := read_head_field r hwf pre rest 3 (by omega) hlen
  have f4 := read_head_field r hwf pre rest 4 (by omega) hlen
  have f5 := read_head_field r hwf pre rest 5 (by omega) hlen
  have f6 := read_head_field r hwf pre rest 6 (by omega) hlen
  have f7 := read_head_field r hwf pre rest 7 (by omega) hlen
  have f8 := read_head_field r hwf pre rest 8 (by omega) hlen
  have f9 := read_head_field r hwf pre rest 9 (by omega) hlen
  have f10 := read_head_field r hwf pre rest 10 (by omega) hlen
  simp only [fieldsOf, List.getD_cons_zero, List.getD_cons_succ, Nat.reduceMul, Nat.add_zero,
    Nat.add_assoc, Nat.reduceAdd] at f0 f1 f2 f3 f4 f5 f6 f7 f8 f9 f10
  have h0 := peek_append pre (encodeHead r ++ rest) 0 (by omega)
  have h0' : peek (pre ++ (encodeHead r ++ rest)) pre.length = some 84 := by
    simpa [encodeHead] using h0
  refine ⟨h0', f0, ?_⟩
  simp only [readTrack, readVec, Nat.add_assoc, Nat.reduceAdd, f1, f2, f3, f4, f5, f6, f7, f8, f9,
    f10]

theorem parseLoop_blockWith (r : TrackRecord) (hwf : r.wf) (marks : List Nat)
    (hm : marks.length = r.echoes.length) (pre post : List Nat) (fuel recvSize : Nat)
    (c : TrackLinkClient) (hlt : pre.length < recvSize)
    (hlen : pre.length + (encodeTrack r).length ≤ BUFSIZE) :
    parseLoop (fuel + 1) (pre ++ (encodeTrackWith r marks ++ post)) recvSize pre.length c =
      match parseLoop fuel (pre ++ (encodeTrackWith r marks ++ post)) recvSize
          (pre.length + (encodeTrack r).length) (applyTrack c r).1 with
      | none => none
      | some (c', evs) => some (c', (applyTrack c r).2 ++ evs) := by
  rw [encodeTrack_length] at hlen
  have hz : (r.echoes.zip marks).length = r.echoes.length := by
    simp [List.length_zip, hm]
  have hfst : (r.echoes.zip marks).map Prod.fst = r.echoes :=
    List.map_fst_zip _ _ (by omega)
  obtain ⟨h0, h1, h2⟩ := readTrack_head r hwf pre
    (encodeEchoesWith (r.echoes.zip marks) ++ 116 :: post) (by omega)
  have h8 := readEchoes_encodeWith (r.echoes.zip marks) (pre ++ encodeHead r) post []
    (BUFSIZE + 1)
    (fun em hem => hwf.2.2.2.2.2.2.2 em.1 (List.of_mem_zip hem).1)
    (by simp only [BUFSIZE] at hlen ⊢; omega)
    (by simp only [List.length_append, encodeHead_length]; omega)
  have h9 := peek_append (pre ++ encodeHead r ++ encodeEchoesWith (r.echoes.zip marks))
    (116 :: post) 0
    (by simp only [List.length_append, encodeHead_length, encodeEchoesWith_length]; omega)
  simp only [List.length_append, encodeHead_length, encodeEchoesWith_length, List.append_assoc,
    Nat.add_zero, List.getD_cons_zero, List.nil_append, Nat.add_assoc, hz, hfst] at h8 h9
  rw [h8] at h2
  simp only at h2
  have hbuf : pre ++ (encodeTrackWith r marks ++ post) =
      pre ++ (encodeHead r ++ (encodeEchoesWith (r.echoes.zip marks) ++ 116 :: post)) := by
    simp [encodeTrackWith, List.append_assoc]
  have hpos : pre.length + (45 + 10 * r.echoes.length) + 1 =
      pre.length + (encodeTrack r).length := by
    rw [encodeTrack_length]; omega
  rw [hbuf, parseLoop, if_pos hlt, h0]
  simp only [ne_eq, not_true_eq_false, if_false, h1, h2, h9, hpos]

/-- C21, counterexample.  One block for id 7, state New, with one echo group whose
last byte is 0 where the sender puts `'e'`, then the tail byte.  The block is taken:
the entry is stored with its echo and the receiver gets `onTrackNew`. -/
theorem echo_marker_not_checked :
    processBuffer ⟨[1], []⟩ (encodeTrackWith sampleEchoTrack [0])
        (encodeTrackWith sampleEchoTrack [0]).length =
      some (⟨[1], [(7, sampleEchoTrack)]⟩, [⟨1, .onTrackNew, sampleEchoTrack⟩]) ∧
    encodeTrackWith sampleEchoTrack [0] ≠ encodeTrack sampleEchoTrack ∧
    (encodeTrackWith sampleEchoTrack [0]).drop 45 = [69, 1, 0, 0, 0, 2, 0, 0, 0, 0, 116] := by
  decide

/-- C21, as amended.  The byte behind an echo pair is stepped over and never looked
at.  A block that is well-formed except that any bytes `marks` stand behind its echo
pairs is taken exactly as the block with `'e'` there: the same record is applied to
the registry, the same callbacks are made, and the loop goes on right behind the
block; received alone it gives what the well-formed block gives. -/
theorem echo_marker_skipped (r : TrackRecord) (hwf : r.wf) (marks : List Nat)
    (hm : marks.length = r.echoes.length) (pre post : List Nat) (fuel recvSize : Nat)
    (c : TrackLinkClient) (hlt : pre.length < recvSize)
    (hlen : pre.length + (encodeTrack r).length ≤ BUFSIZE) :
    parseLoop (fuel + 1) (pre ++ (encodeTrackWith r marks ++ post)) recvSize pre.length c =
      (match parseLoop fuel (pre ++ (encodeTrackWith r marks ++ post)) recvSize
          (pre.length + (encodeTrack r).length) (applyTrack c r).1 with
      | none => none
      | some (c', evs) => some (c', (applyTrack c r).2 ++ evs)) ∧
    processBuffer c (encodeTrackWith r marks) (encodeTrackWith r marks).length =
      some (applyTrack c r) ∧
    processBuffer c (encodeTrackWith r marks) (encodeTrackWith r marks).length =
      processBuffer c (encodeTrack r) (encodeTrack r).length := by
  have hone : processBuffer c (encodeTrackWith r marks) (encodeTrackWith r marks).length =
      some (applyTrack c r) := by
    have hl := encodeTrackWith_length r marks hm
    have hpos : 0 < (encodeTrack r).length := by rw [encodeTrack_length]; omega
    obtain ⟨f, hf⟩ : ∃ f, (encodeTrack r).length = f + 1 := ⟨_, (Nat.succ_pred_eq_of_pos hpos).symm⟩
    have h := parseLoop_blockWith r hwf marks hm [] [] f (encodeTrack r).length c
      (by simpa using hpos) (by simp only [List.length_nil, Nat.zero_add]; omega)
    simp only [List.nil_append, List.append_nil, List.length_nil, Nat.zero_add] at h
    have hend : parseLoop f (encodeTrackWith r marks) (encodeTrack r).length
        (encodeTrack r).length (applyTrack c r).1 = some ((applyTrack c r).1, []) := by
      cases f with
      | zero => simp [parseLoop]
      | succ g => simp [parseLoop]
    rw [hend] at h
    simp only [List.append_nil] at h
    rw [processBuffer, hl]
    rw [hf] at h ⊢
    exact h
  refine ⟨parseLoop_blockWith r hwf marks hm pre post fuel recvSize c hlt hlen, hone, ?_⟩
  rw [hone, processBuffer_encodeTrack c r hwf (by omega)]

/-- C21, witness: the block of the counterexample, with the byte 0 behind its echo. -/
theorem echo_marker_skipped_witness :
    processBuffer ⟨[1], []⟩ (encodeTrackWith sampleEchoTrack [0])
        (encodeTrackWith sampleEchoTrack [0]).length =
      processBuffer ⟨[1], []⟩ (encodeTrack sampleEchoTrack) (encodeTrack sampleEchoTrack).length :=
  (echo_marker_skipped sampleEchoTrack (by decide) [0] (by decide) [] [] 56 56 ⟨[1], []⟩
    (by decide) (by decide)).2.2

/-! ## Claims about the reads of the parser -/

theorem read32_none (buf : List Nat) (p : Nat) (h : BUFSIZE ≤ p + 3) : read32 buf p = none := by
  have hp : peek buf (p + 3) = none := by
    simp only [peek]
    rw [if_neg (by omega)]
  unfold read32
  rw [hp]
  cases peek buf p <;> cases peek buf (p + 1) <;> cases peek buf (p + 2) <;> rfl

theorem readVec_none (buf : List Nat) (p : Nat) (h : BUFSIZE ≤ p + 7) : readVec buf p = none := by
  unfold readVec
  rw [read32_none buf (p + 4) (by omega)]
  cases read32 buf p <;> rfl

theorem readTrack_none (buf : List Nat) (tid q : Nat) (h : BUFSIZE ≤ q + 39) :
    readTrack buf tid q = none := by
  have hv := readVec_none buf (q + 32) (by omega)
  unfold readTrack
  split
  · rename_i h6
    rw [hv] at h6
    simp at h6
  · rfl

theorem encodeTracks_replicate_length (n : Nat) (r : TrackRecord) :
    (encodeTracks (List.replicate n r)).length = n * (encodeTrack r).length := by
  induction n with
  | zero => simp [encodeTracks]
  | succ k ih =>
    rw [List.replicate_succ, encodeTracks_length_cons, ih]
    ring

theorem overrunDatagram_length : overrunDatagram.length = 20480 := by
  unfold overrunDatagram
  rw [List.length_append, encodeTracks_replicate_length, encodeTrack_length]
  rfl

theorem parse_cut_block (c : TrackLinkClient) (rs : List TrackRecord) (hwf : ∀ r ∈ rs, r.wf)
    (hl : (encodeTracks rs).length = 20470) :
    processBuffer c (encodeTracks rs ++ [84, 0, 0, 0, 0, 0, 0, 0, 0, 116]) 20480 = none := by
  have h := parseLoop_tracks_then rs [] [84, 0, 0, 0, 0, 0, 0, 0, 0, 116] 20480 20480 c hwf
    (by rw [hl]; decide) (by rw [hl]; decide) (by decide)
  simp only [List.nil_append, List.length_nil, Nat.zero_add, hl] at h
  have hT := peek_append (encodeTracks rs) [84, 0, 0, 0, 0, 0, 0, 0, 0, 116] 0
    (by rw [hl]; decide)
  have hid := read32_append (encodeTracks rs) [84, 0, 0, 0, 0, 0, 0, 0, 0, 116] 1
    (by rw [hl]; decide)
  rw [hl] at hT hid
  simp only [Nat.add_zero, List.getD_cons_zero, List.getD_cons_succ] at hT hid
  have hcut : parseLoop 20480 (encodeTracks rs ++ [84, 0, 0, 0, 0, 0, 0, 0, 0, 116]) 20480 20470
      (applyTracks c rs).1 = none := by
    rw [show (20480 : Nat) = 20479 + 1 from rfl, parseLoop]
    rw [if_pos (by decide), hT]
    simp only [ne_eq, not_true_eq_false, if_false, hid]
    rw [readTrack_none _ _ _ (by decide)]
  rw [hcut] at h
  exact h

theorem overrunDatagram_parse (c : TrackLinkClient) :
    processBuffer c overrunDatagram 20480 = none := by
  have hl : (encodeTracks (List.replicate 445 (sampleTrack 7 TS_CONT))).length = 20470 := by
    rw [encodeTracks_replicate_length, encodeTrack_length]
    rfl
  have hwf : ∀ r ∈ List.replicate 445 (sampleTrack 7 TS_CONT), r.wf := by
    intro r hr
    rw [List.eq_of_mem_replicate hr]
    decide
  exact parse_cut_block c _ hwf hl

theorem overrunDatagram_tail : peek overrunDatagram (overrunDatagram.length - 1) = some 116 := by
  have hl : (encodeTracks (List.replicate 445 (sampleTrack 7 TS_CONT))).length = 20470 := by
    rw [encodeTracks_replicate_length, encodeTrack_length]
    rfl
  have h := peek_append (encodeTracks (List.replicate 445 (sampleTrack 7 TS_CONT)))
    [84, 0, 0, 0, 0, 0, 0, 0, 0, 116] 9 (by rw [hl]; decide)
  rw [overrunDatagram_length]
  rw [hl] at h
  exact h

theorem recvStep_parse_none (c : TrackLinkClient) (d : List Nat) (hpos : 0 < d.length)
    (hcap : d.length ≤ BUFSIZE) (ht : peek d (d.length - 1) = some 116)
    (hp : processBuffer c d d.length = none) :
    recvStep ⟨c, [], 0⟩ (.datagram d) = none := by
  rw [recvStep_top ⟨c, [], 0⟩ d rfl hpos hcap]
  unfold afterReceive
  rw [if_neg (by rw [ht]; simp)]
  simp only
  rw [hp]

/-- C25.  A datagram of 20480 bytes that fills `recvBuf`: 445 whole blocks, then the
first ten bytes of a block, the last of them `'t'`.  The reassembly loop takes the
last byte for the end of the transmission and the parse loop runs; at the cut block
it finds `'T'` at index 20470, copies the id from 20471..20474 and the state from
20475..20478, and the next `memcpy` reads 20479..20482, past the end of the array:
the parse has no defined result, for every client.  Inside the array, too, the
parser reads behind the bytes received: of the two bytes `'T'`, `'t'` it makes a
record for id 116 whose ten fields come from the indices 5..44. -/
theorem parser_reads_past_array :
    overrunDatagram.length = 20480 ∧
    (∀ c : TrackLinkClient, processBuffer c overrunDatagram 20480 = none) ∧
    (∀ c : TrackLinkClient, recvStep ⟨c, [], 0⟩ (.datagram overrunDatagram) = none) ∧
    processBuffer ⟨[1], []⟩ [84, 116] 2 =
      some (⟨[1], [(116, ⟨116, ⟨0, 0⟩, ⟨0, 0⟩, ⟨0, 0⟩, ⟨0, 0⟩, 0, 0, []⟩)]⟩, []) := by
  refine ⟨overrunDatagram_length, overrunDatagram_parse, ?_, by decide⟩
  intro c
  have hl := overrunDatagram_length
  exact recvStep_parse_none c overrunDatagram (by omega) (by rw [hl]; decide)
    overrunDatagram_tail (by rw [hl]; exact overrunDatagram_parse c)

/-! ## Claims about the wall regions -/

theorem firstOfSide_collect {Box Point : Type} (IsInside : Box → Point → Bool) (p : Point)
    (side : EAefPharusWallSide) (rs : List (FAefPharusWallRegion Box)) :
    ∀ i, firstOfSide side (collectMatching IsInside p rs i) =
      firstWhere (fun r => r.ContainsTrackPoint IsInside p && decide (r.WallSide = side)) rs i := by
  induction rs with
  | nil => intro i; rfl
  | cons r rs ih =>
    intro i
    simp only [collectMatching, firstWhere]
    by_cases hc : r.ContainsTrackPoint IsInside p = true
    · by_cases hs : r.WallSide = side
      · simp [hc, hs, firstOfSide]
      · simp [hc, hs, firstOfSide, ih]
    · simp [hc, ih]

theorem head_collect {Box Point : Type} (IsInside : Box → Point → Bool) (p : Point)
    (rs : List (FAefPharusWallRegion Box)) :
    ∀ i, (collectMatching IsInside p rs i).head? =
      firstWhere (fun r => r.ContainsTrackPoint IsInside p) rs i := by
  induction rs with
  | nil => intro i; rfl
  | cons r rs ih =>
    intro i
    simp only [collectMatching, firstWhere]
    by_cases hc : r.ContainsTrackPoint IsInside p = true
    · simp [hc]
    · simp [hc, ih]

theorem firstWhere_some {Box : Type} (P : FAefPharusWallRegion Box → Bool)
    (rs : List (FAefPharusWallRegion Box)) :
    ∀ (i j : Nat) (r : FAefPharusWallRegion Box), firstWhere P rs i = some (j, r) →
      i ≤ j ∧ rs[j - i]? = some r ∧ P r = true ∧
      ∀ k r', k < j - i → rs[k]? = some r' → P r' = false := by
  induction rs with
  | nil => intro i j r h; simp [firstWhere] at h
  | cons a rs ih =>
    intro i j r h
    simp only [firstWhere] at h
    split at h
    · rename_i hp
      simp only [Option.some.injEq, Prod.mk.injEq] at h
      obtain ⟨h1, h2⟩ := h
      subst h1 h2
      refine ⟨Nat.le_refl _, by simp, hp, ?_⟩
      intro k r' hk
      omega
    · rename_i hp
      obtain ⟨h1, h2, h3, h4⟩ := ih (i + 1) j r h
      have hji : j - i = (j - (i + 1)) + 1 := by omega
      refine ⟨by omega, ?_, h3, ?_⟩
      · rw [hji, List.getElem?_cons_succ]
        exact h2
      · intro k r' hk hr'
        cases k with
        | zero =>
          simp only [List.getElem?_cons_zero, Option.some.injEq] at hr'
          subst hr'
          simpa using hp
        | succ k' =>
          rw [List.getElem?_cons_succ] at hr'
          exact h4 k' r' (by omega) hr'

theorem firstWhere_none {Box : Type} (P : FAefPharusWallRegion Box → Bool)
    (rs : List (FAefPharusWallRegion Box)) :
    ∀ (i : Nat), firstWhere P rs i = none ↔ ∀ r ∈ rs, P r = false := by
  induction rs with
  | nil => intro i; simp [firstWhere]
  | cons a rs ih =>
    intro i
    simp only [firstWhere]
    by_cases hp : P a = true
    · simp [hp]
    · simp [hp, ih (i + 1)]

theorem FindWallRegion_chain {Box Point : Type} (IsInside : Box → Point → Bool)
    (rs : List (FAefPharusWallRegion Box)) (p : Point) :
    FindWallRegion IsInside rs p =
      match firstWhere (fun r => r.ContainsTrackPoint IsInside p &&
          decide (r.WallSide = .Front)) rs 0 with
      | some x => some x
      | none =>
        match firstWhere (fun r => r.ContainsTrackPoint IsInside p &&
            decide (r.WallSide = .Right)) rs 0 with
        | some x => some x
        | none =>
          match firstWhere (fun r => r.ContainsTrackPoint IsInside p &&
              decide (r.WallSide = .Back)) rs 0 with
          | some x => some x
          | none =>
            match firstWhere (fun r => r.ContainsTrackPoint IsInside p &&
                decide (r.WallSide = .Left)) rs 0 with
            | some x => some x
            | none => firstWhere (fun r => r.ContainsTrackPoint IsInside p) rs 0 := by
  rw [← firstOfSide_collect, ← firstOfSide_collect, ← firstOfSide_collect, ← firstOfSide_collect,
    ← head_collect]
  unfold FindWallRegion
  generalize collectMatching IsInside p rs 0 = M
  match M with
  | [] => simp [firstOfSide]
  | [x] =>
    obtain ⟨i, side, box⟩ := x
    cases side <;> simp [firstOfSide]
  | x :: y :: rest => simp

theorem FindWallRegion_cases {Box Point : Type} (IsInside : Box → Point → Bool)
    (rs : List (FAefPharusWallRegion Box)) (p : Point) :
    (FindWallRegion IsInside rs p = none ∧
      firstWhere (fun r => r.ContainsTrackPoint IsInside p) rs 0 = none) ∨
    ∃ P : FAefPharusWallRegion Box → Bool,
      (∀ r, P r = true → r.ContainsTrackPoint IsInside p = true) ∧
      FindWallRegion IsInside rs p = firstWhere P rs 0 ∧
      (firstWhere P rs 0).isSome = true := by
  rw [FindWallRegion_chain]
  cases h1 : firstWhere (fun r => r.ContainsTrackPoint IsInside p &&
      decide (r.WallSide = .Front)) rs 0 with
  | some x => exact Or.inr ⟨fun r => r.ContainsTrackPoint IsInside p && decide (r.WallSide = .Front),
          fun r hr => by simp only [Bool.and_eq_true] at hr; exact hr.1, h1.symm,
          by rw [h1]; rfl⟩
  | none =>
    cases h2 : firstWhere (fun r => r.ContainsTrackPoint IsInside p &&
        decide (r.WallSide = .Right)) rs 0 with
    | some x => exact Or.inr ⟨fun r => r.ContainsTrackPoint IsInside p && decide (r.WallSide = .Right),
          fun r hr => by simp only [Bool.and_eq_true] at hr; exact hr.1, h2.symm,
          by rw [h2]; rfl⟩
    | none =>
      cases h3 : firstWhere (fun r => r.ContainsTrackPoint IsInside p &&
          decide (r.WallSide = .Back)) rs 0 with
      | some x =>
        exact Or.inr ⟨fun r => r.ContainsTrackPoint IsInside p && decide (r.WallSide = .Back),
          fun r hr => by simp only [Bool.and_eq_true] at hr; exact hr.1, h3.symm,
          by rw [h3]; rfl⟩
      | none =>
        cases h4 : firstWhere (fun r => r.ContainsTrackPoint IsInside p &&
            decide (r.WallSide = .Left)) rs 0 with
        | some x =>
          exact Or.inr ⟨fun r => r.ContainsTrackPoint IsInside p && decide (r.WallSide = .Left),
          fun r hr => by simp only [Bool.and_eq_true] at hr; exact hr.1, h4.symm,
          by rw [h4]; rfl⟩
        | none =>
          cases h5 : firstWhere (fun r => r.ContainsTrackPoint IsInside p) rs 0 with
          | some x =>
            exact Or.inr ⟨fun r => r.ContainsTrackPoint IsInside p, fun r hr => hr, h5.symm,
              by rw [h5]; rfl⟩
          | none => exact Or.inl ⟨rfl, rfl⟩

/-- C24.  `FindWallRegion`, the bounds test of a region being any test `IsInside`.
The result is null exactly when no region contains the point.  A region returned is
an element of the configured list (at the index returned) and contains the point.
When exactly one region contains the point, it is the one returned.  In every case
the result is the first region in configuration order that contains the point and
has side Front; if there is none, the first with side Right; then Back; then Left;
and if none of these, the first region that contains the point. -/
theorem FindWallRegion_spec {Box Point : Type} (IsInside : Box → Point → Bool)
    (rs : List (FAefPharusWallRegion Box)) (p : Point) :
    (FindWallRegion IsInside rs p = none ↔
      ∀ r ∈ rs, r.ContainsTrackPoint IsInside p = false) ∧
    (∀ i r, FindWallRegion IsInside rs p = some (i, r) →
      rs[i]? = some r ∧ r.ContainsTrackPoint IsInside p = true) ∧
    (∀ i r, rs[i]? = some r → r.ContainsTrackPoint IsInside p = true →
      (∀ j r', rs[j]? = some r' → r'.ContainsTrackPoint IsInside p = true → j = i) →
      FindWallRegion IsInside rs p = some (i, r)) ∧
    FindWallRegion IsInside rs p =
      match firstWhere (fun r => r.ContainsTrackPoint IsInside p &&
          decide (r.WallSide = .Front)) rs 0 with
      | some x => some x
      | none =>
        match firstWhere (fun r => r.ContainsTrackPoint IsInside p &&
            decide (r.WallSide = .Right)) rs 0 with
        | some x => some x
        | none =>
          match firstWhere (fun r => r.ContainsTrackPoint IsInside p &&
              decide (r.WallSide = .Back)) rs 0 with
          | some x => some x
          | none =>
            match firstWhere (fun r => r.ContainsTrackPoint IsInside p &&
                decide (r.WallSide = .Left)) rs 0 with
            | some x => some x
            | none => firstWhere (fun r => r.ContainsTrackPoint IsInside p) rs 0 := by
  have hnone : FindWallRegion IsInside rs p = none ↔
      ∀ r ∈ rs, r.ContainsTrackPoint IsInside p = false := by
    rcases FindWallRegion_cases IsInside rs p with ⟨h1, h2⟩ | ⟨P, hP, h1, h2⟩
    · rw [h1]
      simp only [true_iff]
      exact (firstWhere_none _ rs 0).mp h2
    · rw [h1]
      constructor
      · intro h
        rw [h] at h2
        simp at h2
      · intro h
        rw [firstWhere_none]
        intro r hr
        cases hp : P r with
        | false => rfl
        | true =>
          have := hP r hp
          rw [h r hr] at this
          simp at this
  have hsome : ∀ i r, FindWallRegion IsInside rs p = some (i, r) →
      rs[i]? = some r ∧ r.ContainsTrackPoint IsInside p = true := by
    intro i r h
    rcases FindWallRegion_cases IsInside rs p with ⟨h1, _⟩ | ⟨P, hP, h1, _⟩
    · rw [h1] at h
      simp at h
    · rw [h1] at h
      obtain ⟨_, h3, h4, _⟩ := firstWhere_some P rs 0 i r h
      exact ⟨by simpa using h3, hP r h4⟩
  refine ⟨hnone, hsome, ?_, FindWallRegion_chain IsInside rs p⟩
  intro i r hi hc huniq
  cases hres : FindWallRegion IsInside rs p with
  | none =>
    have hmem : r ∈ rs := List.getElem?_mem hi
    rw [hnone.mp hres r hmem] at hc
    simp at hc
  | some x =>
    obtain ⟨j, r'⟩ := x
    obtain ⟨hj, hc'⟩ := hsome j r' hres
    have hji := huniq j r' hj hc'
    subst hji
    rw [hi] at hj
    simp only [Option.some.injEq] at hj
    rw [hj]

/-- C24, witness.  Point 9 lies in all three sample regions: the front wall, the last
in configuration order, is returned.  Point 6 lies in the floor and the left wall:
the left wall is returned.  Point 3 lies in the floor only, point 30 in no region. -/
theorem FindWallRegion_spec_witness :
    FindWallRegion sampleInside sampleRegions 9 = some (2, ⟨.Front, (8, 20)⟩) ∧
    FindWallRegion sampleInside sampleRegions 6 = some (1, ⟨.Left, (5, 15)⟩) ∧
    FindWallRegion sampleInside sampleRegions 3 = some (0, ⟨.Floor, (0, 10)⟩) ∧
    FindWallRegion sampleInside sampleRegions 30 = none :=
  ⟨(FindWallRegion_spec sampleInside sampleRegions 9).2.2.2.trans rfl,
    (FindWallRegion_spec sampleInside sampleRegions 6).2.2.2.trans rfl,
    (FindWallRegion_spec sampleInside sampleRegions 3).2.2.1 0 ⟨.Floor, (0, 10)⟩ rfl rfl
      (by
        intro j r' hj hc
        match j, hj with
        | 0, _ => rfl
        | 1, hj =>
          simp only [sampleRegions, List.getElem?_cons_succ, List.getElem?_cons_zero,
            Option.some.injEq] at hj
          subst hj
          simp [FAefPharusWallRegion.ContainsTrackPoint, sampleInside] at hc
        | 2, hj =>
          simp only [sampleRegions, List.getElem?_cons_succ, List.getElem?_cons_zero,
            Option.some.injEq] at hj
          subst hj
          simp [FAefPharusWallRegion.ContainsTrackPoint, sampleInside] at hc
        | k + 3, hj => simp [sampleRegions] at hj),
    (FindWallRegion_spec sampleInside sampleRegions 30).1.mpr (by decide)⟩

/-! ## Claims about the actor pool -/

/-- C28.  A pool of size 2 whose first spawn fails and whose second succeeds.
`Initialize` returns true with one actor in `PooledActors` and the loop index 1 in
`FreeIndices`: an element of `FreeIndices` that is not below `PooledActors.Num()`.
The first `AcquireActor` takes that index and indexes `PooledActors` out of range.
With a pool of size 3 the first call hands out the actor spawned for index 2 under
index 1, and the second call indexes out of range. -/
theorem pool_index_out_of_range :
    UAefPharusActorPool.Initialize spawnSecondOnly true true 2 ⟨[], [], false⟩ =
      (⟨[11], [1], true⟩, true) ∧
    (⟨[11], [1], true⟩ : UAefPharusActorPool).GetPoolSize = 1 ∧
    UAefPharusActorPool.AcquireActor (fun _ => true) ⟨[11], [1], true⟩ = none ∧
    UAefPharusActorPool.Initialize spawnSecondOnly true true 3 ⟨[], [], false⟩ =
      (⟨[11, 12], [1, 2], true⟩, true) ∧
    UAefPharusActorPool.AcquireActor (fun _ => true) ⟨[11, 12], [1, 2], true⟩ =
      some (⟨[11, 12], [2], true⟩, 12, 1) ∧
    UAefPharusActorPool.AcquireActor (fun _ => true) ⟨[11, 12], [2], true⟩ = none := by
  decide

/-! ## Claims about the legacy receive path -/

theorem legacyApplyTrack_single (c : TrackLinkClient) (t : TrackRecord) (r : Nat)
    (hL : c.trackReceivers = [r]) : legacyApplyTrack c t = some (applyTrack c t) := by
  unfold legacyApplyTrack applyTrack dispatch
  simp only [hL, legacyNotify, find_storeTrack, List.filterMap_cons, List.filterMap_nil, notifyOne]
  by_cases hu : (TrackMap.find c.trackMap t.trackID).isNone = true <;>
    by_cases hs : t.state = TS_OFF <;> simp [hu, hs]

theorem legacyParseLoop_single (fuel : Nat) :
    ∀ (buf : List Nat) (recvSize curPos : Nat) (c : TrackLinkClient) (r : Nat),
      c.trackReceivers = [r] →
      legacyParseLoop fuel buf recvSize curPos c = parseLoop fuel buf recvSize curPos c := by
  induction fuel with
  | zero => intro buf recvSize curPos c r _; rfl
  | succ f ih =>
    intro buf recvSize curPos c r hL
    rw [legacyParseLoop, parseLoop]
    split
    · cases peek buf curPos with
      | none => rfl
      | some hd =>
        simp only
        split
        · rfl
        · cases read32 buf (curPos + 1) with
          | none => rfl
          | some tid =>
            simp only
            cases readTrack buf tid (curPos + 5) with
            | none => rfl
            | some tp =>
              obtain ⟨track, p⟩ := tp
              simp only
              cases peek buf p with
              | none => rfl
              | some tl =>
                simp only
                split
                · rfl
                · rw [legacyApplyTrack_single c track r hL]
                  simp only
                  rw [ih buf recvSize (p + 1) (applyTrack c track).1 r hL]
    · rfl

theorem legacyAfterReceive_single (c : TrackLinkClient) (buf : List Nat) (n : Int) (r : Nat)
    (hL : c.trackReceivers = [r]) (hn : 0 < n) :
    legacyAfterReceive c buf n = afterReceive c buf n.toNat := by
  unfold legacyAfterReceive afterReceive processBuffer
  rw [if_neg (by omega), legacyParseLoop_single _ _ _ _ c r hL]

theorem legacyRecvStep_single (s : RecvThread) (o : RecvOutcome) (r : Nat)
    (hL : s.client.trackReceivers = [r])
    (hok : 0 < (Receive s.recvBuf s.recvSize (BUFSIZE - s.recvSize) o).2) :
    legacyRecvStep s o = recvStep s o := by
  unfold legacyRecvStep recvStep
  by_cases h0 : s.recvSize = 0
  · simp only [h0, if_true]
    split
    · rename_i hpos
      exact legacyAfterReceive_single _ _ _ r hL hpos
    · rfl
  · simp only [h0, if_false]
    have hle := Receive_le_offered s.recvBuf s.recvSize (BUFSIZE - s.recvSize) o
    have hnle : ¬ (Receive s.recvBuf s.recvSize (BUFSIZE - s.recvSize) o).2 ≤ 0 := by omega
    have hcap : ¬ (s.recvSize : Int) +
        (Receive s.recvBuf s.recvSize (BUFSIZE - s.recvSize) o).2 > (BUFSIZE : Int) := by
      omega
    rw [if_neg hnle, if_neg hcap,
      legacyAfterReceive_single _ _ _ r hL (by omega)]
    congr 1
    omega

theorem legacyRecvRun_single (os : List RecvOutcome) :
    ∀ (s : RecvThread) (r : Nat), s.client.trackReceivers = [r] → AllReceived s os →
      legacyRecvRun s os = recvRun s os := by
  induction os with
  | nil => intro s r _ _; rfl
  | cons o os ih =>
    intro s r hL hok
    obtain ⟨h1, h2⟩ := hok
    rw [legacyRecvRun, recvRun, legacyRecvStep_single s o r hL h1]
    cases hstep : recvStep s o with
    | none => rfl
    | some x =>
      obtain ⟨s', evs⟩ := x
      rw [hstep] at h2
      simp only at h2 ⊢
      have hL' : s'.client.trackReceivers = [r] := by
        rw [(recvStep_receivers s s' o evs hstep).1, hL]
      rw [ih s' r hL' h2]

/-- C29.  The legacy receive path and the AefPharus receive path with exactly one
receiver registered.  From any track map, over any sequence of outcomes of `Receive`
in which every call succeeds (returns a positive count, so the datagram is not empty
and fits the space left in the buffer), the two receive loops give the same result:
the same callbacks in the same order with the same records, the same track map and
the same receive state at the end.  On a datagram of well-formed blocks both return,
with the registry applications of the records in wire order. -/
theorem legacy_agrees_single_receiver (M : TrackMap) (r : Nat) (os : List RecvOutcome)
    (hok : AllReceived ⟨⟨[r], M⟩, [], 0⟩ os) :
    legacyRecvRun ⟨⟨[r], M⟩, [], 0⟩ os = recvRun ⟨⟨[r], M⟩, [], 0⟩ os ∧
    ∀ rs : List TrackRecord, rs ≠ [] → (∀ t ∈ rs, t.wf) → (encodeTracks rs).length ≤ BUFSIZE →
      legacyRecvStep ⟨⟨[r], M⟩, [], 0⟩ (.datagram (encodeTracks rs)) =
        some (⟨(applyTracks ⟨[r], M⟩ rs).1, encodeTracks rs, 0⟩, (applyTracks ⟨[r], M⟩ rs).2) ∧
      recvStep ⟨⟨[r], M⟩, [], 0⟩ (.datagram (encodeTracks rs)) =
        some (⟨(applyTracks ⟨[r], M⟩ rs).1, encodeTracks rs, 0⟩, (applyTracks ⟨[r], M⟩ rs).2) := by
  refine ⟨legacyRecvRun_single os _ r rfl hok, ?_⟩
  intro rs hne hwf hcap
  have hnew := recvStep_tracks ⟨⟨[r], M⟩, [], 0⟩ rs rfl hne hwf hcap
  have hpos := encodeTracks_pos rs hne
  have hrecv : 0 < (Receive [] 0 (BUFSIZE - 0) (.datagram (encodeTracks rs))).2 := by
    simp only [Receive, Nat.sub_zero, hcap, if_true]
    exact_mod_cast hpos
  rw [legacyRecvStep_single ⟨⟨[r], M⟩, [], 0⟩ _ r rfl hrecv]
  exact ⟨hnew, hnew⟩

/-- C29, witness: receiver 1, empty map; the blocks of a New, a Continuing and an
Ended record for id 7 arrive in two datagrams, cut ten bytes into the first block. -/
theorem legacy_agrees_single_receiver_witness :
    legacyRecvRun ⟨⟨[1], []⟩, [], 0⟩
        [.datagram ((encodeTracks
            [sampleTrack 7 TS_NEW, sampleTrack 7 TS_CONT, sampleTrack 7 TS_OFF]).take 10),
          .datagram ((encodeTracks
            [sampleTrack 7 TS_NEW, sampleTrack 7 TS_CONT, sampleTrack 7 TS_OFF]).drop 10)] =
      recvRun ⟨⟨[1], []⟩, [], 0⟩
        [.datagram ((encodeTracks
            [sampleTrack 7 TS_NEW, sampleTrack 7 TS_CONT, sampleTrack 7 TS_OFF]).take 10),
          .datagram ((encodeTracks
            [sampleTrack 7 TS_NEW, sampleTrack 7 TS_CONT, sampleTrack 7 TS_OFF]).drop 10)] :=
  (legacy_agrees_single_receiver [] 1 _ (by set_option maxRecDepth 8000 in decide)).1

/-! ## Claims about the socket that `Receive` is called on -/

theorem SocketState.afterAll_append (a : List SocketOp) :
    ∀ (st : SocketState) (b : List SocketOp),
      SocketState.afterAll st (a ++ b) = SocketState.afterAll (SocketState.afterAll st a) b := by
  induction a with
  | nil => intro st b; rfl
  | cons op a ih =>
    intro st b
    show SocketState.afterAll (st.after op) (a ++ b) = _
    exact ih _ _

theorem receivesReady_append (a : List SocketOp) :
    ∀ (st : SocketState) (b : List SocketOp),
      receivesReady st (a ++ b) ↔
        receivesReady st a ∧ receivesReady (SocketState.afterAll st a) b := by
  induction a with
  | nil => intro st b; simp [receivesReady, SocketState.afterAll]
  | cons op a ih =>
    intro st b
    show ((op.isReceive = true → st = .ready) ∧ receivesReady (st.after op) (a ++ b)) ↔
      ((op.isReceive = true → st = .ready) ∧ receivesReady (st.after op) a) ∧
        receivesReady (SocketState.afterAll (st.after op) a) b
    rw [ih, and_assoc]

theorem bindOp_after (cfg : Construction) (e : StepEnv) (u : UDPManager) :
    SocketState.after .created (bindOp cfg e u) =
      if bindResult cfg e u then .bound else .created := by
  unfold bindOp bindResult
  cases hm : cfg.multicast <;> simp only [Bool.false_eq_true, if_false, if_true] <;>
    simp only [SocketState.after, true_and]

theorem bindOp_isReceive (cfg : Construction) (e : StepEnv) (u : UDPManager) :
    (bindOp cfg e u).isReceive = false := by
  unfold bindOp
  split <;> rfl

theorem after_close (st : SocketState) : SocketState.after st .Close = .absent := by
  cases st <;> rfl

theorem afterAll_attempt_ok (cfg : Construction) (e : StepEnv) (u : UDPManager)
    (hb : bindResult cfg e u = true) :
    SocketState.afterAll .absent [.Create true, bindOp cfg e u, .SetTimeoutReceive 1] = .ready := by
  show SocketState.after (SocketState.after (SocketState.after .absent (.Create true))
    (bindOp cfg e u)) (.SetTimeoutReceive 1) = .ready
  have h1 : SocketState.after .absent (.Create true) = .created := rfl
  rw [h1, bindOp_after, hb]
  rfl

theorem afterAll_attempt_failed (cfg : Construction) (e : StepEnv) (u : UDPManager) :
    SocketState.afterAll .absent [.Create true, bindOp cfg e u, .Close] = .absent := by
  show SocketState.after (SocketState.after (SocketState.after .absent (.Create true))
    (bindOp cfg e u)) .Close = .absent
  exact after_close _

theorem receivesReady_attempt (cfg : Construction) (e : StepEnv) (u : UDPManager)
    (last : SocketOp) (hl : last.isReceive = false) :
    receivesReady .absent [.Create true, bindOp cfg e u, last] := by
  refine ⟨fun h => ?_, fun h => ?_, fun h => ?_, trivial⟩
  · simp [SocketOp.isReceive] at h
  · rw [bindOp_isReceive] at h
    simp at h
  · rw [hl] at h
    simp at h

theorem threadStep_bound_ops (cfg : Construction) (u : UDPManager) (recv : RecvThread)
    (t1 : Thread) (e : StepEnv) (ops1 : List SocketOp) (evs1 : List Callback)
    (h : threadStep cfg ⟨.bound, some u, recv⟩ e = some (t1, ops1, evs1)) :
    (t1.phase = .ended ∧ ops1 = [.Close]) ∨
    (t1.phase = .bound ∧ t1.udpman = some u ∧ e.threadExit = false ∧
      ∃ off n, ops1 = [.Receive off n]) := by
  unfold threadStep at h
  simp only at h
  split at h
  · split at h
    · simp only [Option.some.injEq, Prod.mk.injEq] at h
      obtain ⟨h1, h2, _⟩ := h
      subst h1 h2
      exact Or.inl ⟨rfl, rfl⟩
    · rename_i hexit
      split at h
      · simp at h
      · simp only [Option.some.injEq, Prod.mk.injEq] at h
        obtain ⟨h1, h2, _⟩ := h
        subst h1 h2
        exact Or.inr ⟨rfl, rfl, by simpa using hexit, _, _, rfl⟩
  · split at h
    · split at h
      · simp at h
      · simp only [Option.some.injEq, Prod.mk.injEq] at h
        obtain ⟨h1, h2, _⟩ := h
        subst h1 h2
        exact Or.inl ⟨rfl, rfl⟩
    · rename_i hexit
      split at h
      · simp at h
      · simp only [Option.some.injEq, Prod.mk.injEq] at h
        obtain ⟨h1, h2, _⟩ := h
        subst h1 h2
        exact Or.inr ⟨rfl, rfl, by simpa using hexit, _, _, rfl⟩

theorem receiveDataStep_agrees (cfg : Construction) (t t1 : Thread) (e : StepEnv)
    (st : SocketState) (ops1 : List SocketOp) (evs1 : List Callback)
    (hag : t.agrees st)
    (hstep : receiveDataStep cfg t e = some (t1, ops1, evs1)) :
    receivesReady st ops1 ∧ t1.agrees (SocketState.afterAll st ops1) ∧
    (t1.phase = .bound → t1.udpman = none → e.threadExit = true) := by
  obtain ⟨phase, udpman, recv⟩ := t
  cases phase with
  | connecting =>
    simp only [Thread.agrees] at hag
    obtain ⟨hu, hst⟩ := hag
    subst hu hst
    simp only [receiveDataStep] at hstep
    by_cases hexit : e.threadExit = true
    · simp only [hexit, if_true, Option.some.injEq, Prod.mk.injEq] at hstep
      obtain ⟨h1, h2, _⟩ := hstep
      subst h1 h2
      exact ⟨trivial, Or.inl ⟨rfl, rfl⟩, fun _ _ => hexit⟩
    · simp only [hexit, Bool.false_eq_true, if_false, threadStep] at hstep
      by_cases hc : (UDPManager.Create e.socket UDPManager.fresh).2 = true
      · by_cases hb : bindResult cfg e (UDPManager.Create e.socket UDPManager.fresh).1 = true
        · simp only [hc, hb, not_true_eq_false, if_false, Option.some.injEq,
            Prod.mk.injEq] at hstep
          obtain ⟨h1, h2, _⟩ := hstep
          subst h1 h2
          have hsock : e.socket ≠ INVALID_SOCKET := by
            simpa [UDPManager.Create, UDPManager.fresh] using hc
          refine ⟨receivesReady_attempt cfg e _ _ rfl, ?_, ?_⟩
          · refine Or.inr ⟨_, rfl, ?_, afterAll_attempt_ok cfg e _ hb⟩
            simp [UDPManager.Create, UDPManager.fresh, hsock]
          · intro _ h
            simp at h
        · simp only [hc, hb, not_true_eq_false, if_false, Bool.false_eq_true, not_false_eq_true,
            if_true, Option.some.injEq, Prod.mk.injEq] at hstep
          obtain ⟨h1, h2, _⟩ := hstep
          subst h1 h2
          refine ⟨receivesReady_attempt cfg e _ _ rfl, ?_, ?_⟩
          · exact ⟨rfl, afterAll_attempt_failed cfg e _⟩
          · intro h
            simp at h
      · simp only [hc, Bool.false_eq_true, not_false_eq_true, if_true, Option.some.injEq,
          Prod.mk.injEq] at hstep
        obtain ⟨h1, h2, _⟩ := hstep
        subst h1 h2
        refine ⟨⟨by simp [SocketOp.isReceive], trivial⟩, ?_, ?_⟩
        · exact ⟨rfl, by simp [SocketState.afterAll, SocketState.after]⟩
        · intro h
          simp at h
  | bound =>
    cases udpman with
    | none =>
      simp only [receiveDataStep] at hstep
      by_cases hexit : e.threadExit = true
      · simp only [hexit, if_true, Option.some.injEq, Prod.mk.injEq] at hstep
        obtain ⟨h1, h2, _⟩ := hstep
        subst h1 h2
        exact ⟨trivial, trivial, fun h => by simp at h⟩
      · simp [hexit] at hstep
    | some u =>
      simp only [Thread.agrees] at hag
      rcases hag with ⟨h, _⟩ | ⟨u', hu', hsock, hst⟩
      · simp at h
      · simp only [Option.some.injEq] at hu'
        subst hu' hst
        simp only [receiveDataStep] at hstep
        obtain ⟨p1, u1, r1⟩ := t1
        rcases threadStep_bound_ops cfg u recv _ e ops1 evs1 hstep with
          ⟨hp, hops⟩ | ⟨hp, hu, _, off, n, hops⟩
        · simp only at hp
          subst hp hops
          exact ⟨⟨fun h => by simp [SocketOp.isReceive] at h, trivial⟩, trivial,
            fun h => by simp at h⟩
        · simp only at hp hu
          subst hp hu hops
          refine ⟨⟨fun _ => rfl, trivial⟩, Or.inr ⟨u, rfl, hsock, rfl⟩, fun _ h => by simp at h⟩
  | ended =>
    simp only [receiveDataStep, Option.some.injEq, Prod.mk.injEq] at hstep
    obtain ⟨h1, h2, _⟩ := hstep
    subst h1 h2
    exact ⟨trivial, trivial, fun h => by simp at h⟩

theorem receiveDataRun_agrees (cfg : Construction) (es : List StepEnv) :
    ∀ (t : Thread) (st : SocketState) (t' : Thread) (ops : List SocketOp) (evs : List Callback),
      t.agrees st → receiveDataRun cfg t es = some (t', ops, evs) →
      receivesReady st ops ∧ t'.agrees (SocketState.afterAll st ops) ∧
      (t'.phase = .bound → t'.udpman = none → t' = t ∨ ∃ e ∈ es, e.threadExit = true) := by
  induction es with
  | nil =>
    intro t st t' ops evs hag h
    simp only [receiveDataRun, Option.some.injEq, Prod.mk.injEq] at h
    obtain ⟨h1, h2, _⟩ := h
    subst h1 h2
    exact ⟨trivial, hag, fun _ _ => Or.inl rfl⟩
  | cons e es ih =>
    intro t st t' ops evs hag h
    rw [receiveDataRun] at h
    split at h
    · simp at h
    · rename_i t1 ops1 evs1 hstep
      split at h
      · simp at h
      · rename_i t2 ops2 evs2 hrun
        simp only [Option.some.injEq, Prod.mk.injEq] at h
        obtain ⟨h1, h2, _⟩ := h
        subst h1 h2
        obtain ⟨hs1, hs2, hs3⟩ := receiveDataStep_agrees cfg t t1 e st ops1 evs1 hag hstep
        obtain ⟨hr1, hr2, hr3⟩ := ih t1 _ t2 ops2 evs2 hs2 hrun
        refine ⟨(receivesReady_append ops1 st ops2).mpr ⟨hs1, hr1⟩, ?_, ?_⟩
        · rw [SocketState.afterAll_append]
          exact hr2
        · intro hp hu
          right
          rcases hr3 hp hu with heq | ⟨e', he', hx⟩
          · subst heq
            exact ⟨e, List.mem_cons_self _ _, hs3 hp hu⟩
          · exact ⟨e', List.mem_cons_of_mem _ he', hx⟩

theorem FlagMonotone_last (es : List StepEnv) (e e0 : StepEnv)
    (hmono : FlagMonotone (es ++ [e])) (h0 : e0 ∈ es) (hx : e0.threadExit = true) :
    e.threadExit = true := by
  induction es with
  | nil => simp at h0
  | cons a es ih =>
    obtain ⟨ha, hrest⟩ := hmono
    rcases List.mem_cons.mp h0 with heq | hmem
    · subst heq
      exact ha hx e (by simp)
    · exact ih hrest hmem

theorem flag_reset_calls_null :
    receiveDataRun sampleConfig (Thread.start ⟨[1], []⟩) [envShutdown, envReceive .timeout] =
      none := by
  decide

/-- C30.  `Receive` is only called on a bound socket.  The thread runs from the entry
of `receiveData` over any steps: any outcomes of `socket`, `bind` and the group join,
any outcomes of `Receive`, the flag `threadExit` read as set from any step on but
never reset.  In the calls made on `udpman`, every `Receive` comes when the last
calls on the socket were a `Create` that returned true, then the `Bind` or
`BindMcast` that returned true, then `SetTimeoutReceive(1)`, with no `Close` since.
And at every moment at which the next step calls `Receive` (the thread is at the
receive loop and reads the flag as unset), `udpman` is not null and points to an
open socket in that state. -/
theorem receive_on_ready_socket (cfg : Construction) (c : TrackLinkClient) (es : List StepEnv)
    (e : StepEnv) (t : Thread) (ops : List SocketOp) (evs : List Callback)
    (hmono : FlagMonotone (es ++ [e]))
    (hrun : receiveDataRun cfg (Thread.start c) es = some (t, ops, evs)) :
    receivesReady .absent ops ∧
    (t.phase = .bound → e.threadExit = false →
      ∃ u, t.udpman = some u ∧ u.m_hSocket ≠ INVALID_SOCKET ∧
        SocketState.afterAll .absent ops = .ready) := by
  have hstart : (Thread.start c).agrees .absent := ⟨rfl, rfl⟩
  obtain ⟨h1, h2, h3⟩ := receiveDataRun_agrees cfg es _ _ t ops evs hstart hrun
  refine ⟨h1, ?_⟩
  intro hp hexit
  obtain ⟨phase, udpman, recv⟩ := t
  simp only at hp
  subst hp
  simp only [Thread.agrees] at h2
  rcases h2 with ⟨hu, _⟩ | hu
  · rcases h3 rfl hu with heq | ⟨e0, he0, hx⟩
    · simp [Thread.start] at heq
    · rw [FlagMonotone_last es e e0 hmono he0 hx] at hexit
      simp at hexit
  · exact hu

/-- C30, witness: `socket` fails, then `bind` fails, then the attempt succeeds on socket
6 and a `Receive` times out; the next step reads the flag as unset and calls `Receive`
on socket 6, which is ready. -/
theorem receive_on_ready_socket_witness :
    receivesReady .absent
      [.Create false, .Create true, .BindMcast 0 0 44345 false, .Close, .Create true,
        .BindMcast 0 0 44345 true, .SetTimeoutReceive 1, .Receive 0 20480] ∧
    ∃ u, (some (⟨6⟩ : UDPManager)) = some u ∧ u.m_hSocket ≠ INVALID_SOCKET ∧
      SocketState.afterAll .absent
        [.Create false, .Create true, .BindMcast 0 0 44345 false, .Close, .Create true,
          .BindMcast 0 0 44345 true, .SetTimeoutReceive 1, .Receive 0 20480] = .ready :=
  ⟨(receive_on_ready_socket sampleConfig ⟨[1], []⟩
      [envCreateFails, envBindFails, envReceive .timeout, envReceive .timeout]
      (envReceive .timeout) ⟨.bound, some ⟨6⟩, ⟨⟨[1], []⟩, [], 0⟩⟩ _ []
      (by decide) (by decide)).1,
    (receive_on_ready_socket sampleConfig ⟨[1], []⟩
      [envCreateFails, envBindFails, envReceive .timeout, envReceive .timeout]
      (envReceive .timeout) ⟨.bound, some ⟨6⟩, ⟨⟨[1], []⟩, [], 0⟩⟩ _ []
      (by decide) (by decide)).2 rfl rfl⟩

end pharus
